import Mathlib

/-!
Verification of the `website-monitor` repository core against its specification.

The shallow embedding below translates the relevant TypeScript sources:

* `src/diff-report.ts` — tokenizer, Myers word diff, chunk merging, render
  counting and the similarity score of `createDiffReport`;
* `src/unnamed/part_006` (`MonitorEngine`) — the scheduler / concurrency
  controller, task-registry rebuild, per-check change detection, the snapshot
  store save path, and retry backoff.

Texts are modelled as `List Char`, JS numbers that hold integers as `Nat`/`Int`,
and the few fractional JS computations (`* 0.1`, similarity ratios) as exact
rationals.  Fallible or effectful code is modelled by explicit effect traces.
-/

namespace WM

/-- Texts and tokens: a JS string, modelled as its character list. -/
abbrev Str := List Char

/-! ## `src/diff-report.ts` — word diff engine -/

/-- Chunk kind of the diff output (`"equal" | "add" | "del"`). -/
inductive DiffType
  | equal
  | add
  | del
deriving DecidableEq, Repr

/-- `interface DiffChunk { type; value }`. -/
structure DiffChunk where
  type : DiffType
  value : Str
deriving DecidableEq, Repr

/-- `MAX_COMPARE_CHARS = 120_000`. -/
def MAX_COMPARE_CHARS : Nat := 120000

/-- `MAX_RENDER_CHARS = 90_000`. -/
def MAX_RENDER_CHARS : Nat := 90000

/-- JS `\s` membership for the characters this development manipulates
(space-like characters recognised by the tokenizer's regex). -/
def isWS (c : Char) : Bool :=
  c = ' ' || c = '\t' || c = '\n' || c = '\r' ||
  c = Char.ofNat 11 || c = Char.ofNat 12 || c = Char.ofNat 0xa0 || c = Char.ofNat 0xfeff

theorem dropWhile_length_le {α : Type} (p : α → Bool) (l : List α) :
    (l.dropWhile p).length ≤ l.length := by
  induction l with
  | nil => simp [List.dropWhile]
  | cons a l ih =>
    by_cases h : p a
    · simpa [List.dropWhile, h] using Nat.le_succ_of_le ih
    · simp [List.dropWhile, h]

/-- `tokenizeByWord`: split into maximal runs of whitespace / non-whitespace
(`input.match(/\s+|\S+/g) ?? []`). -/
def tokenizeByWord : Str → List Str
  | [] => []
  | c :: rest =>
    (c :: rest.takeWhile (fun c' => isWS c' = isWS c)) ::
      tokenizeByWord (rest.dropWhile (fun c' => isWS c' = isWS c))
termination_by l => l.length
decreasing_by
  simp only [List.length_cons]
  exact Nat.lt_succ_of_le (dropWhile_length_le _ _)

/-- `mergeChunks` merges adjacent same-type runs (`previous.value += chunk.value`).
The first argument accumulates already-merged chunks in reverse order. -/
def mergeAux : List DiffChunk → List DiffChunk → List DiffChunk
  | acc, [] => acc.reverse
  | [], c :: rest => mergeAux [c] rest
  | p :: acc, c :: rest =>
    if p.type = c.type then mergeAux (⟨p.type, p.value ++ c.value⟩ :: acc) rest
    else mergeAux (c :: p :: acc) rest

/-- `mergeChunks(chunks)`. -/
def mergeChunks (l : List DiffChunk) : List DiffChunk := mergeAux [] l

/-- `afterTokens[y]`-style indexing with a possibly negative JS index. -/
def tokAt (l : List Str) (i : Int) : Option Str :=
  if i < 0 then none else l.get? i.toNat

/-- A frontier map `Map<number, number>` of the forward pass (`k ↦ x`). -/
abbrev Front := Int → Option Nat

/-- The empty frontier. -/
def emptyFront : Front := fun _ => none

/-- `frontier.set(k, x)`. -/
def fset (f : Front) (k : Int) (v : Nat) : Front :=
  fun k' => if k' = k then some v else f k'

/-- The initial frontier `{1 ↦ 0}`. -/
def initFront : Front := fset emptyFront 1 0

/-- JS `left < right` where a missing entry reads as `NEGATIVE_INFINITY`. -/
def ltOpt : Option Nat → Option Nat → Bool
  | none, none => false
  | none, some _ => true
  | some _, none => false
  | some a, some b => a < b

/-- The shared down/right decision `k === -d || (k !== d && left < right)`,
used both by the forward pass and by the backtrack. -/
def chooseDown (f : Front) (d : Nat) (k : Int) : Bool :=
  k = -(d : Int) || (k ≠ (d : Int) && ltOpt (f (k - 1)) (f (k + 1)))

/-- The greedy snake `while (x < n && y < m && before[x] === after[y]) x++, y++`. -/
def snake (A B : List Str) (k : Int) (x : Nat) : Nat :=
  if h : x < A.length ∧ (x : Int) - k < (B.length : Int) ∧
      A.get? x = tokAt B ((x : Int) - k) then
    snake A B k (x + 1)
  else x
termination_by A.length - x
decreasing_by exact Nat.sub_lt_sub_left h.1 (Nat.lt_succ_self x)

/-- One diagonal of the forward pass: the value stored at `k` during iteration
`d` when the previous frontier is `f` (edit move chosen by `chooseDown`,
then snake-extended). -/
def stepVal (A B : List Str) (f : Front) (d : Nat) (k : Int) : Nat :=
  snake A B k (if chooseDown f d k then (f (k + 1)).getD 0 else (f (k - 1)).getD 0 + 1)

/-- The corner test `x >= n && y >= m` that ends the forward pass. -/
def isCorner (A B : List Str) (k : Int) (v : Nat) : Bool :=
  A.length ≤ v && (B.length : Int) ≤ (v : Int) - k

/-- Diagonals `-d, -d+2, …, d` of iteration `d`. -/
def diagRange (d : Nat) : List Int :=
  (List.range (d + 1)).map (fun i : Nat => -(d : Int) + 2 * (i : Int))

/-- The inner `for (k = -d; k <= d; k += 2)` loop: fill `nf`, stopping (second
component `true`) as soon as a set entry passes the corner test. -/
def innerLoop (A B : List Str) (f : Front) (d : Nat) :
    List Int → Front → Front × Bool
  | [], nf => (nf, false)
  | k :: ks, nf =>
    let x := stepVal A B f d k
    let nf := fset nf k x
    if isCorner A B k x then (nf, true)
    else innerLoop A B f d ks nf

/-- Result of the forward pass: the `trace` of frontiers and `finalDistance`
(which stays `0` if the fuel — `d <= max` in the source — runs out). -/
structure ForwardResult where
  trace : List Front
  fD : Nat
  broke : Bool
deriving Inhabited

/-- The outer `for (d = 0; d <= max; d++)` loop of `myersWordDiff`. -/
def outerLoop (A B : List Str) : Nat → Nat → Front → List Front → ForwardResult
  | 0, _, _, trace => ⟨trace, 0, false⟩
  | fuel + 1, d, f, trace =>
    let r := innerLoop A B f d (diagRange d) emptyFront
    if r.2 then ⟨trace ++ [r.1], d, true⟩
    else outerLoop A B fuel (d + 1) r.1 (trace ++ [r.1])

/-- The whole forward pass of `myersWordDiff` (`max = n + m`). -/
def myersForward (A B : List Str) : ForwardResult :=
  outerLoop A B (A.length + B.length + 1) 0 initFront []

/-- The backtrack's inner `while (x > prevX && y > prevY)` loop, returning the
final coordinates and the pushed `equal` chunks in push order. -/
def equalRun (A : List Str) (px py : Int) (x y : Int) :
    Int × Int × List DiffChunk :=
  if h : px < x ∧ py < y then
    let r := equalRun A px py (x - 1) (y - 1)
    (r.1, r.2.1, ⟨.equal, (tokAt A (x - 1)).getD []⟩ :: r.2.2)
  else (x, y, [])
termination_by (x - px).toNat
decreasing_by omega

/-- The trailing `while (x > 0) { del }` loop. -/
def btTrailDel (A : List Str) (x : Int) : List DiffChunk :=
  if h : 0 < x then ⟨.del, (tokAt A (x - 1)).getD []⟩ :: btTrailDel A (x - 1)
  else []
termination_by x.toNat
decreasing_by omega

/-- The trailing `while (y > 0) { add }` loop. -/
def btTrailAdd (B : List Str) (y : Int) : List DiffChunk :=
  if h : 0 < y then ⟨.add, (tokAt B (y - 1)).getD []⟩ :: btTrailAdd B (y - 1)
  else []
termination_by y.toNat
decreasing_by omega

/-- The three trailing loops after the backtrack's main `for` loop. -/
def btTrail (A B : List Str) (x y : Int) : List DiffChunk :=
  if h : 0 < x ∧ 0 < y then ⟨.equal, (tokAt A (x - 1)).getD []⟩ :: btTrail A B (x - 1) (y - 1)
  else btTrailDel A x ++ btTrailAdd B y
termination_by x.toNat
decreasing_by omega

/-- The backtrack's `for (d = finalDistance; d > 0; d--)` loop; the chunk list
is returned in push order (the source reverses it afterwards). -/
def btLoop (A B : List Str) (trace : List Front) : Nat → Int → Int → List DiffChunk
  | 0, x, y => btTrail A B x y
  | d + 1, x, y =>
    let pf := (trace.get? d).getD emptyFront
    let k := x - y
    let prevK := if chooseDown pf (d + 1) k then k + 1 else k - 1
    let prevX : Int := ((pf prevK).getD 0 : Nat)
    let prevY := prevX - prevK
    let r := equalRun A prevX prevY x y
    if r.1 = prevX then
      r.2.2 ++ ⟨.add, (tokAt B prevY).getD []⟩ :: btLoop A B trace d r.1 (r.2.1 - 1)
    else
      r.2.2 ++ ⟨.del, (tokAt A prevX).getD []⟩ :: btLoop A B trace d (r.1 - 1) r.2.1

/-- `myersWordDiff(beforeTokens, afterTokens)`. -/
def myersWordDiff (A B : List Str) : List DiffChunk :=
  let r := myersForward A B
  mergeChunks ((btLoop A B r.trace r.fD A.length B.length).reverse)

/-- Concatenation of the values of the non-removed chunks (reconstructing the
"current" side). -/
def sideCurrent (l : List DiffChunk) : Str :=
  ((l.filter (fun c => c.type ≠ DiffType.del)).map DiffChunk.value).flatten

/-- Concatenation of the values of the non-added chunks (reconstructing the
"previous" side). -/
def sidePrevious (l : List DiffChunk) : Str :=
  ((l.filter (fun c => c.type ≠ DiffType.add)).map DiffChunk.value).flatten

/-! ### Correctness of the word diff: snake lemmas -/

/-- Token equality along diagonal `k` for indices `a ≤ i < b`, in bounds on
both sides. -/
def DiagEq (A B : List Str) (k : Int) (a b : Nat) : Prop :=
  ∀ i : Nat, a ≤ i → i < b →
    i < A.length ∧ 0 ≤ (i : Int) - k ∧ (i : Int) - k < (B.length : Int) ∧
      A.get? i = tokAt B ((i : Int) - k)

theorem diagEq_mono {A B : List Str} {k : Int} {a a' b b' : Nat}
    (h : DiagEq A B k a b) (ha : a ≤ a') (hb : b' ≤ b) : DiagEq A B k a' b' :=
  fun i hi hi' => h i (le_trans ha hi) (lt_of_lt_of_le hi' hb)

theorem snake_ge (A B : List Str) (k : Int) (x : Nat) : x ≤ snake A B k x := by
  have H : ∀ fuel x, A.length - x ≤ fuel → x ≤ snake A B k x := by
    intro fuel
    induction fuel with
    | zero =>
      intro x hx
      rw [snake]
      split
      · next h => omega
      · exact le_rfl
    | succ n ih =>
      intro x hx
      rw [snake]
      split
      · next h => exact le_trans (Nat.le_succ x) (ih (x + 1) (by omega))
      · exact le_rfl
  exact H (A.length - x) x le_rfl

theorem snake_diagEq (A B : List Str) (k : Int) (x : Nat) :
    DiagEq A B k x (snake A B k x) := by
  have H : ∀ fuel x, A.length - x ≤ fuel → DiagEq A B k x (snake A B k x) := by
    intro fuel
    induction fuel with
    | zero =>
      intro x hx
      rw [snake]
      split
      · next h => omega
      · intro i hi hi'; omega
    | succ n ih =>
      intro x hx
      rw [snake]
      split
      · next h =>
        intro i hi hi'
        by_cases hix : x = i
        · subst hix
          refine ⟨h.1, ?_, h.2.1, h.2.2⟩
          have hsome : A.get? x ≠ none := by
            intro hn
            rw [List.get?_eq_none] at hn
            omega
          by_contra hneg
          have hnone : tokAt B ((x : Int) - k) = none := by
            unfold tokAt
            rw [if_pos (by omega)]
          rw [h.2.2] at hsome
          exact hsome hnone
        · exact ih (x + 1) (by omega) i (by omega) hi'
      · intro i hi hi'; omega
  exact H (A.length - x) x le_rfl

theorem snake_stop (A B : List Str) (k : Int) (x : Nat) :
    ¬(snake A B k x < A.length ∧ ((snake A B k x : Int) - k < (B.length : Int)) ∧
       A.get? (snake A B k x) = tokAt B ((snake A B k x : Int) - k)) := by
  have H : ∀ fuel x, A.length - x ≤ fuel →
      ¬(snake A B k x < A.length ∧ ((snake A B k x : Int) - k < (B.length : Int)) ∧
         A.get? (snake A B k x) = tokAt B ((snake A B k x : Int) - k)) := by
    intro fuel
    induction fuel with
    | zero =>
      intro x hx
      rw [snake]
      split
      · next h => omega
      · next h => exact fun hcon => h hcon
    | succ n ih =>
      intro x hx
      rw [snake]
      split
      · next h => exact ih (x + 1) (by omega)
      · next h => exact fun hcon => h hcon
  exact H (A.length - x) x le_rfl

/-- A snake result cannot stop strictly inside a region of diagonal equality. -/
theorem snake_closed {A B : List Str} {k : Int} {x z w : Nat}
    (hz : z ≤ snake A B k x) (hzw : DiagEq A B k z w) : w ≤ snake A B k x := by
  by_contra hlt
  push_neg at hlt
  have h := hzw (snake A B k x) hz hlt
  exact snake_stop A B k x ⟨h.1, h.2.2.1, h.2.2.2⟩

/-! ### Edit paths -/

/-- In-box edit paths: `Reach e (x, y)` means `(x, y)` is reachable from the
origin with exactly `e` edit moves (and any snake moves over equal tokens),
never leaving the `A.length × B.length` grid. -/
inductive Reach (A B : List Str) : Nat → Nat × Nat → Prop
  | start : Reach A B 0 (0, 0)
  | snakeStep {e x y} : Reach A B e (x, y) → x < A.length → y < B.length →
      A.get? x = B.get? y → Reach A B e (x + 1, y + 1)
  | rightStep {e x y} : Reach A B e (x, y) → x < A.length → Reach A B (e + 1) (x + 1, y)
  | downStep {e x y} : Reach A B e (x, y) → y < B.length → Reach A B (e + 1) (x, y + 1)

/-- Unboxed edit paths: edit moves may leave the grid (snake moves, which the
algorithm only performs inside the grid, may not). -/
inductive RawReach (A B : List Str) : Nat → Nat × Nat → Prop
  | start : RawReach A B 0 (0, 0)
  | snakeStep {e x y} : RawReach A B e (x, y) → x < A.length → y < B.length →
      A.get? x = B.get? y → RawReach A B e (x + 1, y + 1)
  | rightStep {e x y} : RawReach A B e (x, y) → RawReach A B (e + 1) (x + 1, y)
  | downStep {e x y} : RawReach A B e (x, y) → RawReach A B (e + 1) (x, y + 1)

theorem reach_le {A B : List Str} {e : Nat} {p : Nat × Nat} (h : Reach A B e p) :
    p.1 ≤ A.length ∧ p.2 ≤ B.length := by
  induction h with
  | start => exact ⟨Nat.zero_le _, Nat.zero_le _⟩
  | snakeStep _ hx hy _ _ => exact ⟨hx, hy⟩
  | rightStep _ hx ih => exact ⟨hx, ih.2⟩
  | downStep _ hy ih => exact ⟨ih.1, hy⟩

theorem reach_diag_bound {A B : List Str} {e : Nat} {p : Nat × Nat}
    (h : Reach A B e p) :
    -(e : Int) ≤ (p.1 : Int) - p.2 ∧ (p.1 : Int) - p.2 ≤ (e : Int) ∧
      2 ∣ ((p.1 : Int) - p.2 + e) := by
  induction h with
  | start => simp
  | snakeStep _ _ _ _ ih =>
    simp only [Nat.cast_add, Nat.cast_one] at *
    constructor
    · omega
    · constructor
      · omega
      · have := ih.2.2; omega
  | rightStep _ _ ih =>
    simp only [Nat.cast_add, Nat.cast_one] at *
    refine ⟨by omega, by omega, ?_⟩
    have := ih.2.2; omega
  | downStep _ _ ih =>
    simp only [Nat.cast_add, Nat.cast_one] at *
    refine ⟨by omega, by omega, ?_⟩
    have := ih.2.2; omega

/-- The full-cost path: all of `A` deleted, then all of `B` inserted. -/
theorem reach_corner (A B : List Str) :
    Reach A B (A.length + B.length) (A.length, B.length) := by
  have h1 : ∀ j, j ≤ A.length → Reach A B j (j, 0) := by
    intro j
    induction j with
    | zero => exact fun _ => Reach.start
    | succ i ih => exact fun hj => Reach.rightStep (ih (by omega)) (by omega)
  have h2 : ∀ j, j ≤ B.length → Reach A B (A.length + j) (A.length, j) := by
    intro j
    induction j with
    | zero => exact fun _ => h1 A.length le_rfl
    | succ i ih => exact fun hj => Reach.downStep (ih (by omega)) (by omega)
  exact h2 B.length le_rfl

/-- Cutting an unboxed path at the grid boundary: the out-of-grid excess is
all edit moves, so a strictly cheaper in-grid path to the clipped point
exists. -/
theorem boxCut {A B : List Str} :
    ∀ {d : Nat} {p : Nat × Nat}, RawReach A B d p →
      ∃ e, Reach A B e (min p.1 A.length, min p.2 B.length) ∧
        e + (p.1 - A.length) + (p.2 - B.length) ≤ d := by
  intro d p h
  induction h with
  | start =>
    refine ⟨0, ?_, by omega⟩
    simpa using Reach.start
  | snakeStep h hx hy heq ih =>
    obtain ⟨e, he, hle⟩ := ih
    rename_i e' x y
    refine ⟨e, ?_, by omega⟩
    have hx1 : min (x + 1) A.length = x + 1 := min_eq_left (by omega)
    have hy1 : min (y + 1) B.length = y + 1 := min_eq_left (by omega)
    rw [hx1, hy1]
    have hx0 : min x A.length = x := min_eq_left (by omega)
    have hy0 : min y B.length = y := min_eq_left (by omega)
    rw [hx0, hy0] at he
    exact Reach.snakeStep he hx hy heq
  | rightStep h ih =>
    obtain ⟨e, he, hle⟩ := ih
    rename_i e' x y
    by_cases hx : x < A.length
    · refine ⟨e + 1, ?_, by omega⟩
      have hx1 : min (x + 1) A.length = x + 1 := min_eq_left (by omega)
      have hx0 : min x A.length = x := min_eq_left (by omega)
      rw [hx1]
      rw [hx0] at he
      exact Reach.rightStep he hx
    · refine ⟨e, ?_, by omega⟩
      have hx1 : min (x + 1) A.length = A.length := min_eq_right (by omega)
      have hx0 : min x A.length = A.length := min_eq_right (by omega)
      rw [hx1]
      rw [hx0] at he
      exact he
  | downStep h ih =>
    obtain ⟨e, he, hle⟩ := ih
    rename_i e' x y
    by_cases hy : y < B.length
    · refine ⟨e + 1, ?_, by omega⟩
      have hy1 : min (y + 1) B.length = y + 1 := min_eq_left (by omega)
      have hy0 : min y B.length = y := min_eq_left (by omega)
      rw [hy1]
      rw [hy0] at he
      exact Reach.downStep he hy
    · refine ⟨e, ?_, by omega⟩
      have hy1 : min (y + 1) B.length = B.length := min_eq_right (by omega)
      have hy0 : min y B.length = B.length := min_eq_right (by omega)
      rw [hy1]
      rw [hy0] at he
      exact he

/-! ### Diagonal ranges -/

theorem mem_diagRange {d : Nat} {k : Int} :
    k ∈ diagRange d ↔ -(d : Int) ≤ k ∧ k ≤ (d : Int) ∧ 2 ∣ (k + d) := by
  unfold diagRange
  rw [List.mem_map]
  constructor
  · rintro ⟨i, hi, rfl⟩
    rw [List.mem_range] at hi
    refine ⟨by omega, by omega, ?_⟩
    exact ⟨(i : Int), by ring⟩
  · rintro ⟨h1, h2, j, hj⟩
    refine ⟨j.toNat, ?_, by omega⟩
    rw [List.mem_range]
    omega

theorem mem_diagRange_zero {k : Int} : k ∈ diagRange 0 ↔ k = 0 := by
  rw [mem_diagRange]
  omega

/-! ### Idealised frontiers

`idealF A B d` is frontier `d` of the forward pass as if no early corner break
happened: every diagonal of `diagRange d` carries `stepVal` over the previous
ideal frontier.  While the real loop has not broken yet, its frontiers agree
with the ideal ones pointwise. -/

def idealF (A B : List Str) : Nat → Front
  | 0 => fun k => if k ∈ diagRange 0 then some (stepVal A B initFront 0 k) else none
  | d + 1 => fun k =>
    if k ∈ diagRange (d + 1) then some (stepVal A B (idealF A B d) (d + 1) k) else none

/-- The frontier that iteration `d` reads from. -/
def prevIdeal (A B : List Str) : Nat → Front
  | 0 => initFront
  | d + 1 => idealF A B d

theorem idealF_eq (A B : List Str) (d : Nat) (k : Int) :
    idealF A B d k =
      if k ∈ diagRange d then some (stepVal A B (prevIdeal A B d) d k) else none := by
  cases d <;> rfl

theorem idealF_isSome {A B : List Str} {d : Nat} {k : Int} (h : k ∈ diagRange d) :
    idealF A B d k = some (stepVal A B (prevIdeal A B d) d k) := by
  rw [idealF_eq, if_pos h]

theorem idealF_some {A B : List Str} {d : Nat} {k : Int} {v : Nat}
    (h : idealF A B d k = some v) :
    k ∈ diagRange d ∧ v = stepVal A B (prevIdeal A B d) d k := by
  rw [idealF_eq] at h
  by_cases hk : k ∈ diagRange d
  · rw [if_pos hk] at h
    exact ⟨hk, (Option.some_injective _ h).symm⟩
  · rw [if_neg hk] at h
    exact absurd h (by simp)

/-- The furthest-reaching lower bound: every in-box point reachable with `e`
edits is dominated by the ideal frontier entry of its diagonal at iteration
`e`. -/
theorem frontier_lower {A B : List Str} :
    ∀ {e : Nat} {p : Nat × Nat}, Reach A B e p →
      ∃ v, idealF A B e ((p.1 : Int) - p.2) = some v ∧ p.1 ≤ v := by
  intro e p h
  induction h with
  | start =>
    refine ⟨stepVal A B initFront 0 0, ?_, Nat.zero_le _⟩
    simpa using idealF_isSome (A := A) (B := B) (mem_diagRange_zero.2 rfl)
  | snakeStep h hx hy heq ih =>
    rename_i e x y
    obtain ⟨v, hv, hle⟩ := ih
    have hk : ((x + 1 : Nat) : Int) - ((y + 1 : Nat) : Int) = (x : Int) - y := by
      push_cast; ring
    refine ⟨v, by rw [hk] at *; exact hv, ?_⟩
    -- v is a snake fixed point; the equal tokens at (x, y) force v > x.
    obtain ⟨hkmem, hval⟩ := idealF_some hv
    rcases Nat.lt_or_ge x v with hlt | hge
    · omega
    · exfalso
      have hxv : x = v := le_antisymm hle hge
      subst hxv
      unfold stepVal at hval
      apply snake_stop A B ((x : Int) - y)
        (if chooseDown (prevIdeal A B e) e ((x : Int) - y) then
          ((prevIdeal A B e) ((x : Int) - y + 1)).getD 0
         else ((prevIdeal A B e) ((x : Int) - y - 1)).getD 0 + 1)
      rw [← hval]
      refine ⟨hx, by omega, ?_⟩
      rw [heq]
      unfold tokAt
      rw [if_neg (by omega)]
      congr 1
      omega
  | rightStep h hx ih =>
    rename_i e x y
    obtain ⟨v, hv, hle⟩ := ih
    obtain ⟨hkmem, hval⟩ := idealF_some hv
    have hb := reach_diag_bound h
    simp only at hb
    have hk1 : ((x + 1 : Nat) : Int) - (y : Int) = ((x : Int) - y) + 1 := by push_cast; ring
    have hmem1 : ((x : Int) - y) + 1 ∈ diagRange (e + 1) := by
      rw [mem_diagRange]
      refine ⟨by omega, by omega, ?_⟩
      obtain ⟨c, hc⟩ := hb.2.2
      exact ⟨c + 1, by push_cast; omega⟩
    refine ⟨stepVal A B (prevIdeal A B (e + 1)) (e + 1) (((x : Int) - y) + 1),
      by rw [hk1]; exact idealF_isSome hmem1, ?_⟩
    -- the start point of the new snake already dominates x + 1
    have hprev : prevIdeal A B (e + 1) = idealF A B e := rfl
    set k1 : Int := ((x : Int) - y) + 1 with hk1def
    have hstart : x + 1 ≤
        (if chooseDown (idealF A B e) (e + 1) k1 then ((idealF A B e) (k1 + 1)).getD 0
         else ((idealF A B e) (k1 - 1)).getD 0 + 1) := by
      by_cases hcd : chooseDown (idealF A B e) (e + 1) k1
      · rw [if_pos hcd]
        -- chooseDown at k1 cannot come from the `k = -d` disjunct, so ltOpt holds
        unfold chooseDown at hcd
        have hne : ¬(k1 = -((e + 1 : Nat) : Int)) := by push_cast; omega
        rw [Bool.or_eq_true, Bool.and_eq_true] at hcd
        rcases hcd with hcd | ⟨_, hlt⟩
        · exact absurd (by exact_mod_cast of_decide_eq_true hcd) hne
        · have hk1m : k1 - 1 = (x : Int) - y := by omega
          rw [hk1m] at hlt
          rw [hv] at hlt
          cases hopt : (idealF A B e) (k1 + 1) with
          | none => rw [hopt] at hlt; simp [ltOpt] at hlt
          | some w =>
            rw [hopt] at hlt
            simp only [ltOpt] at hlt
            have : v < w := by exact_mod_cast of_decide_eq_true hlt
            simp only [hopt, Option.getD_some]
            omega
      · rw [if_neg hcd]
        have hk1m : k1 - 1 = (x : Int) - y := by omega
        rw [hk1m, hv, Option.getD_some]
        omega
    calc x + 1 ≤ _ := hstart
    _ ≤ _ := by rw [hprev]; exact snake_ge A B k1 _
  | downStep h hy ih =>
    rename_i e x y
    obtain ⟨v, hv, hle⟩ := ih
    obtain ⟨hkmem, hval⟩ := idealF_some hv
    have hb := reach_diag_bound h
    simp only at hb
    have hk1 : (x : Int) - ((y + 1 : Nat) : Int) = ((x : Int) - y) - 1 := by push_cast; ring
    have hmem1 : ((x : Int) - y) - 1 ∈ diagRange (e + 1) := by
      rw [mem_diagRange]
      refine ⟨by omega, by omega, ?_⟩
      obtain ⟨c, hc⟩ := hb.2.2
      exact ⟨c, by push_cast; omega⟩
    refine ⟨stepVal A B (prevIdeal A B (e + 1)) (e + 1) (((x : Int) - y) - 1),
      by rw [hk1]; exact idealF_isSome hmem1, ?_⟩
    have hprev : prevIdeal A B (e + 1) = idealF A B e := rfl
    set k1 : Int := ((x : Int) - y) - 1 with hk1def
    have hstart : x ≤
        (if chooseDown (idealF A B e) (e + 1) k1 then ((idealF A B e) (k1 + 1)).getD 0
         else ((idealF A B e) (k1 - 1)).getD 0 + 1) := by
      by_cases hcd : chooseDown (idealF A B e) (e + 1) k1
      · rw [if_pos hcd]
        have hk1p : k1 + 1 = (x : Int) - y := by omega
        rw [hk1p, hv, Option.getD_some]
        exact hle
      · rw [if_neg hcd]
        -- not choosing down forces a defined, at-least-v left neighbour
        unfold chooseDown at hcd
        rw [Bool.or_eq_true, Bool.and_eq_true] at hcd
        push_neg at hcd
        obtain ⟨hc1, hc2⟩ := hcd
        have hk1ne : k1 ≠ ((e + 1 : Nat) : Int) := by push_cast; omega
        have h2 := hc2 (by simpa using hk1ne)
        have hk1p : k1 + 1 = (x : Int) - y := by omega
        rw [hk1p, hv] at h2
        cases hopt : (idealF A B e) (k1 - 1) with
        | none => rw [hopt] at h2; simp [ltOpt] at h2
        | some w =>
          rw [hopt] at h2
          simp only [ltOpt] at h2
          have hwv : ¬(w < v) := by
            intro hc
            exact h2 (by exact_mod_cast decide_eq_true hc)
          simp only [hopt, Option.getD_some]
          omega
    calc x ≤ _ := hstart
    _ ≤ _ := by rw [hprev]; exact snake_ge A B k1 _

/-- Extending an unboxed path along a diagonal of equal tokens. -/
theorem raw_snake_ext {A B : List Str} {e : Nat} {k : Int} :
    ∀ (s : Nat) (x y : Nat), RawReach A B e (x, y) → (x : Int) - y = k →
      DiagEq A B k x (x + s) → RawReach A B e (x + s, y + s) := by
  intro s
  induction s with
  | zero => intro x y h _ _; simpa using h
  | succ t ih =>
    intro x y h hk hdeq
    have hx := hdeq x le_rfl (by omega)
    have hstep : RawReach A B e (x + 1, y + 1) := by
      refine RawReach.snakeStep h hx.1 ?_ ?_
      · have : (x : Int) - k = (y : Int) := by omega
        rw [this] at hx
        exact_mod_cast hx.2.2.1
      · have hyk : (x : Int) - k = (y : Int) := by omega
        rw [hx.2.2.2, hyk]
        unfold tokAt
        rw [if_neg (by omega)]
        norm_num
    have hnext : RawReach A B e (x + 1 + t, y + 1 + t) := by
      refine ih (x + 1) (y + 1) hstep (by push_cast; omega) ?_
      intro i hi hi'
      exact hdeq i (by omega) (by omega)
    have hxx : x + 1 + t = x + (t + 1) := by omega
    have hyy : y + 1 + t = y + (t + 1) := by omega
    rw [hxx, hyy] at hnext
    exact hnext

/-- Every ideal-frontier entry is the endpoint of a genuine unboxed path of
`d` edits, and lies on or above its diagonal's axis. -/
theorem entry_raw {A B : List Str} :
    ∀ (d : Nat) (k : Int) (v : Nat), idealF A B d k = some v →
      0 ≤ (v : Int) - k ∧ RawReach A B d (v, ((v : Int) - k).toNat) := by
  intro d
  induction d with
  | zero =>
    intro k v h
    obtain ⟨hk, hv⟩ := idealF_some h
    rw [mem_diagRange_zero] at hk
    subst hk
    -- stepVal over the initial frontier at (0, 0): chooseDown is true, start 0
    have hval : v = snake A B 0 0 := by
      rw [hv]
      unfold stepVal chooseDown
      norm_num
      rfl
    have hraw : RawReach A B 0 (0 + v, 0 + v) := by
      refine raw_snake_ext (k := 0) v 0 0 RawReach.start (by norm_num) ?_
      have := snake_diagEq A B 0 0
      rw [← hval] at this
      intro i hi hi'
      exact this i hi (by omega)
    constructor
    · omega
    · have : ((v : Int) - 0).toNat = v := by omega
      rw [this]
      simpa using hraw
  | succ d ih =>
    intro k v h
    obtain ⟨hk, hv⟩ := idealF_some h
    rw [mem_diagRange] at hk
    have hprev : prevIdeal A B (d + 1) = idealF A B d := rfl
    rw [hprev] at hv
    unfold stepVal at hv
    by_cases hcd : chooseDown (idealF A B d) (d + 1) k
    · rw [if_pos hcd] at hv
      -- down move from the parent at diagonal k + 1
      have hparent : ∃ pv, idealF A B d (k + 1) = some pv := by
        unfold chooseDown at hcd
        rw [Bool.or_eq_true, Bool.and_eq_true] at hcd
        rcases hcd with hcd | ⟨_, hlt⟩
        · have hkk : k = -((d + 1 : Nat) : Int) := by simpa using hcd
          have hmem : k + 1 ∈ diagRange d := by
            rw [mem_diagRange]
            push_cast at hkk ⊢
            refine ⟨by omega, by omega, ?_⟩
            exact ⟨0, by omega⟩
          exact ⟨_, idealF_isSome hmem⟩
        · cases hopt : (idealF A B d) (k + 1) with
          | none => rw [hopt] at hlt; cases hopt2 : (idealF A B d) (k - 1) <;>
              rw [hopt2] at hlt <;> simp [ltOpt] at hlt
          | some w => exact ⟨w, rfl⟩
      obtain ⟨pv, hpv⟩ := hparent
      obtain ⟨hpy, hpraw⟩ := ih (k + 1) pv hpv
      rw [hpv, Option.getD_some] at hv
      -- edit point: (pv, pv - k); snake to (v, v - k)
      have hparentY : ((pv : Int) - (k + 1)).toNat + 1 = ((pv : Int) - k).toNat := by omega
      have hedit : RawReach A B (d + 1) (pv, ((pv : Int) - k).toNat) := by
        rw [← hparentY]
        exact RawReach.downStep hpraw
      have hsn : v = snake A B k pv := hv
      have hge : pv ≤ v := by rw [hsn]; exact snake_ge A B k pv
      have hdeq : DiagEq A B k pv v := by
        have := snake_diagEq A B k pv
        rw [← hsn] at this
        exact this
      have hfin : RawReach A B (d + 1) (pv + (v - pv), ((pv : Int) - k).toNat + (v - pv)) := by
        refine raw_snake_ext (k := k) (v - pv) pv _ hedit (by omega) ?_
        intro i hi hi'
        exact hdeq i hi (by omega)
      have hx : pv + (v - pv) = v := by omega
      have hy0 : 0 ≤ (v : Int) - k := by
        have : 0 ≤ (pv : Int) - k := by omega
        omega
      refine ⟨hy0, ?_⟩
      have hy : ((pv : Int) - k).toNat + (v - pv) = ((v : Int) - k).toNat := by omega
      rw [hx, hy] at hfin
      exact hfin
    · rw [if_neg hcd] at hv
      -- right move from the parent at diagonal k - 1
      have hkne : ¬(k = -((d + 1 : Nat) : Int)) := by
        intro hkk
        apply hcd
        unfold chooseDown
        rw [Bool.or_eq_true]
        left
        simpa using hkk
      have hmem : k - 1 ∈ diagRange d := by
        rw [mem_diagRange]
        push_cast at hkne hk ⊢
        obtain ⟨c, hc⟩ := hk.2.2
        refine ⟨by omega, by omega, ⟨c - 1, by omega⟩⟩
      have hpv := idealF_isSome (A := A) (B := B) hmem
      set pv := stepVal A B (prevIdeal A B d) d (k - 1) with hpvdef
      obtain ⟨hpy, hpraw⟩ := ih (k - 1) pv hpv
      rw [hpv, Option.getD_some] at hv
      have hedit : RawReach A B (d + 1) (pv + 1, ((pv : Int) - (k - 1)).toNat) :=
        RawReach.rightStep hpraw
      have hsn : v = snake A B k (pv + 1) := hv
      have hge : pv + 1 ≤ v := by rw [hsn]; exact snake_ge A B k (pv + 1)
      have hdeq : DiagEq A B k (pv + 1) v := by
        have := snake_diagEq A B k (pv + 1)
        rw [← hsn] at this
        exact this
      have heditY : ((pv : Int) - (k - 1)).toNat = (((pv + 1 : Nat) : Int) - k).toNat := by
        omega
      have hfin : RawReach A B (d + 1)
          (pv + 1 + (v - (pv + 1)), ((pv : Int) - (k - 1)).toNat + (v - (pv + 1))) := by
        refine raw_snake_ext (k := k) (v - (pv + 1)) (pv + 1) _ hedit (by push_cast; omega) ?_
        intro i hi hi'
        exact hdeq i hi (by omega)
      have hx : pv + 1 + (v - (pv + 1)) = v := by omega
      have hy0 : 0 ≤ (v : Int) - k := by
        have : 0 ≤ (pv : Int) - (k - 1) := by omega
        omega
      refine ⟨hy0, ?_⟩
      have hy : ((pv : Int) - (k - 1)).toNat + (v - (pv + 1)) = ((v : Int) - k).toNat := by
        omega
      rw [hx, hy] at hfin
      exact hfin

/-! ### The real loop agrees with the ideal frontiers until the break -/

theorem stepVal_congr {A B : List Str} {d : Nat} {k : Int} {f g : Front}
    (h : ∀ k', f k' = g k') : stepVal A B f d k = stepVal A B g d k := by
  unfold stepVal chooseDown
  rw [h (k - 1), h (k + 1)]

theorem chooseDown_congr {d : Nat} {k : Int} {f g : Front}
    (h : ∀ k', f k' = g k') : chooseDown f d k = chooseDown g d k := by
  unfold chooseDown
  rw [h (k - 1), h (k + 1)]

theorem innerLoop_preserve {A B : List Str} {f : Front} {d : Nat} :
    ∀ (ks : List Int) (nf : Front) (k : Int),
      nf k = some (stepVal A B f d k) →
      (innerLoop A B f d ks nf).1 k = some (stepVal A B f d k) := by
  intro ks
  induction ks with
  | nil => intro nf k h; exact h
  | cons k0 ks ih =>
    intro nf k h
    simp only [innerLoop]
    split
    · next hcor =>
      simp only [fset]
      by_cases hk : k = k0
      · subst hk; rw [if_pos rfl]
      · rw [if_neg hk]; exact h
    · next hcor =>
      apply ih
      simp only [fset]
      by_cases hk : k = k0
      · subst hk; rw [if_pos rfl]
      · rw [if_neg hk]; exact h

theorem innerLoop_not_mem {A B : List Str} {f : Front} {d : Nat} :
    ∀ (ks : List Int) (nf : Front) (k : Int), k ∉ ks →
      (innerLoop A B f d ks nf).1 k = nf k := by
  intro ks
  induction ks with
  | nil => intro nf k _; rfl
  | cons k0 ks ih =>
    intro nf k hk
    have hne : k ≠ k0 := fun hcon => hk (by rw [hcon]; exact List.mem_cons_self _ _)
    have hnm : k ∉ ks := fun hcon => hk (List.mem_cons_of_mem _ hcon)
    simp only [innerLoop]
    split
    · simp only [fset]; rw [if_neg hne]
    · rw [ih _ k hnm]; simp only [fset]; rw [if_neg hne]

theorem innerLoop_complete {A B : List Str} {f : Front} {d : Nat} :
    ∀ (ks : List Int) (nf : Front),
      (innerLoop A B f d ks nf).2 = false →
      ∀ k ∈ ks, (innerLoop A B f d ks nf).1 k = some (stepVal A B f d k) := by
  intro ks
  induction ks with
  | nil => intro nf _ k hk; exact absurd hk (List.not_mem_nil k)
  | cons k0 ks ih =>
    intro nf hb k hk
    simp only [innerLoop] at hb ⊢
    split
    · next hcor => rw [if_pos hcor] at hb; exact absurd hb (by simp)
    · next hcor =>
      rw [if_neg hcor] at hb
      rcases List.mem_cons.1 hk with rfl | hmem
      · apply innerLoop_preserve
        simp [fset]
      · exact ih _ hb k hmem

theorem innerLoop_nocorner {A B : List Str} {f : Front} {d : Nat} :
    ∀ (ks : List Int) (nf : Front),
      (innerLoop A B f d ks nf).2 = false →
      ∀ k ∈ ks, isCorner A B k (stepVal A B f d k) = false := by
  intro ks
  induction ks with
  | nil => intro nf _ k hk; exact absurd hk (List.not_mem_nil k)
  | cons k0 ks ih =>
    intro nf hb k hk
    simp only [innerLoop] at hb
    rcases hcor : isCorner A B k0 (stepVal A B f d k0) with hfalse | htrue
    · rw [if_neg (by rw [hcor]; exact Bool.false_ne_true)] at hb
      rcases List.mem_cons.1 hk with rfl | hmem
      · exact hcor
      · exact ih _ hb k hmem
    · rw [if_pos (by rw [hcor])] at hb
      exact absurd hb (by simp)

theorem innerLoop_break_corner {A B : List Str} {f : Front} {d : Nat} :
    ∀ (ks : List Int) (nf : Front),
      (innerLoop A B f d ks nf).2 = true →
      ∃ k ∈ ks, isCorner A B k (stepVal A B f d k) = true := by
  intro ks
  induction ks with
  | nil => intro nf hb; exact absurd hb (by simp [innerLoop])
  | cons k0 ks ih =>
    intro nf hb
    simp only [innerLoop] at hb
    rcases hcor : isCorner A B k0 (stepVal A B f d k0) with hfalse | htrue
    · rw [if_neg (by rw [hcor]; exact Bool.false_ne_true)] at hb
      obtain ⟨k, hk, hcork⟩ := ih _ hb
      exact ⟨k, List.mem_cons_of_mem _ hk, hcork⟩
    · exact ⟨k0, List.mem_cons_self _ _, hcor⟩

/-- The outer loop always ends with a corner break, at a distance `D` whose
earlier iterations all match the ideal frontiers and contain no corner. -/
theorem outerLoop_spec {A B : List Str} :
    ∀ (fuel d : Nat) (f : Front) (tr : List Front),
      (∀ k, f k = prevIdeal A B d k) →
      tr.length = d →
      (∀ j, j < d → ∀ k, ((tr.get? j).getD emptyFront) k = idealF A B j k) →
      (∀ j, j < d → ∀ k ∈ diagRange j,
        isCorner A B k (stepVal A B (prevIdeal A B j) j k) = false) →
      d + fuel = A.length + B.length + 1 →
      ∃ D, d ≤ D ∧
        (outerLoop A B fuel d f tr).fD = D ∧
        (outerLoop A B fuel d f tr).broke = true ∧
        (outerLoop A B fuel d f tr).trace.length = D + 1 ∧
        (∀ j, j < D → ∀ k,
          (((outerLoop A B fuel d f tr).trace.get? j).getD emptyFront) k = idealF A B j k) ∧
        (∀ j, j < D → ∀ k ∈ diagRange j,
          isCorner A B k (stepVal A B (prevIdeal A B j) j k) = false) ∧
        ∃ kstar, kstar ∈ diagRange D ∧
          isCorner A B kstar (stepVal A B (prevIdeal A B D) D kstar) = true := by
  intro fuel
  induction fuel with
  | zero =>
    intro d f tr _ _ _ h4 h5
    exfalso
    obtain ⟨v, hv, hle⟩ := frontier_lower (reach_corner A B)
    obtain ⟨hkmem, hval⟩ := idealF_some hv
    have hcor : isCorner A B ((A.length : Int) - B.length) v = true := by
      unfold isCorner
      rw [Bool.and_eq_true]
      exact ⟨decide_eq_true hle, decide_eq_true (by omega)⟩
    rw [hval] at hcor
    have hfalse := h4 (A.length + B.length) (by omega) _ hkmem
    rw [hfalse] at hcor
    exact Bool.false_ne_true hcor
  | succ fuel ih =>
    intro d f tr h1 h2 h3 h4 h5
    simp only [outerLoop]
    by_cases hb : (innerLoop A B f d (diagRange d) emptyFront).2
    · rw [if_pos hb]
      refine ⟨d, le_rfl, rfl, rfl, ?_, ?_, h4, ?_⟩
      · simp [h2]
      · intro j hj k
        rw [List.get?_append (by omega)]
        exact h3 j hj k
      · obtain ⟨kstar, hkmem, hcor⟩ := innerLoop_break_corner _ _ hb
        refine ⟨kstar, hkmem, ?_⟩
        rw [← stepVal_congr h1]
        exact hcor
    · rw [if_neg hb]
      have hb' : (innerLoop A B f d (diagRange d) emptyFront).2 = false :=
        Bool.not_eq_true _ ▸ (by simpa using hb)
      have hf' : ∀ k, (innerLoop A B f d (diagRange d) emptyFront).1 k =
          prevIdeal A B (d + 1) k := by
        intro k
        have hpi : prevIdeal A B (d + 1) = idealF A B d := rfl
        by_cases hk : k ∈ diagRange d
        · rw [innerLoop_complete _ _ hb' k hk, stepVal_congr h1, hpi, idealF_isSome hk]
        · rw [innerLoop_not_mem _ _ _ hk, hpi, idealF_eq, if_neg hk]
          rfl
      have h3' : ∀ j, j < d + 1 → ∀ k,
          (((tr ++ [(innerLoop A B f d (diagRange d) emptyFront).1]).get? j).getD
            emptyFront) k = idealF A B j k := by
        intro j hj k
        rcases Nat.lt_or_ge j d with hjd | hjd
        · rw [List.get?_append (by omega)]
          exact h3 j hjd k
        · have hjeq : j = d := by omega
          have hget : ((tr ++ [(innerLoop A B f d (diagRange d) emptyFront).1]).get? j) =
              some ((innerLoop A B f d (diagRange d) emptyFront).1) := by
            rw [hjeq, ← h2]
            exact List.get?_concat_length _ _
          rw [hget, Option.getD_some, hf' k, hjeq]
          rfl
      have h4' : ∀ j, j < d + 1 → ∀ k ∈ diagRange j,
          isCorner A B k (stepVal A B (prevIdeal A B j) j k) = false := by
        intro j hj k hk
        rcases Nat.lt_or_ge j d with hjd | hjd
        · exact h4 j hjd k hk
        · have hjeq : j = d := by omega
          subst hjeq
          rw [← stepVal_congr h1]
          exact innerLoop_nocorner _ _ hb' k hk
      obtain ⟨D, hD, hfD, hbroke, hlen, htrace, hnocor, hcorner⟩ :=
        ih (d + 1) _ (tr ++ [(innerLoop A B f d (diagRange d) emptyFront).1]) hf'
          (by simp [h2]) h3' h4' (by omega)
      exact ⟨D, by omega, hfD, hbroke, hlen, htrace, hnocor, hcorner⟩

/-! ### Backtrack correctness -/

/-- The chunks pushed by one `while (x > prevX && y > prevY)` run. -/
def eqChunks (A : List Str) (x : Int) (s : Nat) : List DiffChunk :=
  (List.range s).map (fun j : Nat => ⟨.equal, (tokAt A (x - 1 - (j : Int))).getD []⟩)

theorem eqChunks_succ (A : List Str) (x : Int) (s : Nat) :
    eqChunks A x (s + 1) =
      ⟨.equal, (tokAt A (x - 1)).getD []⟩ :: eqChunks A (x - 1) s := by
  unfold eqChunks
  rw [List.range_succ_eq_map, List.map_cons, List.map_map]
  congr 1
  · norm_num
  · apply List.map_congr_left
    intro j _
    simp only [Function.comp_apply]
    congr 2
    push_cast
    ring

theorem equalRun_eq (A : List Str) :
    ∀ (s : Nat) (px py x y : Int),
      ((x - px = (s : Int) ∧ (s : Int) ≤ y - py) ∨
       (y - py = (s : Int) ∧ (s : Int) ≤ x - px)) →
      equalRun A px py x y = (x - s, y - s, eqChunks A x s) := by
  intro s
  induction s with
  | zero =>
    intro px py x y hcase
    rw [equalRun]
    rw [dif_neg (by omega)]
    simp [eqChunks]
  | succ t ih =>
    intro px py x y hcase
    rw [equalRun]
    rw [dif_pos (by omega)]
    have hrec := ih px py (x - 1) (y - 1) (by omega)
    rw [hrec]
    rw [eqChunks_succ]
    refine Prod.ext ?_ (Prod.ext ?_ ?_)
    · simp only []
      push_cast
      ring
    · simp only []
      push_cast
      ring
    · rfl

/-- Glue: extending a `take` by a block of values read elementwise from the
list itself. -/
theorem take_add_ranged {α : Type} (l : List α) :
    ∀ (s : Nat) (a : Nat) (vs : List α), vs.length = s → a + s ≤ l.length →
      (∀ j, j < s → vs.get? j = l.get? (a + j)) →
      l.take (a + s) = l.take a ++ vs := by
  intro s
  induction s with
  | zero =>
    intro a vs hlen _ _
    rw [List.length_eq_zero] at hlen
    subst hlen
    simp
  | succ t ih =>
    intro a vs hlen hbound hval
    cases vs with
    | nil => simp at hlen
    | cons v vs' =>
      have hv0 := hval 0 (by omega)
      simp only [List.get?_cons_zero, Nat.add_zero] at hv0
      have hstep : l.take (a + 1) = l.take a ++ [v] := by
        rw [List.take_succ]
        have hv0g : l[a]? = some v := by
          rw [← List.get?_eq_getElem?]
          exact hv0.symm
        rw [hv0g]
        rfl
      have hrest : l.take ((a + 1) + t) = l.take (a + 1) ++ vs' := by
        refine ih (a + 1) vs' (by simpa using hlen) (by omega) ?_
        intro j hj
        have := hval (j + 1) (by omega)
        simpa [Nat.add_assoc, Nat.add_comm 1 j, Nat.add_left_comm] using this
      have harith : a + (t + 1) = (a + 1) + t := by omega
      rw [harith, hrest, hstep]
      simp

theorem get?_range_map {γ : Type} (g : Nat → γ) (s j : Nat) (h : j < s) :
    ((List.range s).map g).get? j = some (g j) := by
  rw [List.get?_map, List.get?_range h]
  rfl

/-- The reversed equal run, as values read left to right. -/
theorem eqChunks_rev_values (A : List Str) :
    ∀ (s : Nat) (x : Int),
      (eqChunks A x s).reverse.map DiffChunk.value =
        (List.range s).map (fun j : Nat => (tokAt A (x - s + (j : Int))).getD []) := by
  intro s
  induction s with
  | zero => intro x; simp [eqChunks]
  | succ t ih =>
    intro x
    rw [eqChunks_succ]
    simp only [List.reverse_cons, List.map_append, List.map_cons, List.map_nil]
    rw [ih (x - 1)]
    rw [List.range_succ, List.map_append]
    congr 1
    · apply List.map_congr_left
      intro j _
      congr 2
      push_cast
      ring
    · simp only [List.map_cons, List.map_nil]
      congr 2
      push_cast
      ring

theorem eqChunks_all_equal (A : List Str) (x : Int) (s : Nat) :
    ∀ c ∈ eqChunks A x s, c.type = DiffType.equal := by
  intro c hc
  unfold eqChunks at hc
  obtain ⟨j, _, rfl⟩ := List.mem_map.1 hc
  rfl

/-- The trailing loops reconstruct the leading common diagonal. -/
theorem btTrail_spec {A B : List Str} :
    ∀ (x : Nat), DiagEq A B 0 0 x →
      ((btTrail A B (x : Int) (x : Int)).reverse.filter
          (fun c => c.type ≠ DiffType.del)).map DiffChunk.value = B.take x ∧
      ((btTrail A B (x : Int) (x : Int)).reverse.filter
          (fun c => c.type ≠ DiffType.add)).map DiffChunk.value = A.take x := by
  intro x
  induction x with
  | zero =>
    intro _
    rw [btTrail]
    rw [dif_neg (by omega)]
    rw [btTrailDel]
    rw [dif_neg (by omega)]
    rw [btTrailAdd]
    rw [dif_neg (by omega)]
    simp
  | succ t ih =>
    intro hdeq
    have hfacts := hdeq t (by omega) (by omega)
    rw [btTrail]
    rw [dif_pos (by constructor <;> omega)]
    have hxy : ((t + 1 : Nat) : Int) - 1 = (t : Int) := by push_cast; ring
    rw [hxy]
    obtain ⟨ihB, ihA⟩ := ih (diagEq_mono hdeq le_rfl (by omega))
    have htokA : tokAt A (t : Int) = A.get? t := by
      unfold tokAt
      rw [if_neg (by omega)]
      norm_num
    have htokB : A.get? t = B.get? t := by
      have := hfacts.2.2.2
      rw [show (t : Int) - 0 = (t : Int) from by ring] at this
      rw [this]
      unfold tokAt
      rw [if_neg (by omega)]
      norm_num
    have hsomeA : A.get? t = some ((A.get? t).getD []) := by
      have : t < A.length := hfacts.1
      rw [List.get?_eq_get this]
      rfl
    constructor
    · simp only [List.reverse_cons, List.filter_append, List.map_append, ihB]
      have hfilter : List.filter (fun c => decide (c.type ≠ DiffType.del))
          [(⟨DiffType.equal, (tokAt A (t : Int)).getD []⟩ : DiffChunk)] =
          [⟨DiffType.equal, (tokAt A (t : Int)).getD []⟩] := by
        simp
      rw [hfilter, List.take_succ]
      have hBt : B[t]? = some ((tokAt A (t : Int)).getD []) := by
        rw [← List.get?_eq_getElem?, ← htokB, htokA]
        exact hsomeA
      rw [hBt]
      rfl
    · simp only [List.reverse_cons, List.filter_append, List.map_append, ihA]
      have hfilter : List.filter (fun c => decide (c.type ≠ DiffType.add))
          [(⟨DiffType.equal, (tokAt A (t : Int)).getD []⟩ : DiffChunk)] =
          [⟨DiffType.equal, (tokAt A (t : Int)).getD []⟩] := by
        simp
      rw [hfilter, List.take_succ]
      have hAt : A[t]? = some ((tokAt A (t : Int)).getD []) := by
        rw [← List.get?_eq_getElem?, htokA]
        exact hsomeA
      rw [hAt]
      rfl

/-- Parents used by the decision rule exist in the previous ideal frontier. -/
theorem parent_exists {A B : List Str} {d : Nat} {k : Int}
    (hk : k ∈ diagRange (d + 1)) :
    (chooseDown (idealF A B d) (d + 1) k = true →
      ∃ pv, idealF A B d (k + 1) = some pv) ∧
    (chooseDown (idealF A B d) (d + 1) k = false →
      ∃ pv, idealF A B d (k - 1) = some pv) := by
  rw [mem_diagRange] at hk
  constructor
  · intro hcd
    unfold chooseDown at hcd
    rw [Bool.or_eq_true, Bool.and_eq_true] at hcd
    rcases hcd with hcd | ⟨_, hlt⟩
    · have hkk : k = -((d + 1 : Nat) : Int) := by simpa using hcd
      have hmem : k + 1 ∈ diagRange d := by
        rw [mem_diagRange]
        push_cast at hkk ⊢
        exact ⟨by omega, by omega, ⟨0, by omega⟩⟩
      exact ⟨_, idealF_isSome hmem⟩
    · cases hopt : (idealF A B d) (k + 1) with
      | none => rw [hopt] at hlt; cases hopt2 : (idealF A B d) (k - 1) <;>
          rw [hopt2] at hlt <;> simp [ltOpt] at hlt
      | some w => exact ⟨w, rfl⟩
  · intro hcd
    have hkne : ¬(k = -((d + 1 : Nat) : Int)) := by
      intro hkk
      have htrue : chooseDown (idealF A B d) (d + 1) k = true := by
        unfold chooseDown
        rw [Bool.or_eq_true]
        left
        simpa using hkk
      rw [htrue] at hcd
      cases hcd
    have hmem : k - 1 ∈ diagRange d := by
      rw [mem_diagRange]
      push_cast at hkne hk ⊢
      obtain ⟨c, hc⟩ := hk.2.2
      exact ⟨by omega, by omega, ⟨c - 1, by omega⟩⟩
    exact ⟨_, idealF_isSome hmem⟩

theorem filter_of_all_equal {l : List DiffChunk} (hall : ∀ c ∈ l, c.type = DiffType.equal)
    (q : DiffType) (hq : q ≠ DiffType.equal) :
    l.filter (fun c => c.type ≠ q) = l := by
  apply List.filter_eq_self.2
  intro c hc
  rw [hall c hc]
  simpa using fun hcon => hq hcon.symm

/-- Main backtrack invariant: from a genuine ideal-frontier point, the chunks
pushed by iterations `d, …, 1` plus the trailing loops reconstruct, reversed,
exactly the token prefixes `B.take y` (on the non-removed side) and `A.take x`
(on the non-added side). -/
theorem btLoop_spec {A B : List Str} {trace : List Front} {D : Nat}
    (htr : ∀ j, j < D → ∀ k, ((trace.get? j).getD emptyFront) k = idealF A B j k) :
    ∀ (d : Nat), d ≤ D → ∀ (x y : Nat),
      idealF A B d ((x : Int) - y) = some x →
      x ≤ A.length → y ≤ B.length →
      ((btLoop A B trace d (x : Int) (y : Int)).reverse.filter
          (fun c => c.type ≠ DiffType.del)).map DiffChunk.value = B.take y ∧
      ((btLoop A B trace d (x : Int) (y : Int)).reverse.filter
          (fun c => c.type ≠ DiffType.add)).map DiffChunk.value = A.take x := by
  intro d
  induction d with
  | zero =>
    intro _ x y hentry hxn hym
    obtain ⟨hkmem, hval⟩ := idealF_some hentry
    rw [mem_diagRange_zero] at hkmem
    have hxy : x = y := by omega
    subst hxy
    have hk0 : (x : Int) - x = 0 := by omega
    rw [hk0] at hval
    have hsn : x = snake A B 0 0 := by
      rw [hval]
      rfl
    have hdeq : DiagEq A B 0 0 x := by
      have := snake_diagEq A B 0 0
      rw [← hsn] at this
      exact this
    have hbt : btLoop A B trace 0 (x : Int) (x : Int) = btTrail A B (x : Int) (x : Int) := rfl
    rw [hbt]
    exact btTrail_spec x hdeq
  | succ d ih =>
    intro hdD x y hentry hxn hym
    obtain ⟨hkmem, hval⟩ := idealF_some hentry
    have hpf : ∀ k', ((trace.get? d).getD emptyFront) k' = idealF A B d k' :=
      htr d (by omega)
    have hprev : prevIdeal A B (d + 1) = idealF A B d := rfl
    rw [hprev] at hval
    -- abbreviations
    have hkdef : ((x : Int) - (y : Int)) = (x : Int) - y := rfl
    by_cases hcd : chooseDown (idealF A B d) (d + 1) ((x : Int) - y)
    · -- insertion: parent on diagonal k + 1
      obtain ⟨pv, hpv⟩ := (parent_exists hkmem).1 hcd
      have hsn : x = snake A B ((x : Int) - y) pv := by
        conv_lhs => rw [hval]
        unfold stepVal
        rw [if_pos hcd, hpv, Option.getD_some]
      have hpvle : pv ≤ x := by
        have := snake_ge A B ((x : Int) - y) pv
        omega
      have hdeq : DiagEq A B ((x : Int) - y) pv x := by
        have := snake_diagEq A B ((x : Int) - y) pv
        rw [← hsn] at this
        exact this
      obtain ⟨hpy0, _⟩ := entry_raw d _ pv hpv
      -- the new y coordinate
      set pyN : Nat := ((pv : Int) - ((x : Int) - y + 1)).toNat with hpyN
      have hpyI : ((pv : Int) - ((x : Int) - y + 1)) = (pyN : Int) := by
        rw [hpyN]
        omega
      set s : Nat := x - pv with hs
      have hsI : ((x : Int) - (pv : Int)) = (s : Int) := by omega
      have hyms : pyN + 1 + s = y := by omega
      -- evaluate one iteration of the backtrack loop
      have hbt : btLoop A B trace (d + 1) (x : Int) (y : Int) =
          eqChunks A (x : Int) s ++
            ⟨.add, (tokAt B (pyN : Int)).getD []⟩ ::
              btLoop A B trace d (pv : Int) (pyN : Int) := by
        simp only [btLoop]
        rw [chooseDown_congr hpf, if_pos hcd]
        rw [hpf _, hpv, Option.getD_some]
        rw [equalRun_eq A s _ _ _ _ (Or.inl ⟨by omega, by omega⟩)]
        simp only []
        rw [if_pos (by omega : (x : Int) - (s : Nat) = ((pv : Nat) : Int))]
        have h1 : (x : Int) - (s : Nat) = ((pv : Nat) : Int) := by omega
        have h2 : (y : Int) - (s : Nat) - 1 = (pyN : Int) := by omega
        have h3 : ((pv : Int)) - ((x : Int) - (y : Int) + 1) = (pyN : Int) := by omega
        rw [h1, h2, h3]
      rw [hbt]
      -- the recursive call
      have hrec := ih (by omega) pv pyN
        (by rw [show (pv : Int) - (pyN : Int) = (x : Int) - y + 1 from by omega]; exact hpv)
        (by omega) (by omega)
      obtain ⟨ihB, ihA⟩ := hrec
      have hallEq := eqChunks_all_equal A (x : Int) s
      have hallEqRev : ∀ c ∈ (eqChunks A (x : Int) s).reverse, c.type = DiffType.equal := by
        intro c hc
        exact hallEq c (List.mem_reverse.1 hc)
      -- values of the equal run, as tokens of A and of B
      have hrunvals := eqChunks_rev_values A s (x : Int)
      have hrunA : ∀ j, j < s →
          ((eqChunks A (x : Int) s).reverse.map DiffChunk.value).get? j =
            A.get? (pv + j) := by
        intro j hj
        rw [hrunvals, get?_range_map _ _ _ hj]
        have hfact := hdeq (pv + j) (by omega) (by omega)
        have hidx : (x : Int) - (s : Nat) + (j : Nat) = ((pv + j : Nat) : Int) := by
          push_cast
          omega
        rw [hidx]
        have htokA : tokAt A ((pv + j : Nat) : Int) = A.get? (pv + j) := by
          unfold tokAt
          rw [if_neg (by omega)]
          rw [show (((pv + j : Nat) : Int)).toNat = pv + j from by omega]
        rw [htokA]
        have : A.get? (pv + j) = some ((A.get? (pv + j)).getD []) := by
          rw [List.get?_eq_get hfact.1]
          rfl
        rw [← this]
      have hrunB : ∀ j, j < s →
          ((eqChunks A (x : Int) s).reverse.map DiffChunk.value).get? j =
            B.get? (pyN + 1 + j) := by
        intro j hj
        rw [hrunA j hj]
        have hfact := hdeq (pv + j) (by omega) (by omega)
        rw [hfact.2.2.2]
        unfold tokAt
        rw [if_neg (by omega)]
        congr 1
        omega
      have htokB : tokAt B (pyN : Int) = B.get? pyN := by
        unfold tokAt
        rw [if_neg (by omega)]
        norm_num
      have hpyNm : pyN < B.length := by omega
      have hBsome : B.get? pyN = some ((B.get? pyN).getD []) := by
        rw [List.get?_eq_get hpyNm]
        rfl
      constructor
      · -- current side: B.take y
        simp only [List.reverse_append, List.reverse_cons, List.filter_append,
          List.map_append, List.append_assoc]
        rw [filter_of_all_equal hallEqRev DiffType.del (by simp)]
        have haddkeep : List.filter (fun c => decide (c.type ≠ DiffType.del))
            [(⟨DiffType.add, (tokAt B (pyN : Int)).getD []⟩ : DiffChunk)] =
            [⟨DiffType.add, (tokAt B (pyN : Int)).getD []⟩] := by
          simp
        rw [haddkeep, ihB]
        have htake : B.take y = B.take pyN ++
            (((tokAt B (pyN : Int)).getD []) ::
              (eqChunks A (x : Int) s).reverse.map DiffChunk.value) := by
          rw [← hyms, show pyN + 1 + s = pyN + (1 + s) from by omega]
          refine take_add_ranged B (1 + s) pyN _ ?_ (by omega) ?_
          · simp only [List.length_cons, List.length_map, List.length_reverse]
            simp [eqChunks]
            omega
          · intro j hj
            cases j with
            | zero =>
              simp only [List.get?_cons_zero, Nat.add_zero]
              rw [htokB, ← hBsome]
            | succ j' =>
              simp only [List.get?_cons_succ]
              rw [hrunB j' (by omega)]
              congr 1
              omega
        rw [htake]
        simp
      · -- previous side: A.take x
        simp only [List.reverse_append, List.reverse_cons, List.filter_append,
          List.map_append, List.append_assoc]
        rw [filter_of_all_equal hallEqRev DiffType.add (by simp)]
        have hadddrop : List.filter (fun c => decide (c.type ≠ DiffType.add))
            [(⟨DiffType.add, (tokAt B (pyN : Int)).getD []⟩ : DiffChunk)] = [] := by
          simp
        rw [hadddrop, ihA]
        have htake : A.take x = A.take pv ++
            (eqChunks A (x : Int) s).reverse.map DiffChunk.value := by
          conv_lhs => rw [show x = pv + s from by omega]
          refine take_add_ranged A s pv _ ?_ (by omega) ?_
          · simp [eqChunks]
          · intro j hj
            rw [hrunA j hj]
        rw [htake]
        simp
    · -- deletion: parent on diagonal k - 1
      have hcdf : chooseDown (idealF A B d) (d + 1) ((x : Int) - y) = false := by
        simpa using hcd
      obtain ⟨pv, hpv⟩ := (parent_exists hkmem).2 hcdf
      have hsn : x = snake A B ((x : Int) - y) (pv + 1) := by
        conv_lhs => rw [hval]
        unfold stepVal
        rw [if_neg hcd, hpv, Option.getD_some]
      have hpvle : pv + 1 ≤ x := by
        have := snake_ge A B ((x : Int) - y) (pv + 1)
        omega
      have hdeq : DiagEq A B ((x : Int) - y) (pv + 1) x := by
        have := snake_diagEq A B ((x : Int) - y) (pv + 1)
        rw [← hsn] at this
        exact this
      obtain ⟨hpy0, _⟩ := entry_raw d _ pv hpv
      set pyN : Nat := ((pv : Int) - ((x : Int) - y - 1)).toNat with hpyN
      have hpyI : ((pv : Int) - ((x : Int) - y - 1)) = (pyN : Int) := by
        rw [hpyN]
        omega
      set s : Nat := x - (pv + 1) with hs
      have hyms : pyN + s = y := by omega
      have hbt : btLoop A B trace (d + 1) (x : Int) (y : Int) =
          eqChunks A (x : Int) s ++
            ⟨.del, (tokAt A (pv : Int)).getD []⟩ ::
              btLoop A B trace d (pv : Int) (pyN : Int) := by
        simp only [btLoop]
        rw [chooseDown_congr hpf, hcdf]
        rw [if_neg Bool.false_ne_true]
        rw [hpf _, hpv, Option.getD_some]
        rw [equalRun_eq A s _ _ _ _ (Or.inr ⟨by omega, by omega⟩)]
        simp only []
        rw [if_neg (by omega : ¬((x : Int) - (s : Nat) = ((pv : Nat) : Int)))]
        have h1 : (x : Int) - (s : Nat) - 1 = ((pv : Nat) : Int) := by omega
        have h2 : (y : Int) - (s : Nat) = (pyN : Int) := by omega
        rw [h1, h2]
      rw [hbt]
      have hrec := ih (by omega) pv pyN
        (by rw [show (pv : Int) - (pyN : Int) = (x : Int) - y - 1 from by omega]; exact hpv)
        (by omega) (by omega)
      obtain ⟨ihB, ihA⟩ := hrec
      have hallEq := eqChunks_all_equal A (x : Int) s
      have hallEqRev : ∀ c ∈ (eqChunks A (x : Int) s).reverse, c.type = DiffType.equal := by
        intro c hc
        exact hallEq c (List.mem_reverse.1 hc)
      have hrunvals := eqChunks_rev_values A s (x : Int)
      have hrunA : ∀ j, j < s →
          ((eqChunks A (x : Int) s).reverse.map DiffChunk.value).get? j =
            A.get? (pv + 1 + j) := by
        intro j hj
        rw [hrunvals, get?_range_map _ _ _ hj]
        have hfact := hdeq (pv + 1 + j) (by omega) (by omega)
        have hidx : (x : Int) - (s : Nat) + (j : Nat) = ((pv + 1 + j : Nat) : Int) := by
          push_cast
          omega
        rw [hidx]
        have htokA : tokAt A ((pv + 1 + j : Nat) : Int) = A.get? (pv + 1 + j) := by
          unfold tokAt
          rw [if_neg (by omega)]
          rw [show (((pv + 1 + j : Nat) : Int)).toNat = pv + 1 + j from by omega]
        rw [htokA]
        have : A.get? (pv + 1 + j) = some ((A.get? (pv + 1 + j)).getD []) := by
          rw [List.get?_eq_get hfact.1]
          rfl
        rw [← this]
      have hrunB : ∀ j, j < s →
          ((eqChunks A (x : Int) s).reverse.map DiffChunk.value).get? j =
            B.get? (pyN + j) := by
        intro j hj
        rw [hrunA j hj]
        have hfact := hdeq (pv + 1 + j) (by omega) (by omega)
        rw [hfact.2.2.2]
        unfold tokAt
        rw [if_neg (by omega)]
        congr 1
        omega
      have hpvn : pv < A.length := by omega
      have htokA2 : tokAt A (pv : Int) = A.get? pv := by
        unfold tokAt
        rw [if_neg (by omega)]
        norm_num
      have hAsome : A.get? pv = some ((A.get? pv).getD []) := by
        rw [List.get?_eq_get hpvn]
        rfl
      constructor
      · simp only [List.reverse_append, List.reverse_cons, List.filter_append,
          List.map_append, List.append_assoc]
        rw [filter_of_all_equal hallEqRev DiffType.del (by simp)]
        have hdeldrop : List.filter (fun c => decide (c.type ≠ DiffType.del))
            [(⟨DiffType.del, (tokAt A (pv : Int)).getD []⟩ : DiffChunk)] = [] := by
          simp
        rw [hdeldrop, ihB]
        have htake : B.take y = B.take pyN ++
            (eqChunks A (x : Int) s).reverse.map DiffChunk.value := by
          conv_lhs => rw [show y = pyN + s from by omega]
          refine take_add_ranged B s pyN _ ?_ (by omega) ?_
          · simp [eqChunks]
          · intro j hj
            rw [hrunB j hj]
        rw [htake]
        simp
      · simp only [List.reverse_append, List.reverse_cons, List.filter_append,
          List.map_append, List.append_assoc]
        rw [filter_of_all_equal hallEqRev DiffType.add (by simp)]
        have hdelkeep : List.filter (fun c => decide (c.type ≠ DiffType.add))
            [(⟨DiffType.del, (tokAt A (pv : Int)).getD []⟩ : DiffChunk)] =
            [⟨DiffType.del, (tokAt A (pv : Int)).getD []⟩] := by
          simp
        rw [hdelkeep, ihA]
        have htake : A.take x = A.take pv ++
            (((tokAt A (pv : Int)).getD []) ::
              (eqChunks A (x : Int) s).reverse.map DiffChunk.value) := by
          conv_lhs => rw [show x = pv + (1 + s) from by omega]
          refine take_add_ranged A (1 + s) pv _ ?_ (by omega) ?_
          · simp only [List.length_cons, List.length_map, List.length_reverse]
            simp [eqChunks]
            omega
          · intro j hj
            cases j with
            | zero =>
              simp only [List.get?_cons_zero, Nat.add_zero]
              rw [htokA2, ← hAsome]
            | succ j' =>
              simp only [List.get?_cons_succ]
              rw [hrunA j' (by omega)]
              congr 1
              omega
        rw [htake]
        simp

/-! ### Merging preserves both reconstructions -/

theorem omit_single (q : DiffType) (t : DiffType) (v1 v2 : Str) :
    ((([⟨t, v1 ++ v2⟩] : List DiffChunk).filter
        (fun c => c.type ≠ q)).map DiffChunk.value).flatten =
      ((([⟨t, v1⟩] : List DiffChunk).filter
          (fun c => c.type ≠ q)).map DiffChunk.value).flatten ++
      ((([⟨t, v2⟩] : List DiffChunk).filter
          (fun c => c.type ≠ q)).map DiffChunk.value).flatten := by
  by_cases ht : t = q
  · subst ht
    simp
  · simp [ht]

theorem omit_cons (q : DiffType) (c : DiffChunk) (l : List DiffChunk) :
    (((c :: l).filter (fun c => c.type ≠ q)).map DiffChunk.value).flatten =
      (([c].filter (fun c => c.type ≠ q)).map DiffChunk.value).flatten ++
      ((l.filter (fun c => c.type ≠ q)).map DiffChunk.value).flatten := by
  simp only [List.filter_cons, List.filter_nil]
  by_cases h : c.type = q <;> simp [h]

theorem mergeAux_omit (q : DiffType) :
    ∀ (l acc : List DiffChunk),
      (((mergeAux acc l).filter (fun c => c.type ≠ q)).map DiffChunk.value).flatten =
        ((acc.reverse.filter (fun c => c.type ≠ q)).map DiffChunk.value).flatten ++
        ((l.filter (fun c => c.type ≠ q)).map DiffChunk.value).flatten := by
  intro l
  induction l with
  | nil =>
    intro acc
    simp [mergeAux]
  | cons c rest ih =>
    intro acc
    cases acc with
    | nil =>
      rw [show mergeAux [] (c :: rest) = mergeAux [c] rest from rfl]
      rw [ih [c]]
      rw [omit_cons q c rest]
      simp
    | cons p acc' =>
      by_cases htp : p.type = c.type
      · rw [show mergeAux (p :: acc') (c :: rest) =
            mergeAux (⟨p.type, p.value ++ c.value⟩ :: acc') rest from by
          simp only [mergeAux]
          rw [if_pos htp]]
        rw [ih]
        rw [omit_cons q c rest]
        simp only [List.reverse_cons, List.filter_append, List.map_append,
          List.flatten_append, List.append_assoc]
        congr 1
        have hval := omit_single q p.type p.value c.value
        have heta : (⟨p.type, c.value⟩ : DiffChunk) = c := by
          rw [htp]
        rw [heta] at hval
        rw [hval]
        rw [List.append_assoc]
      · rw [show mergeAux (p :: acc') (c :: rest) = mergeAux (c :: p :: acc') rest from by
            simp only [mergeAux]
            rw [if_neg htp]]
        rw [ih]
        rw [omit_cons q c rest]
        simp only [List.reverse_cons, List.filter_append, List.map_append,
          List.flatten_append, List.append_assoc]

theorem mergeChunks_omit (q : DiffType) (l : List DiffChunk) :
    (((mergeChunks l).filter (fun c => c.type ≠ q)).map DiffChunk.value).flatten =
      ((l.filter (fun c => c.type ≠ q)).map DiffChunk.value).flatten := by
  unfold mergeChunks
  rw [mergeAux_omit]
  simp

/-! ### The round-trip law -/

/-- The central correctness fact for `myersWordDiff`: concatenating the values
of the non-removed chunks gives back the current side, and concatenating the
values of the non-added chunks gives back the previous side. -/
theorem myersWordDiff_roundTrip (A B : List Str) :
    sideCurrent (myersWordDiff A B) = B.flatten ∧
      sidePrevious (myersWordDiff A B) = A.flatten := by
  obtain ⟨D, hdle, hfD, hbroke, hlen, htrace, hnocor, kst, hkmem, hcor⟩ :=
    outerLoop_spec (A := A) (B := B) (A.length + B.length + 1) 0 initFront []
      (fun k => rfl) rfl (by omega) (by omega) (by omega)
  -- break-point exactness: the corner entry is exactly (|A|, |B|)
  set vst := stepVal A B (prevIdeal A B D) D kst with hvst
  have hventry : idealF A B D kst = some vst := idealF_isSome hkmem
  unfold isCorner at hcor
  rw [Bool.and_eq_true, decide_eq_true_eq, decide_eq_true_eq] at hcor
  obtain ⟨hcor1, hcor2⟩ := hcor
  obtain ⟨hy0, hraw⟩ := entry_raw D kst vst hventry
  have hexact : vst = A.length ∧ ((vst : Int) - kst).toNat = B.length := by
    by_contra hcon
    obtain ⟨e, hreach, hle⟩ := boxCut hraw
    have hminx : min vst A.length = A.length := min_eq_right hcor1
    have hminy : min ((vst : Int) - kst).toNat B.length = B.length :=
      min_eq_right (by omega)
    rw [hminx, hminy] at hreach
    have heD : e < D := by
      rcases not_and_or.1 hcon with hne | hne
      · have : 0 < vst - A.length := by omega
        omega
      · have : 0 < ((vst : Int) - kst).toNat - B.length := by omega
        omega
    obtain ⟨w, hw, hwle⟩ := frontier_lower hreach
    obtain ⟨hwmem, hwval⟩ := idealF_some hw
    have hwcor : isCorner A B ((A.length : Int) - B.length) w = true := by
      unfold isCorner
      rw [Bool.and_eq_true, decide_eq_true_eq, decide_eq_true_eq]
      exact ⟨hwle, by omega⟩
    rw [hwval] at hwcor
    rw [hnocor e heD _ hwmem] at hwcor
    exact Bool.false_ne_true hwcor
  obtain ⟨hvx, hvy⟩ := hexact
  have hkst : kst = (A.length : Int) - B.length := by omega
  have hentryNM : idealF A B D ((A.length : Int) - (B.length : Int)) = some A.length := by
    rw [← hkst, hventry, hvx]
  -- run the verified backtrack from the corner
  have hmain := btLoop_spec htrace D le_rfl A.length B.length hentryNM le_rfl le_rfl
  obtain ⟨hmB, hmA⟩ := hmain
  rw [List.take_length] at hmB hmA
  -- transport along the real forward result
  have hres : myersForward A B =
      outerLoop A B (A.length + B.length + 1) 0 initFront [] := rfl
  constructor
  · show sideCurrent (mergeChunks ((btLoop A B (myersForward A B).trace
      (myersForward A B).fD (A.length : Int) (B.length : Int)).reverse)) = B.flatten
    unfold sideCurrent
    rw [mergeChunks_omit]
    rw [hres, hfD]
    rw [hmB]
  · show sidePrevious (mergeChunks ((btLoop A B (myersForward A B).trace
      (myersForward A B).fD (A.length : Int) (B.length : Int)).reverse)) = A.flatten
    unfold sidePrevious
    rw [mergeChunks_omit]
    rw [hres, hfD]
    rw [hmA]

/-! ## `createDiffReport`: render counting and similarity -/

/-- `escapeHtml`, character by character (the sequential `replaceAll` chain of
the source never rewrites its own output, so it equals this simultaneous
per-character replacement). -/
def escChar (c : Char) : Str :=
  if c = '&' then "&amp;".toList
  else if c = '<' then "&lt;".toList
  else if c = '>' then "&gt;".toList
  else if c = '"' then "&quot;".toList
  else if c = '\'' then "&#039;".toList
  else [c]

/-- `escapeHtml(input)`. -/
def escapeHtml (input : Str) : Str := (input.map escChar).flatten

/-- `truncateText` result. -/
structure TruncatedText where
  text : Str
  truncated : Bool
deriving Repr

/-- The marker appended by `truncateText`. -/
def truncMarker : Str := "\n\n[...truncated for diff performance...]".toList

/-- `truncateText(input, maxChars)`. -/
def truncateText (input : Str) (maxChars : Nat) : TruncatedText :=
  if input.length ≤ maxChars then ⟨input, false⟩
  else ⟨input.take maxChars ++ truncMarker, true⟩

/-- The per-chunk opening span written by `renderChunksToHtml`. -/
def spanOpen : DiffType → Str
  | .add => "<span class=\"diff-add\">".toList
  | .del => "<span class=\"diff-del\">".toList
  | .equal => "<span>".toList

/-- `</span>`. -/
def spanClose : Str := "</span>".toList

/-- Result of `renderChunksToHtml`. -/
structure Rendered where
  html : Str
  truncated : Bool
  addedChars : Nat
  removedChars : Nat
deriving Repr

/-- The `for (const chunk of chunks)` loop of `renderChunksToHtml`: counts a
chunk's added/removed characters first, then breaks once `renderedChars`
reached `MAX_RENDER_CHARS` (or the chunk had to be sliced), skipping all
later chunks. -/
def renderLoop : List DiffChunk → List Str → Nat → Nat → Nat → Rendered
  | [], parts, _, a, r => ⟨parts.flatten, false, a, r⟩
  | c :: rest, parts, rc, a, r =>
    let a := if c.type = DiffType.add then a + c.value.length else a
    let r := if c.type = DiffType.del then r + c.value.length else r
    if MAX_RENDER_CHARS ≤ rc then ⟨parts.flatten, true, a, r⟩
    else
      let remaining := MAX_RENDER_CHARS - rc
      let text := if remaining < c.value.length then c.value.take remaining else c.value
      let part := spanOpen c.type ++ escapeHtml text ++ spanClose
      if text.length < c.value.length then ⟨(parts ++ [part]).flatten, true, a, r⟩
      else renderLoop rest (parts ++ [part]) (rc + text.length) a r

/-- `renderChunksToHtml(chunks)`. -/
def renderChunksToHtml (chunks : List DiffChunk) : Rendered :=
  renderLoop chunks [] 0 0 0

/-- `clamp(value, min, max)`. -/
def clampQ (value lo hi : ℚ) : ℚ := min hi (max lo value)

/-- Result of `createDiffReport` (similarity core; the HTML document template
around it carries no further logic). -/
structure DiffReportResult where
  similarity : ℚ
  addedChars : Nat
  removedChars : Nat
  inputTruncated : Bool
  renderTruncated : Bool
deriving Repr

/-- `createDiffReport(options)`: truncate both inputs, word-diff them, count
rendered added/removed characters, and derive the similarity ratio. -/
def createDiffReport (previousText currentText : Str) : DiffReportResult :=
  let previous := truncateText previousText MAX_COMPARE_CHARS
  let current := truncateText currentText MAX_COMPARE_CHARS
  let chunks := myersWordDiff (tokenizeByWord previous.text) (tokenizeByWord current.text)
  let rendered := renderChunksToHtml chunks
  let den := previous.text.length + current.text.length
  let similarity : ℚ :=
    if den = 0 then 1
    else clampQ (1 - ((rendered.addedChars : ℚ) + (rendered.removedChars : ℚ)) / (den : ℚ)) 0 1
  ⟨similarity, rendered.addedChars, rendered.removedChars,
    previous.truncated || current.truncated, rendered.truncated⟩

/-- The similarity as the specification words it (claim C8): `1 - (addedChars
+ removedChars) / (len(previous) + len(current))` clamped to `[0,1]`, where
`addedChars`/`removedChars` are the *total* characters of the added and
removed chunks of the word diff of the truncated texts, and `1` when both
inputs are empty. -/
def similaritySpec (previousText currentText : Str) : ℚ :=
  let previous := truncateText previousText MAX_COMPARE_CHARS
  let current := truncateText currentText MAX_COMPARE_CHARS
  let chunks := myersWordDiff (tokenizeByWord previous.text) (tokenizeByWord current.text)
  let added := ((chunks.filter (fun c => c.type = DiffType.add)).map
    (fun c => c.value.length)).sum
  let removed := ((chunks.filter (fun c => c.type = DiffType.del)).map
    (fun c => c.value.length)).sum
  let den := previous.text.length + current.text.length
  if den = 0 then 1
  else clampQ (1 - ((added : ℚ) + (removed : ℚ)) / (den : ℚ)) 0 1

/-! ### Diff of two distinct single tokens -/

theorem myers_pair (t u : Str) (h : t ≠ u) :
    myersWordDiff [t] [u] = [⟨DiffType.del, t⟩, ⟨DiffType.add, u⟩] := by
  have s1 : snake [t] [u] 0 0 = 0 := by
    rw [snake, dif_neg]
    rintro ⟨-, -, h3⟩
    exact h (by simpa [tokAt] using h3)
  have s5 : snake [t] [u] 0 1 = 1 := by
    rw [snake, dif_neg]
    rintro ⟨h1, -, -⟩
    exact absurd h1 (by norm_num)
  have hstep00 : stepVal [t] [u] initFront 0 0 = 0 := by
    unfold stepVal
    rw [show chooseDown initFront 0 0 = true from by decide]
    simpa using s1
  have hinner0 : innerLoop [t] [u] initFront 0 (diagRange 0) emptyFront
      = (fset emptyFront 0 0, false) := by
    rw [show diagRange 0 = [0] from by decide]
    simp only [innerLoop, hstep00]
    rw [show isCorner [t] [u] 0 0 = false from rfl]
    simp [innerLoop]
  have s2 : snake [t] [u] (-1) 0 = 0 := by
    rw [snake, dif_neg]
    rintro ⟨-, h2, -⟩
    norm_num at h2
  have s3 : snake [t] [u] 1 1 = 1 := by
    rw [snake, dif_neg]
    rintro ⟨h1, -, -⟩
    exact absurd h1 (by norm_num)
  have hstep1a : stepVal [t] [u] (fset emptyFront 0 0) 1 (-1) = 0 := by
    unfold stepVal
    rw [show chooseDown (fset emptyFront 0 0) 1 (-1) = true from by decide]
    simpa using s2
  have hstep1b : stepVal [t] [u] (fset emptyFront 0 0) 1 1 = 1 := by
    unfold stepVal
    rw [show chooseDown (fset emptyFront 0 0) 1 1 = false from by decide]
    simpa using s3
  have hinner1 : innerLoop [t] [u] (fset emptyFront 0 0) 1 (diagRange 1) emptyFront
      = (fset (fset emptyFront (-1) 0) 1 1, false) := by
    rw [show diagRange 1 = [-1, 1] from by decide]
    simp only [innerLoop, hstep1a, hstep1b]
    rw [show isCorner [t] [u] (-1) 0 = false from rfl]
    rw [show isCorner [t] [u] 1 1 = false from rfl]
    simp [innerLoop]
  have s4 : snake [t] [u] (-2) 0 = 0 := by
    rw [snake, dif_neg]
    rintro ⟨-, h2, -⟩
    norm_num at h2
  have hstep2a : stepVal [t] [u] (fset (fset emptyFront (-1) 0) 1 1) 2 (-2) = 0 := by
    unfold stepVal
    rw [show chooseDown (fset (fset emptyFront (-1) 0) 1 1) 2 (-2) = true from by decide]
    simpa using s4
  have hstep2b : stepVal [t] [u] (fset (fset emptyFront (-1) 0) 1 1) 2 0 = 1 := by
    unfold stepVal
    rw [show chooseDown (fset (fset emptyFront (-1) 0) 1 1) 2 0 = true from by decide]
    simpa using s5
  have hinner2 : innerLoop [t] [u] (fset (fset emptyFront (-1) 0) 1 1) 2
      (diagRange 2) emptyFront = (fset (fset emptyFront (-2) 0) 0 1, true) := by
    rw [show diagRange 2 = [-2, 0, 2] from by decide]
    simp only [innerLoop, hstep2a, hstep2b]
    rw [show isCorner [t] [u] (-2) 0 = false from rfl]
    rw [show isCorner [t] [u] 0 1 = true from rfl]
    simp [innerLoop]
  have hfwd : myersForward [t] [u] = ⟨[fset emptyFront 0 0,
      fset (fset emptyFront (-1) 0) 1 1,
      fset (fset emptyFront (-2) 0) 0 1], 2, true⟩ := by
    unfold myersForward
    rw [show [t].length + [u].length + 1 = 2 + 1 from rfl]
    simp only [outerLoop, hinner0]
    norm_num
    rw [hinner1]
    norm_num
    rw [hinner2]
    norm_num
  have heq1 : equalRun [t] 1 0 1 1 = (1, 1, []) := by
    rw [equalRun, dif_neg]
    omega
  have heq0 : equalRun [t] 0 0 1 0 = (1, 0, []) := by
    rw [equalRun, dif_neg]
    omega
  have htr : btTrail [t] [u] 0 0 = [] := by
    rw [btTrail, dif_neg]
    · rw [btTrailDel, dif_neg (by omega), btTrailAdd, dif_neg (by omega)]
      rfl
    · omega
  have hbt2 : btLoop [t] [u] [fset emptyFront 0 0, fset (fset emptyFront (-1) 0) 1 1,
      fset (fset emptyFront (-2) 0) 0 1] 2 1 1
      = [⟨DiffType.add, u⟩, ⟨DiffType.del, t⟩] := by
    rw [show (2 : Nat) = 1 + 1 from rfl]
    simp only [btLoop]
    norm_num [fset, emptyFront, chooseDown, ltOpt]
    rw [heq1]
    norm_num
    refine ⟨by simp [tokAt], ?_⟩
    rw [heq0]
    norm_num
    rw [htr]
    simp [tokAt]
  unfold myersWordDiff
  rw [hfwd]
  show mergeChunks ((btLoop [t] [u] _ 2 1 1).reverse) = _
  rw [hbt2]
  simp [mergeChunks, mergeAux]

/-! ### Tokenizing a uniform string -/

theorem tokenize_single (c : Char) (rest : Str) (h : ∀ a ∈ rest, isWS a = isWS c) :
    tokenizeByWord (c :: rest) = [c :: rest] := by
  rw [tokenizeByWord]
  have htake : rest.takeWhile (fun c' => isWS c' = isWS c) = rest := by
    rw [List.takeWhile_eq_self_iff]
    intro a ha
    simp [h a ha]
  have hdrop : rest.dropWhile (fun c' => isWS c' = isWS c) = [] := by
    rw [List.dropWhile_eq_nil_iff]
    intro a ha
    simp [h a ha]
  rw [htake, hdrop, tokenizeByWord]

theorem tokenize_replicate (n : Nat) (ch : Char) :
    tokenizeByWord (List.replicate (n + 1) ch) = [List.replicate (n + 1) ch] := by
  rw [List.replicate_succ]
  exact tokenize_single ch _ (fun a ha => by rw [List.eq_of_mem_replicate ha])

/-! ### Render-loop counting lemmas -/

theorem renderLoop_break_first (c : DiffChunk) (rest : List DiffChunk)
    (parts : List Str) (rc a r : Nat)
    (hrc : rc < MAX_RENDER_CHARS) (hslice : MAX_RENDER_CHARS - rc < c.value.length) :
    renderLoop (c :: rest) parts rc a r =
      ⟨(parts ++ [spanOpen c.type ++ escapeHtml (c.value.take (MAX_RENDER_CHARS - rc))
          ++ spanClose]).flatten, true,
        (if c.type = DiffType.add then a + c.value.length else a),
        (if c.type = DiffType.del then r + c.value.length else r)⟩ := by
  simp only [renderLoop]
  rw [if_neg (by omega)]
  rw [if_pos hslice]
  rw [if_pos (by rw [List.length_take]; omega)]

theorem renderLoop_counts_exact :
    ∀ (l : List DiffChunk) (parts : List Str) (rc a r : Nat),
    (renderLoop l parts rc a r).truncated = false →
    (renderLoop l parts rc a r).addedChars
        = a + ((l.filter (fun c => c.type = DiffType.add)).map
            (fun c => c.value.length)).sum ∧
    (renderLoop l parts rc a r).removedChars
        = r + ((l.filter (fun c => c.type = DiffType.del)).map
            (fun c => c.value.length)).sum := by
  intro l
  induction l with
  | nil =>
    intro parts rc a r _
    simp [renderLoop]
  | cons c rest ih =>
    intro parts rc a r h
    simp only [renderLoop] at h ⊢
    by_cases h1 : MAX_RENDER_CHARS ≤ rc
    · rw [if_pos h1] at h
      simp at h
    · rw [if_neg h1] at h ⊢
      by_cases h2 : (if MAX_RENDER_CHARS - rc < c.value.length then
          c.value.take (MAX_RENDER_CHARS - rc) else c.value).length < c.value.length
      · rw [if_pos h2] at h
        simp at h
      · rw [if_neg h2] at h ⊢
        obtain ⟨ha, hr⟩ := ih _ _ _ _ h
        rw [ha, hr]
        constructor
        · by_cases hadd : c.type = DiffType.add
          · simp only [List.filter_cons, hadd]
            norm_num
            omega
          · simp only [List.filter_cons]
            rw [if_neg (by simpa using hadd), if_neg (by simpa using hadd)]
        · by_cases hdel : c.type = DiffType.del
          · simp only [List.filter_cons, hdel]
            norm_num
            omega
          · simp only [List.filter_cons]
            rw [if_neg (by simpa using hdel), if_neg (by simpa using hdel)]

theorem renderLoop_counts_all_equal :
    ∀ (l : List DiffChunk), (∀ c ∈ l, c.type = DiffType.equal) →
    ∀ (parts : List Str) (rc a r : Nat),
    (renderLoop l parts rc a r).addedChars = a ∧
    (renderLoop l parts rc a r).removedChars = r := by
  intro l
  induction l with
  | nil =>
    intro _ parts rc a r
    simp [renderLoop]
  | cons c rest ih =>
    intro hall parts rc a r
    have hc : c.type = DiffType.equal := hall c (by simp)
    simp only [renderLoop, hc]
    rw [show (if DiffType.equal = DiffType.add then a + c.value.length else a) = a from
      if_neg (by decide)]
    rw [show (if DiffType.equal = DiffType.del then r + c.value.length else r) = r from
      if_neg (by decide)]
    by_cases h1 : MAX_RENDER_CHARS ≤ rc
    · rw [if_pos h1]
      exact ⟨rfl, rfl⟩
    · rw [if_neg h1]
      by_cases h2 : (if MAX_RENDER_CHARS - rc < c.value.length then
          c.value.take (MAX_RENDER_CHARS - rc) else c.value).length < c.value.length
      · rw [if_pos h2]
        exact ⟨rfl, rfl⟩
      · rw [if_neg h2]
        exact ih (fun d hd => hall d (by simp [hd])) _ _ _ _

/-! ### Diff of a sequence with itself -/

theorem snake_self (A : List Str) : ∀ (fuel x : Nat), A.length - x ≤ fuel →
    x ≤ A.length → snake A A 0 x = A.length := by
  intro fuel
  induction fuel with
  | zero =>
    intro x hf hx
    rw [snake, dif_neg (by omega)]
    omega
  | succ n ih =>
    intro x hf hx
    by_cases hlt : x < A.length
    · rw [snake, dif_pos ⟨hlt, by push_cast; omega, by
        rw [show ((x : Int) - 0) = (x : Int) from by ring, tokAt, if_neg (by omega)]
        simp⟩]
      exact ih (x + 1) (by omega) (by omega)
    · rw [snake, dif_neg (by omega)]
      omega

theorem btTrail_diag (A B : List Str) : ∀ (j : Nat) (x y : Int), x ≤ (j : Int) → x = y →
    ∀ c ∈ btTrail A B x y, c.type = DiffType.equal := by
  intro j
  induction j with
  | zero =>
    intro x y hj hxy
    rw [btTrail, dif_neg (by omega)]
    rw [btTrailDel, dif_neg (by omega), btTrailAdd, dif_neg (by omega)]
    simp
  | succ n ih =>
    intro x y hj hxy
    by_cases hx : 0 < x
    · rw [btTrail, dif_pos ⟨hx, by omega⟩]
      intro c hc
      rcases List.mem_cons.mp hc with rfl | hm
      · rfl
      · exact ih (x - 1) (y - 1) (by omega) (by omega) c hm
    · rw [btTrail, dif_neg (by omega)]
      rw [btTrailDel, dif_neg (by omega), btTrailAdd, dif_neg (by omega)]
      simp

theorem mergeAux_all_equal :
    ∀ (l acc : List DiffChunk), (∀ c ∈ acc, c.type = DiffType.equal) →
    (∀ c ∈ l, c.type = DiffType.equal) →
    ∀ c ∈ mergeAux acc l, c.type = DiffType.equal := by
  intro l
  induction l with
  | nil =>
    intro acc hacc _ c hc
    rw [mergeAux] at hc
    exact hacc c (List.mem_reverse.mp hc)
  | cons q rest ih =>
    intro acc hacc hl c hc
    match acc with
    | [] =>
      rw [mergeAux] at hc
      refine ih [q] ?_ (fun d hd => hl d (by simp [hd])) c hc
      intro d hd
      rcases List.mem_singleton.mp hd with rfl
      exact hl d (by simp)
    | p :: acc' =>
      rw [mergeAux] at hc
      by_cases hpq : p.type = q.type
      · rw [if_pos hpq] at hc
        refine ih _ ?_ (fun d hd => hl d (by simp [hd])) c hc
        intro d hd
        rcases List.mem_cons.mp hd with rfl | hm
        · exact hacc p (by simp)
        · exact hacc d (by simp [hm])
      · rw [if_neg hpq] at hc
        refine ih _ ?_ (fun d hd => hl d (by simp [hd])) c hc
        intro d hd
        rcases List.mem_cons.mp hd with rfl | hm
        · exact hl d (by simp)
        · exact hacc d hm

theorem myers_self_all_equal (A : List Str) :
    ∀ c ∈ myersWordDiff A A, c.type = DiffType.equal := by
  have hstep : stepVal A A initFront 0 0 = A.length := by
    unfold stepVal
    rw [show chooseDown initFront 0 0 = true from by decide]
    simpa using snake_self A A.length 0 (by omega) (by omega)
  have hcor : isCorner A A 0 A.length = true := by
    simp [isCorner]
  have hinner : innerLoop A A initFront 0 (diagRange 0) emptyFront
      = (fset emptyFront 0 A.length, true) := by
    rw [show diagRange 0 = [0] from by decide]
    simp only [innerLoop, hstep]
    rw [hcor]
    simp
  have hfwd : myersForward A A = ⟨[fset emptyFront 0 A.length], 0, true⟩ := by
    unfold myersForward
    simp only [outerLoop, hinner]
    simp
  unfold myersWordDiff
  rw [hfwd]
  show ∀ c ∈ mergeChunks ((btLoop A A _ 0 (A.length : Int) (A.length : Int)).reverse), _
  simp only [btLoop]
  unfold mergeChunks
  intro c hc
  refine mergeAux_all_equal _ [] (by simp) ?_ c hc
  intro d hd
  exact btTrail_diag A A A.length _ _ (by omega) rfl d (List.mem_reverse.mp hd)

/-! ### Similarity facts -/

theorem createDiffReport_self (A : Str) : (createDiffReport A A).similarity = 1 := by
  have hcounts := renderLoop_counts_all_equal
    (myersWordDiff (tokenizeByWord (truncateText A MAX_COMPARE_CHARS).text)
      (tokenizeByWord (truncateText A MAX_COMPARE_CHARS).text))
    (myers_self_all_equal _) [] 0 0 0
  simp only [createDiffReport, renderChunksToHtml]
  rw [hcounts.1, hcounts.2]
  by_cases hden : (truncateText A MAX_COMPARE_CHARS).text.length
      + (truncateText A MAX_COMPARE_CHARS).text.length = 0
  · rw [if_pos hden]
  · rw [if_neg hden]
    unfold clampQ
    rw [show ((0 : Nat) : ℚ) + ((0 : Nat) : ℚ) = 0 from by norm_num]
    rw [zero_div, sub_zero]
    norm_num

theorem createDiffReport_spec_of_no_cap (p c : Str)
    (h : (createDiffReport p c).renderTruncated = false) :
    (createDiffReport p c).similarity = similaritySpec p c := by
  have h' : (renderLoop (myersWordDiff
      (tokenizeByWord (truncateText p MAX_COMPARE_CHARS).text)
      (tokenizeByWord (truncateText c MAX_COMPARE_CHARS).text)) [] 0 0 0).truncated
      = false := by
    simpa [createDiffReport, renderChunksToHtml] using h
  have hcounts := renderLoop_counts_exact _ [] 0 0 0 h'
  simp only [createDiffReport, similaritySpec, renderChunksToHtml]
  rw [hcounts.1, hcounts.2]
  norm_num

/-! ## Failure backoff (`executeTaskInternal`, error path) -/

/-- `MAX_FAILURE_COUNT = 6`. -/
def MAX_FAILURE_COUNT : Nat := 6

/-- `task.failureCount = Math.min(MAX_FAILURE_COUNT, task.failureCount + 1)`,
applied on each failed execution. -/
def failureBump (fc : Nat) : Nat := min MAX_FAILURE_COUNT (fc + 1)

/-- `delaySec = Math.min(3600, baseSec * 2 ** failureCount)` with
`baseSec = Math.max(5, intervalSec)`. -/
def backoffDelaySec (intervalSec fc : Nat) : Nat :=
  min 3600 (max 5 intervalSec * 2 ^ fc)

/-- `jitterMax = Math.min(30, delaySec * 0.1)`, as an exact rational. -/
def jitterMaxOf (delaySec : Nat) : ℚ := min 30 ((delaySec : ℚ) * (1 / 10))

/-- `jitter = Math.random() * jitterMax`, with the `Math.random()` draw
(a value in `[0,1]`) passed in. -/
def jitterOf (rand : ℚ) (delaySec : Nat) : ℚ := rand * jitterMaxOf delaySec

theorem failureBump_iter (N : Nat) : failureBump^[N] 0 = min MAX_FAILURE_COUNT N := by
  induction N with
  | zero => simp [MAX_FAILURE_COUNT]
  | succ n ih =>
    rw [Function.iterate_succ_apply', ih]
    unfold failureBump MAX_FAILURE_COUNT
    omega

theorem jitter_bounds (rand : ℚ) (h0 : 0 ≤ rand) (h1 : rand ≤ 1) (d : Nat) :
    0 ≤ jitterOf rand d ∧ jitterOf rand d ≤ (d : ℚ) * (1 / 10) := by
  have hjm0 : (0 : ℚ) ≤ jitterMaxOf d := by
    unfold jitterMaxOf
    have : (0 : ℚ) ≤ (d : ℚ) * (1 / 10) := by positivity
    exact le_min (by norm_num) this
  constructor
  · exact mul_nonneg h0 hjm0
  · calc jitterOf rand d = rand * jitterMaxOf d := rfl
      _ ≤ 1 * jitterMaxOf d := mul_le_mul_of_nonneg_right h1 hjm0
      _ = jitterMaxOf d := one_mul _
      _ ≤ (d : ℚ) * (1 / 10) := min_le_right _ _

/-! ## Snapshot persistence as filesystem-operation traces -/

/-- `BASELINE_MAX_CHARS = 200_000`. -/
def BASELINE_MAX_CHARS : Nat := 200000

/-- A filesystem operation issued by the persistence helpers. -/
inductive FsOp
  | mkdirp (dir : Str)
  | write (path : Str) (content : Str)
  | rename (src dst : Str)
deriving DecidableEq, Repr

/-- `path.join(a, b)`. -/
def pjoin (a b : Str) : Str := a ++ '/' :: b

/-- `taskStateDir(outputDir) = path.join(outputDir, ".wm")`. -/
def taskStateDir (outputDir : Str) : Str := pjoin outputDir ".wm".toList

/-- `taskStatePath(outputDir) = path.join(taskStateDir(outputDir), "state.json")`. -/
def taskStatePath (outputDir : Str) : Str :=
  pjoin (taskStateDir outputDir) "state.json".toList

/-- `taskBaselinePath(outputDir)` at its default `baselineFile = "baseline.txt"`
(the only file name `saveTaskBaseline` ever writes). -/
def taskBaselinePath (outputDir : Str) : Str :=
  pjoin (taskStateDir outputDir) "baseline.txt".toList

/-- The `.tmp` suffix of `writeJsonAtomic`. -/
def tmpSuffix : Str := ".tmp".toList

/-- `writeJsonAtomic(filePath, payload)`: write `filePath.tmp`, then rename it
onto `filePath`. -/
def writeJsonAtomic (filePath payload : Str) : List FsOp :=
  [.write (filePath ++ tmpSuffix) payload, .rename (filePath ++ tmpSuffix) filePath]

/-- The truncation marker of `saveTaskBaseline`. -/
def baselineMarker : Str := "\n\n[...truncated baseline...]\n".toList

/-- The text `saveTaskBaseline` writes (`truncated ? text.slice(0, cap) + marker : text`). -/
def baselineContent (text : Str) : Str :=
  if BASELINE_MAX_CHARS < text.length then text.take BASELINE_MAX_CHARS ++ baselineMarker
  else text

/-- `saveTaskBaseline(outputDir, text)`: mkdir the state dir, then write the
baseline file directly (`fs.writeFile`, no temp file). -/
def saveTaskBaseline (outputDir text : Str) : List FsOp :=
  [.mkdirp (taskStateDir outputDir),
    .write (taskBaselinePath outputDir) (baselineContent text)]

/-- `saveTaskStateJson(outputDir, state)`: mkdir then `writeJsonAtomic` of the
serialized state (the payload text stands for the JSON). -/
def saveTaskStateJson (outputDir payload : Str) : List FsOp :=
  FsOp.mkdirp (taskStateDir outputDir) :: writeJsonAtomic (taskStatePath outputDir) payload

/-- `saveTaskBaselineAndState(outputDir, input)`: the baseline save followed by
the state-descriptor save. -/
def saveTaskBaselineAndState (outputDir text payload : Str) : List FsOp :=
  saveTaskBaseline outputDir text ++ saveTaskStateJson outputDir payload

/-- The paths a trace writes directly (without a rename). -/
def directWrites (ops : List FsOp) : List Str :=
  ops.filterMap fun op => match op with
    | .write p _ => some p
    | _ => none

/-- The paths a trace renames onto. -/
def renameTargets (ops : List FsOp) : List Str :=
  ops.filterMap fun op => match op with
    | .rename _ dst => some dst
    | _ => none

/-- Whether an operation makes the file at `p` appear or change. -/
def touches (op : FsOp) (p : Str) : Bool :=
  match op with
  | .mkdirp _ => false
  | .write q _ => q = p
  | .rename _ dst => dst = p

theorem statePath_ne_baselinePath (o : Str) :
    taskStatePath o ≠ taskBaselinePath o := by
  intro h
  have hl := congrArg List.length h
  unfold taskStatePath taskBaselinePath pjoin at hl
  simp only [List.length_append, List.length_cons] at hl
  rw [show ("state.json".toList).length = 10 from by decide,
    show ("baseline.txt".toList).length = 12 from by decide] at hl
  omega

theorem statePath_ne_stateTmp (o : Str) :
    taskStatePath o ≠ taskStatePath o ++ tmpSuffix := by
  intro h
  have hl := congrArg List.length h
  simp only [List.length_append] at hl
  rw [show tmpSuffix.length = 4 from by decide] at hl
  omega

theorem baselinePath_ne_stateTmp (o : Str) :
    taskBaselinePath o ≠ taskStatePath o ++ tmpSuffix := by
  intro h
  have hl := congrArg List.length h
  unfold taskStatePath taskBaselinePath pjoin at hl
  simp only [List.length_append, List.length_cons] at hl
  rw [show ("state.json".toList).length = 10 from by decide,
    show ("baseline.txt".toList).length = 12 from by decide,
    show tmpSuffix.length = 4 from by decide] at hl
  omega

/-! ## The MonitorEngine scheduler as a transition system

Tasks are kept as an insertion-ordered association list (the `Map`), the run
queue and `queuedIds` as lists of ids, and outstanding `setTimeout` handles as
a list of `(handle, id)` pairs. Per-execution effects on content state are
covered by `checkTaskModel`; here an execution's outcome is abstracted to
success / failure / anti-bot block. -/

/-- `DEFAULT_MAX_CONCURRENCY = 3`. -/
def DEFAULT_MAX_CONCURRENCY : Nat := 3

/-- `normalizeMaxConcurrency(value, fallback)`: `Number(value)` is modelled as
an optional integer (`none` = not a finite number). -/
def normalizeMaxConcurrency (value : Option Int) (fallback : Nat) : Nat :=
  match value with
  | none => fallback
  | some v => if v ≤ 0 then fallback else max 1 v.toNat

/-- The scheduler-relevant fields of a `RuntimeTask` descriptor. -/
structure RTask where
  enabled : Bool
  blocked : Bool
  active : Bool
  timer : Option Nat
  failureCount : Nat
  outputDir : Str
  lastText : Str
  lastTextHash : Str
  lastRenderedHtml : Str
  lastResources : List Str
  stateLoaded : Bool
  baselineLength : Nat
  baselineTruncated : Bool
  blockedReason : Option Str
deriving Repr, DecidableEq

/-- The fixed initial values `createDescriptorFromOptions` gives a descriptor
(`enabled` and `outputDir` come from the configuration). -/
def freshDesc (t : RTask) : Prop :=
  t.blocked = false ∧ t.active = false ∧ t.timer = none ∧ t.failureCount = 0 ∧
    t.lastText = [] ∧ t.lastTextHash = [] ∧ t.lastRenderedHtml = [] ∧
    t.lastResources = [] ∧ t.stateLoaded = false ∧ t.baselineLength = 0 ∧
    t.baselineTruncated = false ∧ t.blockedReason = none

/-- The engine's scheduler state. `desired` holds the descriptors the current
configuration would create fresh (what `createDescriptorFromOptions` returns
for `uiTasks`/legacy entries); `rebuildRuntimeTasks` merges it with the live
map. -/
structure Engine where
  running : Bool
  maxConcurrency : Nat
  runningCount : Nat
  tasks : List (Str × RTask)
  runQueue : List Str
  queuedIds : List Str
  pendingTimers : List (Nat × Str)
  nextHandle : Nat
  desired : List (Str × RTask)
deriving Repr, DecidableEq

/-- `this.tasks.get(id)` (first match; `Map` keys are unique). -/
def lookupTask : List (Str × RTask) → Str → Option RTask
  | [], _ => none
  | (k, v) :: rest, id => if k = id then some v else lookupTask rest id

/-- In-place update of the descriptor stored under `id`. -/
def updateTask : List (Str × RTask) → Str → (RTask → RTask) → List (Str × RTask)
  | [], _, _ => []
  | (k, v) :: rest, id, f =>
    if k = id then (k, f v) :: rest else (k, v) :: updateTask rest id f

/-- The `MonitorEngine` constructor: no tasks yet (they are built on demand by
`rebuildRuntimeTasks`), `maxConcurrency = mode === "attach" ? 1 :
normalizeMaxConcurrency(options.maxConcurrency, DEFAULT_MAX_CONCURRENCY)`. -/
def mkEngine (attach : Bool) (cfgMaxConcurrency : Option Int) : Engine :=
  { running := false
    maxConcurrency :=
      if attach then 1 else normalizeMaxConcurrency cfgMaxConcurrency DEFAULT_MAX_CONCURRENCY
    runningCount := 0
    tasks := []
    runQueue := []
    queuedIds := []
    pendingTimers := []
    nextHandle := 0
    desired := [] }

/-- `removeFromQueue(id)`. -/
def removeFromQueue (E : Engine) (id : Str) : Engine :=
  { E with
    queuedIds := E.queuedIds.filter (fun j => j ≠ id)
    runQueue := E.runQueue.filter (fun j => j ≠ id) }

/-- `clearTimeout(task.timer); task.timer = undefined` for the task's current
handle (a no-op when the task has none). -/
def clearTaskTimer (E : Engine) (id : Str) : Engine :=
  match lookupTask E.tasks id with
  | none => E
  | some t =>
    match t.timer with
    | none => E
    | some h =>
      { E with
        pendingTimers := E.pendingTimers.filter (fun p => p.1 ≠ h)
        tasks := updateTask E.tasks id (fun u => { u with timer := none }) }

/-- `scheduleTask(id, delayMs)` (the delay itself plays no role: armed timers
fire nondeterministically). -/
def scheduleTask (E : Engine) (id : Str) : Engine :=
  if E.running = false then E
  else
    match lookupTask E.tasks id with
    | none => E
    | some _ =>
      let E1 := removeFromQueue (clearTaskTimer E id) id
      match lookupTask E1.tasks id with
      | none => E1
      | some t =>
        if t.enabled = false ∨ t.blocked = true then E1
        else
          { E1 with
            tasks := updateTask E1.tasks id (fun u => { u with timer := some E1.nextHandle })
            pendingTimers := E1.pendingTimers ++ [(E1.nextHandle, id)]
            nextHandle := E1.nextHandle + 1 }

/-- The `while (runningCount < maxConcurrency && runQueue.length > 0)` loop of
`drainQueue`; launching an execution runs `executeTaskInternal`'s synchronous
prefix (its guards and `task.active = true`). -/
def drainLoop (E : Engine) : Nat → Engine
  | 0 => E
  | fuel + 1 =>
    if E.runningCount < E.maxConcurrency then
      match E.runQueue with
      | [] => E
      | id :: rest =>
        let E1 := { E with
          runQueue := rest
          queuedIds := E.queuedIds.filter (fun j => j ≠ id) }
        match lookupTask E1.tasks id with
        | none => drainLoop E1 fuel
        | some t =>
          if t.enabled = false ∨ t.blocked = true then drainLoop E1 fuel
          else if t.active = true then drainLoop E1 fuel
          else
            drainLoop
              { E1 with
                runningCount := E1.runningCount + 1
                tasks := updateTask E1.tasks id (fun u => { u with active := true }) }
              fuel
    else E

/-- `drainQueue()`. -/
def drainQueue (E : Engine) : Engine :=
  if E.running = true then drainLoop E E.runQueue.length else E

/-- `enqueueExecution(id)`. -/
def enqueueExecution (E : Engine) (id : Str) : Engine :=
  if E.running = false then E
  else
    match lookupTask E.tasks id with
    | none => E
    | some t =>
      if t.enabled = false ∨ t.blocked = true then E
      else if t.active = true ∨ id ∈ E.queuedIds then E
      else
        drainQueue
          { E with queuedIds := E.queuedIds ++ [id], runQueue := E.runQueue ++ [id] }

/-- A `setTimeout` callback firing: the closure clears the timer field of the
descriptor it captured (visible only while that descriptor is still the
current one, i.e. while `task.timer` still holds this handle), then calls
`enqueueExecution(id)`. -/
def fireTimer (E : Engine) (h : Nat) (id : Str) : Engine :=
  let E1 := { E with pendingTimers := E.pendingTimers.filter (fun p => p ≠ (h, id)) }
  let E2 :=
    match lookupTask E1.tasks id with
    | none => E1
    | some t =>
      if t.timer = some h then
        { E1 with tasks := updateTask E1.tasks id (fun u => { u with timer := none }) }
      else E1
  enqueueExecution E2 id

/-- How a finished `checkTask` call came back: normally, with an anti-bot
block detected, or by throwing. -/
inductive Outcome
  | success
  | blockedByAntiBot (reason : Str)
  | failure
deriving Repr, DecidableEq

/-- What `checkTask`'s return does to the descriptor's failure counter and
block flags (`failureCount = 0` on any normal return, the capped bump on a
throw, the block fields on an anti-bot detection). -/
def applyOutcome (out : Outcome) (t : RTask) : RTask :=
  match out with
  | .success => { t with failureCount := 0 }
  | .blockedByAntiBot r =>
    { t with failureCount := 0, blocked := true, blockedReason := some r }
  | .failure => { t with failureCount := failureBump t.failureCount }

/-- An in-flight execution completing: `checkTask`'s outcome is applied to the
descriptor, then `executeTaskInternal`'s `finally` (deactivate, reschedule
unless stopped/disabled/blocked), then the launch promise's `finally`
(`runningCount = Math.max(0, runningCount - 1); drainQueue()`). -/
def completeExec (E : Engine) (id : Str) (out : Outcome) : Engine :=
  let E1 := { E with tasks := updateTask E.tasks id (applyOutcome out) }
  let E2 := { E1 with tasks := updateTask E1.tasks id (fun t => { t with active := false }) }
  let E3 :=
    if E2.running = true then
      match lookupTask E2.tasks id with
      | none => E2
      | some t =>
        if t.enabled = false then E2
        else if t.blocked = true then E2
        else scheduleTask E2 id
    else E2
  drainQueue { E3 with runningCount := E3.runningCount - 1 }

/-- The carry-over `rebuildRuntimeTasks` applies when a descriptor's id
already existed: content state only under an unchanged `outputDir`, but
`active`, `failureCount` and the blocked fields unconditionally. -/
def carryOver (old fresh : RTask) : RTask :=
  let d :=
    if old.outputDir = fresh.outputDir then
      { fresh with
        lastText := old.lastText
        lastRenderedHtml := old.lastRenderedHtml
        lastResources := old.lastResources
        stateLoaded := old.stateLoaded
        lastTextHash := old.lastTextHash
        baselineLength := old.baselineLength
        baselineTruncated := old.baselineTruncated }
    else fresh
  { d with
    active := old.active
    failureCount := old.failureCount
    blocked := old.blocked
    blockedReason := old.blockedReason }

/-- The `if (this.running)` loop at the end of `rebuildRuntimeTasks`: clear
each current descriptor's timer (always `undefined` on a freshly built
descriptor — old handles survive), then schedule enabled, inactive tasks. -/
def rebuildScheduleLoop (E : Engine) : List Str → Engine
  | [] => E
  | id :: ids =>
    let E1 := clearTaskTimer E id
    let E2 :=
      match lookupTask E1.tasks id with
      | none => E1
      | some t => if t.enabled = true ∧ t.active = false then scheduleTask E1 id else E1
    rebuildScheduleLoop E2 ids

/-- `rebuildRuntimeTasks()`, taking the fresh descriptors the configuration
produces (`descs`). -/
def rebuildRuntimeTasks (E : Engine) (descs : List (Str × RTask)) : Engine :=
  let nextTasks := descs.map (fun p =>
    (p.1, match lookupTask E.tasks p.1 with
      | some old => carryOver old p.2
      | none => p.2))
  let droppedHandles := E.tasks.filterMap (fun q =>
    if q.1 ∈ descs.map Prod.fst then none else q.2.timer)
  let keep := fun (j : Str) => decide (j ∈ descs.map Prod.fst)
  let E1 := { E with
    tasks := nextTasks
    pendingTimers := E.pendingTimers.filter (fun p => decide (p.1 ∉ droppedHandles))
    runQueue := E.runQueue.filter keep
    queuedIds := E.queuedIds.filter keep }
  let keepEnabled := fun (j : Str) =>
    match lookupTask E1.tasks j with
    | some t => t.enabled && !t.blocked
    | none => true
  let E2 := { E1 with
    runQueue := E1.runQueue.filter keepEnabled
    queuedIds := E1.queuedIds.filter keepEnabled }
  if E.running = true then rebuildScheduleLoop E2 (E2.tasks.map Prod.fst) else E2

/-- `setUiTasks` / `refreshLegacyTasks`: store the new configuration and
rebuild. -/
def setTasks (E : Engine) (descs : List (Str × RTask)) : Engine :=
  rebuildRuntimeTasks { E with desired := descs } descs

/-- The `for (task of tasks) if (task.enabled) scheduleTask(id, 100)` loop of
`start`. -/
def scheduleAllLoop (E : Engine) : List Str → Engine
  | [] => E
  | id :: ids =>
    let E1 :=
      match lookupTask E.tasks id with
      | some t => if t.enabled = true then scheduleTask E id else E
      | none => E
    scheduleAllLoop E1 ids

/-- `start()`. -/
def startEngine (E : Engine) : Engine :=
  if E.running = true then E
  else
    let E1 := if E.tasks.isEmpty then rebuildRuntimeTasks E E.desired else E
    let E2 := { E1 with runQueue := [], queuedIds := [], runningCount := 0, running := true }
    scheduleAllLoop E2 (E2.tasks.map Prod.fst)

/-- `stop()`: clear every descriptor's timer and `active` flag, empty the
queues (handles no descriptor references stay pending). -/
def stopEngine (E : Engine) : Engine :=
  let handles := E.tasks.filterMap (fun q => q.2.timer)
  { E with
    running := false
    runQueue := []
    queuedIds := []
    runningCount := 0
    pendingTimers := E.pendingTimers.filter (fun p => decide (p.1 ∉ handles))
    tasks := E.tasks.map (fun q => (q.1, { q.2 with timer := none, active := false })) }

/-- `unblockTask(id)`. -/
def unblockTask (E : Engine) (id : Str) : Engine :=
  match lookupTask E.tasks id with
  | none => E
  | some t =>
    let E1 := { E with
      tasks := updateTask E.tasks id (fun u =>
        { u with blocked := false, blockedReason := none }) }
    let E2 := removeFromQueue E1 id
    if E2.running = true ∧ t.enabled = true then scheduleTask E2 id else E2

/-- `applyRuntimeOptions` when something changed: stop if running, recompute
`maxConcurrency` (attach mode forces 1), rebuild, restart if it was
running. -/
def applyRuntimeOptions (E : Engine) (attach : Bool) (cfgMaxConcurrency : Option Int)
    (descs : List (Str × RTask)) : Engine :=
  let wasRunning := E.running
  let E1 := if wasRunning then stopEngine E else E
  let E2 := { E1 with
    maxConcurrency :=
      if attach then 1 else normalizeMaxConcurrency cfgMaxConcurrency DEFAULT_MAX_CONCURRENCY
    desired := descs }
  let E3 := rebuildRuntimeTasks E2 descs
  if wasRunning then startEngine E3 else E3

/-- The observable actions driving the engine. -/
inductive Act
  | fire (h : Nat) (id : Str)
  | complete (id : Str) (out : Outcome)
  | setCfg (descs : List (Str × RTask))
  | reconfigure (attach : Bool) (cfg : Option Int) (descs : List (Str × RTask))
  | engStart
  | engStop
  | unblock (id : Str)

/-- One engine step. Configuration steps supply fresh descriptors with unique
ids, timer fires pick a pending handle, completions pick an active task. -/
inductive Step : Engine → Act → Engine → Prop
  | fire {E : Engine} {h : Nat} {id : Str} (hmem : (h, id) ∈ E.pendingTimers) :
      Step E (.fire h id) (fireTimer E h id)
  | complete {E : Engine} {id : Str} {t : RTask} {out : Outcome}
      (ht : lookupTask E.tasks id = some t) (ha : t.active = true) :
      Step E (.complete id out) (completeExec E id out)
  | setCfg {E : Engine} {descs : List (Str × RTask)}
      (hfresh : ∀ p ∈ descs, freshDesc p.2) (hnd : (descs.map Prod.fst).Nodup) :
      Step E (.setCfg descs) (setTasks E descs)
  | reconfigure {E : Engine} {attach : Bool} {cfg : Option Int} {descs : List (Str × RTask)}
      (hfresh : ∀ p ∈ descs, freshDesc p.2) (hnd : (descs.map Prod.fst).Nodup) :
      Step E (.reconfigure attach cfg descs) (applyRuntimeOptions E attach cfg descs)
  | engStart {E : Engine} : Step E .engStart (startEngine E)
  | engStop {E : Engine} : Step E .engStop (stopEngine E)
  | unblock {E : Engine} {id : Str} : Step E (.unblock id) (unblockTask E id)

/-- States reachable from a freshly constructed engine. -/
inductive ReachableE : Engine → Prop
  | init (attach : Bool) (cfg : Option Int) : ReachableE (mkEngine attach cfg)
  | step {E F : Engine} {a : Act} : ReachableE E → Step E a F → ReachableE F

/-- The scheduler invariant: concurrency bounds, queue integrity, and the
exclusion facts for active and blocked tasks. -/
def EngineInv (E : Engine) : Prop :=
  1 ≤ E.maxConcurrency ∧
  E.runningCount ≤ E.maxConcurrency ∧
  (E.running = false → E.runningCount = 0) ∧
  E.runQueue.Nodup ∧
  (∀ j, j ∈ E.runQueue ↔ j ∈ E.queuedIds) ∧
  (∀ id t, lookupTask E.tasks id = some t → t.active = true → id ∉ E.runQueue) ∧
  (∀ id t, lookupTask E.tasks id = some t → t.blocked = true →
    t.active = false ∧ id ∉ E.runQueue)

/-! ### Association-list facts -/

theorem lookupTask_updateTask (l : List (Str × RTask)) (id j : Str) (f : RTask → RTask) :
    lookupTask (updateTask l id f) j =
      if j = id then (lookupTask l id).map f else lookupTask l j := by
  induction l with
  | nil =>
    simp only [updateTask, lookupTask]
    split <;> rfl
  | cons p rest ih =>
    obtain ⟨k, v⟩ := p
    by_cases hk : k = id
    · subst hk
      by_cases hj : j = k
      · subst hj
        simp [updateTask, lookupTask]
      · have hkj : ¬ k = j := fun h => hj h.symm
        simp only [updateTask, if_pos rfl, lookupTask, if_neg hkj, if_neg hj]
    · by_cases hkj : k = j
      · subst hkj
        simp only [updateTask, if_neg hk, lookupTask, if_pos rfl, if_neg hk]
        simp
      · simp only [updateTask, if_neg hk, lookupTask, if_neg hkj]
        exact ih

theorem lookupTask_map_dep (F : Str → RTask → RTask) (l : List (Str × RTask)) (j : Str) :
    lookupTask (l.map (fun p => (p.1, F p.1 p.2))) j = (lookupTask l j).map (F j) := by
  induction l with
  | nil => rfl
  | cons p rest ih =>
    obtain ⟨k, v⟩ := p
    by_cases hk : k = j
    · subst hk
      simp [lookupTask]
    · simp [lookupTask, hk, ih]

/-- A descriptor with its timer handle forgotten (for stating that an
operation changes nothing but timers). -/
def dropTimer (t : RTask) : RTask := { t with timer := none }

theorem dropTimer_enabled (t : RTask) : (dropTimer t).enabled = t.enabled := rfl

theorem dropTimer_blocked (t : RTask) : (dropTimer t).blocked = t.blocked := rfl

theorem dropTimer_active (t : RTask) : (dropTimer t).active = t.active := rfl

/-- Transfer of the invariant along a state change that touches only timers
(and other fields the invariant ignores). -/
theorem EngineInv_transfer {E F : Engine} (h : EngineInv E)
    (hmax : F.maxConcurrency = E.maxConcurrency)
    (hcount : F.runningCount = E.runningCount)
    (hrun : F.running = E.running)
    (hq : F.runQueue = E.runQueue)
    (hqi : F.queuedIds = E.queuedIds)
    (htasks : ∀ j, (lookupTask F.tasks j).map dropTimer =
      (lookupTask E.tasks j).map dropTimer) :
    EngineInv F := by
  obtain ⟨h1, h2, h3, h4, h5, h6, h7⟩ := h
  have hget : ∀ j t', lookupTask F.tasks j = some t' →
      ∃ t, lookupTask E.tasks j = some t ∧ t'.enabled = t.enabled ∧
        t'.blocked = t.blocked ∧ t'.active = t.active := by
    intro j t' hj
    have hthis := htasks j
    rw [hj] at hthis
    cases he : lookupTask E.tasks j with
    | none =>
      rw [he] at hthis
      simp at hthis
    | some t =>
      rw [he] at hthis
      simp only [Option.map_some'] at hthis
      have hdt : dropTimer t' = dropTimer t := by injection hthis
      refine ⟨t, rfl, ?_, ?_, ?_⟩
      · rw [← dropTimer_enabled t', ← dropTimer_enabled t, hdt]
      · rw [← dropTimer_blocked t', ← dropTimer_blocked t, hdt]
      · rw [← dropTimer_active t', ← dropTimer_active t, hdt]
  refine ⟨by rw [hmax]; exact h1, by rw [hmax, hcount]; exact h2,
    by rw [hrun, hcount]; exact h3, by rw [hq]; exact h4,
    by rw [hq, hqi]; exact fun j => h5 j, ?_, ?_⟩
  · intro id t' hl ha
    obtain ⟨t, ht, _, _, hact⟩ := hget id t' hl
    rw [hq]
    exact h6 id t ht (hact ▸ ha)
  · intro id t' hl hb
    obtain ⟨t, ht, _, hbl, hact⟩ := hget id t' hl
    obtain ⟨hna, hnq⟩ := h7 id t ht (hbl ▸ hb)
    exact ⟨by rw [hact]; exact hna, by rw [hq]; exact hnq⟩

theorem removeFromQueue_inv {E : Engine} (id : Str) (h : EngineInv E) :
    EngineInv (removeFromQueue E id) := by
  obtain ⟨h1, h2, h3, h4, h5, h6, h7⟩ := h
  refine ⟨h1, h2, h3, h4.filter _, ?_, ?_, ?_⟩
  · intro j
    simp only [removeFromQueue, List.mem_filter]
    exact and_congr_left (fun _ => h5 j)
  · intro j t hl ha
    simp only [removeFromQueue, List.mem_filter]
    intro hc
    exact h6 j t hl ha hc.1
  · intro j t hl hb
    refine ⟨(h7 j t hl hb).1, ?_⟩
    simp only [removeFromQueue, List.mem_filter]
    intro hc
    exact (h7 j t hl hb).2 hc.1

theorem clearTaskTimer_parts (E : Engine) (id : Str) :
    (clearTaskTimer E id).maxConcurrency = E.maxConcurrency ∧
    (clearTaskTimer E id).runningCount = E.runningCount ∧
    (clearTaskTimer E id).running = E.running ∧
    (clearTaskTimer E id).runQueue = E.runQueue ∧
    (clearTaskTimer E id).queuedIds = E.queuedIds ∧
    (clearTaskTimer E id).nextHandle = E.nextHandle ∧
    (∀ j, (lookupTask (clearTaskTimer E id).tasks j).map dropTimer =
      (lookupTask E.tasks j).map dropTimer) := by
  unfold clearTaskTimer
  split
  · exact ⟨rfl, rfl, rfl, rfl, rfl, rfl, fun _ => rfl⟩
  · rename_i t h1
    split
    · exact ⟨rfl, rfl, rfl, rfl, rfl, rfl, fun _ => rfl⟩
    · refine ⟨rfl, rfl, rfl, rfl, rfl, rfl, ?_⟩
      intro j
      show (lookupTask (updateTask E.tasks id _) j).map dropTimer = _
      rw [lookupTask_updateTask]
      by_cases hj : j = id
      · subst hj
        rw [if_pos rfl, h1]
        simp [dropTimer]
      · rw [if_neg hj]

theorem clearTaskTimer_inv {E : Engine} (id : Str) (h : EngineInv E) :
    EngineInv (clearTaskTimer E id) := by
  obtain ⟨p1, p2, p3, p4, p5, _, p7⟩ := clearTaskTimer_parts E id
  exact EngineInv_transfer h p1 p2 p3 p4 p5 p7

theorem lookup_map_dropTimer_update (l : List (Str × RTask)) (uid : Str) (f : RTask → RTask)
    (hf : ∀ t, dropTimer (f t) = dropTimer t) (j : Str) :
    (lookupTask (updateTask l uid f) j).map dropTimer = (lookupTask l j).map dropTimer := by
  rw [lookupTask_updateTask]
  by_cases hj : j = uid
  · subst hj
    rw [if_pos rfl]
    cases lookupTask l j with
    | none => rfl
    | some t => simp [hf t]
  · rw [if_neg hj]

theorem scheduleTask_parts (E : Engine) (id : Str) :
    (scheduleTask E id).running = E.running ∧
    (scheduleTask E id).maxConcurrency = E.maxConcurrency ∧
    (scheduleTask E id).runningCount = E.runningCount ∧
    (∀ j, (lookupTask (scheduleTask E id).tasks j).map dropTimer =
      (lookupTask E.tasks j).map dropTimer) ∧
    (∀ j, j ∈ (scheduleTask E id).runQueue → j ∈ E.runQueue) ∧
    (∀ j, j ∈ (scheduleTask E id).queuedIds → j ∈ E.queuedIds) := by
  obtain ⟨c1, c2, c3, c4, c5, c6, c7⟩ := clearTaskTimer_parts E id
  have hE1run : (removeFromQueue (clearTaskTimer E id) id).running = E.running := c3
  have hE1max : (removeFromQueue (clearTaskTimer E id) id).maxConcurrency = E.maxConcurrency := c1
  have hE1cnt : (removeFromQueue (clearTaskTimer E id) id).runningCount = E.runningCount := c2
  have hE1dt : ∀ j, (lookupTask (removeFromQueue (clearTaskTimer E id) id).tasks j).map dropTimer
      = (lookupTask E.tasks j).map dropTimer := c7
  have hE1q : ∀ j, j ∈ (removeFromQueue (clearTaskTimer E id) id).runQueue → j ∈ E.runQueue := by
    intro j hj
    rw [show (removeFromQueue (clearTaskTimer E id) id).runQueue
      = (clearTaskTimer E id).runQueue.filter (fun j => j ≠ id) from rfl] at hj
    rw [c4] at hj
    exact (List.mem_filter.mp hj).1
  have hE1qi : ∀ j, j ∈ (removeFromQueue (clearTaskTimer E id) id).queuedIds → j ∈ E.queuedIds := by
    intro j hj
    rw [show (removeFromQueue (clearTaskTimer E id) id).queuedIds
      = (clearTaskTimer E id).queuedIds.filter (fun j => j ≠ id) from rfl] at hj
    rw [c5] at hj
    exact (List.mem_filter.mp hj).1
  unfold scheduleTask
  dsimp only
  split
  · exact ⟨rfl, rfl, rfl, fun _ => rfl, fun _ h => h, fun _ h => h⟩
  · split
    · exact ⟨rfl, rfl, rfl, fun _ => rfl, fun _ h => h, fun _ h => h⟩
    · split
      · exact ⟨hE1run, hE1max, hE1cnt, hE1dt, hE1q, hE1qi⟩
      · split
        · exact ⟨hE1run, hE1max, hE1cnt, hE1dt, hE1q, hE1qi⟩
        · refine ⟨hE1run, hE1max, hE1cnt, ?_, hE1q, hE1qi⟩
          intro j
          rw [lookup_map_dropTimer_update
            (removeFromQueue (clearTaskTimer E id) id).tasks id
            (fun u => { u with
              timer := some (removeFromQueue (clearTaskTimer E id) id).nextHandle })
            (fun t => rfl) j]
          exact hE1dt j

theorem scheduleTask_inv {E : Engine} (id : Str) (h : EngineInv E) :
    EngineInv (scheduleTask E id) := by
  have hE1 : EngineInv (removeFromQueue (clearTaskTimer E id) id) :=
    removeFromQueue_inv id (clearTaskTimer_inv id h)
  unfold scheduleTask
  dsimp only
  split
  · exact h
  · split
    · exact h
    · split
      · exact hE1
      · split
        · exact hE1
        · refine EngineInv_transfer hE1 rfl rfl rfl rfl rfl ?_
          intro j
          exact lookup_map_dropTimer_update
            (removeFromQueue (clearTaskTimer E id) id).tasks id
            (fun u => { u with
              timer := some (removeFromQueue (clearTaskTimer E id) id).nextHandle })
            (fun t => rfl) j

theorem drainLoop_inv : ∀ (fuel : Nat) (E : Engine), E.running = true → EngineInv E →
    EngineInv (drainLoop E fuel) := by
  intro fuel
  induction fuel with
  | zero => exact fun E _ h => h
  | succ n ih =>
    intro E hr h
    obtain ⟨h1, h2, h3, h4, h5, h6, h7⟩ := h
    rw [drainLoop]
    split
    case isFalse => exact ⟨h1, h2, h3, h4, h5, h6, h7⟩
    case isTrue hlt =>
      split
      case h_1 => exact ⟨h1, h2, h3, h4, h5, h6, h7⟩
      case h_2 id rest heq =>
        rw [heq] at h4 h5 h6 h7
        have hnd := List.nodup_cons.mp h4
        have hE1 : EngineInv { E with
            runQueue := rest
            queuedIds := E.queuedIds.filter (fun j => j ≠ id) } := by
          refine ⟨h1, h2, h3, hnd.2, ?_, ?_, ?_⟩
          · intro j
            show j ∈ rest ↔ j ∈ E.queuedIds.filter (fun j => j ≠ id)
            constructor
            · intro hj
              rw [List.mem_filter]
              have hne : j ≠ id := fun hji => hnd.1 (hji ▸ hj)
              exact ⟨(h5 j).mp (by simp [hj]), by simpa using hne⟩
            · intro hj
              rw [List.mem_filter] at hj
              have hjq := (h5 j).mpr hj.1
              have hne : j ≠ id := by simpa using hj.2
              rcases List.mem_cons.mp hjq with hji | hjr
              · exact absurd hji hne
              · exact hjr
          · intro j t hl ha
            have := h6 j t hl ha
            exact fun hj => this (by simp [hj])
          · intro j t hl hb
            refine ⟨(h7 j t hl hb).1, ?_⟩
            have := (h7 j t hl hb).2
            exact fun hj => this (by simp [hj])
        dsimp only
        split
        case h_1 => exact ih _ hr hE1
        case h_2 t hlook =>
          split
          case isTrue => exact ih _ hr hE1
          case isFalse hguard =>
            split
            case isTrue => exact ih _ hr hE1
            case isFalse hact =>
              refine ih _ hr ?_
              obtain ⟨g1, g2, g3, g4, g5, g6, g7⟩ := hE1
              refine ⟨g1, by simpa using Nat.succ_le_of_lt hlt, ?_, g4, g5, ?_, ?_⟩
              · intro hfalse
                rw [show ({ E with
                    runQueue := rest
                    queuedIds := E.queuedIds.filter (fun j => j ≠ id) } : Engine).running
                  = E.running from rfl] at hfalse
                rw [hr] at hfalse
                cases hfalse
              · intro j t' hl ha
                rw [lookupTask_updateTask] at hl
                by_cases hj : j = id
                · subst hj
                  exact fun hmem => hnd.1 hmem
                · rw [if_neg hj] at hl
                  exact g6 j t' hl (by
                    have : t'.active = t'.active := rfl
                    exact ha)
              · intro j t' hl hb
                rw [lookupTask_updateTask] at hl
                by_cases hj : j = id
                · subst hj
                  rw [if_pos rfl, hlook] at hl
                  simp only [Option.map_some'] at hl
                  rw [← Option.some.inj hl] at hb
                  exact absurd (Or.inr hb) hguard
                · rw [if_neg hj] at hl
                  exact g7 j t' hl hb

theorem drainQueue_inv {E : Engine} (h : EngineInv E) : EngineInv (drainQueue E) := by
  unfold drainQueue
  split
  case isTrue hr => exact drainLoop_inv _ E hr h
  case isFalse => exact h

theorem enqueueExecution_inv {E : Engine} (id : Str) (h : EngineInv E) :
    EngineInv (enqueueExecution E id) := by
  unfold enqueueExecution
  split
  · exact h
  · split
    · exact h
    · rename_i t hlook
      split
      · exact h
      · split
        · exact h
        · rename_i hguard hnotq
          obtain ⟨h1, h2, h3, h4, h5, h6, h7⟩ := h
          push_neg at hnotq
          have hidq : id ∉ E.queuedIds := by
            intro hc
            exact absurd hc hnotq.2
          have hidr : id ∉ E.runQueue := fun hc => hidq ((h5 id).mp hc)
          refine drainQueue_inv ⟨h1, h2, h3, ?_, ?_, ?_, ?_⟩
          · show (E.runQueue ++ [id]).Nodup
            simp [List.nodup_append, h4, hidr]
          · intro j
            show j ∈ E.runQueue ++ [id] ↔ j ∈ E.queuedIds ++ [id]
            simp only [List.mem_append, List.mem_singleton]
            exact or_congr_left (h5 j)
          · intro j t' hl ha
            show j ∉ E.runQueue ++ [id]
            simp only [List.mem_append, List.mem_singleton]
            rintro (hj | rfl)
            · exact h6 j t' hl ha hj
            · rw [hlook] at hl
              cases hl
              exact absurd ha (by simpa using hnotq.1)
          · intro j t' hl hb
            refine ⟨(h7 j t' hl hb).1, ?_⟩
            show j ∉ E.runQueue ++ [id]
            simp only [List.mem_append, List.mem_singleton]
            rintro (hj | rfl)
            · exact (h7 j t' hl hb).2 hj
            · rw [hlook] at hl
              cases hl
              exact absurd (Or.inr hb) hguard

theorem EngineInv_count_sub {E : Engine} (h : EngineInv E) :
    EngineInv { E with runningCount := E.runningCount - 1 } := by
  obtain ⟨h1, h2, h3, h4, h5, h6, h7⟩ := h
  refine ⟨h1, le_trans (Nat.sub_le _ _) h2, ?_, h4, h5, h6, h7⟩
  intro hr
  show E.runningCount - 1 = 0
  rw [h3 hr]

theorem lookupTask_mem {l : List (Str × RTask)} {j : Str} {v : RTask}
    (h : lookupTask l j = some v) : (j, v) ∈ l := by
  induction l with
  | nil => cases h
  | cons p rest ih =>
    obtain ⟨k, w⟩ := p
    by_cases hk : k = j
    · subst hk
      rw [lookupTask, if_pos rfl] at h
      cases h
      exact List.mem_cons_self _ _
    · rw [lookupTask, if_neg hk] at h
      exact List.mem_cons_of_mem _ (ih h)

theorem mem_keys_lookup {l : List (Str × RTask)} {j : Str}
    (h : j ∈ l.map Prod.fst) : ∃ v, lookupTask l j = some v := by
  induction l with
  | nil => cases h
  | cons p rest ih =>
    obtain ⟨k, w⟩ := p
    by_cases hk : k = j
    · subst hk
      exact ⟨w, by rw [lookupTask, if_pos rfl]⟩
    · rw [List.map_cons, List.mem_cons] at h
      rcases h with h | h
      · exact absurd h.symm hk
      · obtain ⟨v, hv⟩ := ih h
        exact ⟨v, by rw [lookupTask, if_neg hk]; exact hv⟩

theorem completeExec_inv {E : Engine} {id : Str} {t : RTask} (out : Outcome)
    (hlook : lookupTask E.tasks id = some t) (hact : t.active = true)
    (h : EngineInv E) : EngineInv (completeExec E id out) := by
  obtain ⟨h1, h2, h3, h4, h5, h6, h7⟩ := h
  have hidq : id ∉ E.runQueue := h6 id t hlook hact
  have hE2 : EngineInv { E with tasks := updateTask (updateTask E.tasks id (applyOutcome out)) id (fun u => { u with active := false }) } := by
    refine ⟨h1, h2, h3, h4, h5, ?_, ?_⟩
    · intro j t' hl ha
      dsimp only at hl
      rw [lookupTask_updateTask] at hl
      by_cases hj : j = id
      · subst hj
        rw [if_pos rfl, lookupTask_updateTask, if_pos rfl, hlook] at hl
        simp only [Option.map_some'] at hl
        rw [← Option.some.inj hl] at ha
        cases ha
      · rw [if_neg hj, lookupTask_updateTask, if_neg hj] at hl
        exact h6 j t' hl ha
    · intro j t' hl hb
      dsimp only at hl
      rw [lookupTask_updateTask] at hl
      by_cases hj : j = id
      · subst hj
        rw [if_pos rfl, lookupTask_updateTask, if_pos rfl, hlook] at hl
        simp only [Option.map_some'] at hl
        rw [← Option.some.inj hl]
        exact ⟨rfl, hidq⟩
      · rw [if_neg hj, lookupTask_updateTask, if_neg hj] at hl
        exact h7 j t' hl hb
  unfold completeExec
  dsimp only
  refine drainQueue_inv (EngineInv_count_sub ?_)
  split
  · split
    · exact hE2
    · split
      · exact hE2
      · split
        · exact hE2
        · exact scheduleTask_inv id hE2
  · exact hE2

theorem rebuildScheduleLoop_inv : ∀ (ids : List Str) (E : Engine), EngineInv E →
    EngineInv (rebuildScheduleLoop E ids) := by
  intro ids
  induction ids with
  | nil => exact fun E h => h
  | cons id rest ih =>
    intro E h
    rw [rebuildScheduleLoop]
    split
    · exact ih _ (clearTaskTimer_inv id h)
    · split
      · exact ih _ (scheduleTask_inv id (clearTaskTimer_inv id h))
      · exact ih _ (clearTaskTimer_inv id h)

theorem scheduleAllLoop_inv : ∀ (ids : List Str) (E : Engine), EngineInv E →
    EngineInv (scheduleAllLoop E ids) := by
  intro ids
  induction ids with
  | nil => exact fun E h => h
  | cons id rest ih =>
    intro E h
    rw [scheduleAllLoop]
    split
    · split
      · exact ih _ (scheduleTask_inv id h)
      · exact ih _ h
    · exact ih _ h

theorem rebuildRuntimeTasks_inv {E : Engine} (descs : List (Str × RTask))
    (hfresh : ∀ p ∈ descs, freshDesc p.2) (h : EngineInv E) :
    EngineInv (rebuildRuntimeTasks E descs) := by
  obtain ⟨h1, h2, h3, h4, h5, h6, h7⟩ := h
  have hE2 : EngineInv { E with
      tasks := descs.map (fun p =>
        (p.1, match lookupTask E.tasks p.1 with
          | some old => carryOver old p.2
          | none => p.2))
      pendingTimers := E.pendingTimers.filter (fun p =>
        decide (p.1 ∉ E.tasks.filterMap (fun q =>
          if q.1 ∈ descs.map Prod.fst then none else q.2.timer)))
      runQueue := (E.runQueue.filter
        (fun j => decide (j ∈ descs.map Prod.fst))).filter
        (fun j =>
          match lookupTask (descs.map (fun p =>
            (p.1, match lookupTask E.tasks p.1 with
              | some old => carryOver old p.2
              | none => p.2))) j with
          | some t => t.enabled && !t.blocked
          | none => true)
      queuedIds := (E.queuedIds.filter
        (fun j => decide (j ∈ descs.map Prod.fst))).filter
        (fun j =>
          match lookupTask (descs.map (fun p =>
            (p.1, match lookupTask E.tasks p.1 with
              | some old => carryOver old p.2
              | none => p.2))) j with
          | some t => t.enabled && !t.blocked
          | none => true) } := by
    refine ⟨h1, h2, h3, (h4.filter _).filter _, ?_, ?_, ?_⟩
    · intro j
      simp only [List.mem_filter]
      exact and_congr (and_congr (h5 j) Iff.rfl) Iff.rfl
    · intro j t' hl ha
      dsimp only at hl
      rw [lookupTask_map_dep (fun jj fresh => match lookupTask E.tasks jj with
        | some old => carryOver old fresh
        | none => fresh)] at hl
      cases hd : lookupTask descs j with
      | none => rw [hd] at hl; cases hl
      | some fresh =>
        rw [hd] at hl
        simp only [Option.map_some'] at hl
        have ht' := Option.some.inj hl
        simp only [List.mem_filter]
        rintro ⟨⟨hjq, -⟩, -⟩
        cases he : lookupTask E.tasks j with
        | none =>
          rw [he] at ht'
          have hfd := hfresh (j, fresh) (lookupTask_mem hd)
          rw [← ht'] at ha
          rw [hfd.2.1] at ha
          cases ha
        | some old =>
          rw [he] at ht'
          have hoact : old.active = true := by
            rw [← ht'] at ha
            exact ha
          exact h6 j old he hoact hjq
    · intro j t' hl hb
      constructor
      · dsimp only at hl
        rw [lookupTask_map_dep (fun jj fresh => match lookupTask E.tasks jj with
          | some old => carryOver old fresh
          | none => fresh)] at hl
        cases hd : lookupTask descs j with
        | none => rw [hd] at hl; cases hl
        | some fresh =>
          rw [hd] at hl
          simp only [Option.map_some'] at hl
          have ht' := Option.some.inj hl
          cases he : lookupTask E.tasks j with
          | none =>
            rw [he] at ht'
            have hfd := hfresh (j, fresh) (lookupTask_mem hd)
            rw [← ht'] at hb
            rw [hfd.1] at hb
            cases hb
          | some old =>
            rw [he] at ht'
            have hob : old.blocked = true := by
              rw [← ht'] at hb
              exact hb
            rw [← ht']
            show old.active = false
            exact (h7 j old he hob).1
      · simp only [List.mem_filter]
        rintro ⟨-, hkeep⟩
        dsimp only at hl
        rw [hl] at hkeep
        dsimp only at hkeep
        rw [hb] at hkeep
        simp at hkeep
  unfold rebuildRuntimeTasks
  dsimp only
  split
  · exact rebuildScheduleLoop_inv _ _ hE2
  · exact hE2

theorem fireTimer_inv {E : Engine} (h : Nat) (id : Str) (hinv : EngineInv E) :
    EngineInv (fireTimer E h id) := by
  unfold fireTimer
  dsimp only
  refine enqueueExecution_inv id ?_
  split
  · exact EngineInv_transfer hinv rfl rfl rfl rfl rfl (fun _ => rfl)
  · split
    · exact EngineInv_transfer hinv rfl rfl rfl rfl rfl (fun j =>
        lookup_map_dropTimer_update E.tasks id (fun u => { u with timer := none })
          (fun t => rfl) j)
    · exact EngineInv_transfer hinv rfl rfl rfl rfl rfl (fun _ => rfl)

/-! ### The configuration store is untouched by scheduler operations -/

theorem clearTaskTimer_desired (E : Engine) (id : Str) :
    (clearTaskTimer E id).desired = E.desired := by
  unfold clearTaskTimer
  split
  · rfl
  · split
    · rfl
    · rfl

theorem scheduleTask_desired (E : Engine) (id : Str) :
    (scheduleTask E id).desired = E.desired := by
  unfold scheduleTask
  dsimp only
  split
  · rfl
  · split
    · rfl
    · split
      · exact clearTaskTimer_desired E id
      · split
        · exact clearTaskTimer_desired E id
        · exact clearTaskTimer_desired E id

theorem drainLoop_desired : ∀ (fuel : Nat) (E : Engine),
    (drainLoop E fuel).desired = E.desired := by
  intro fuel
  induction fuel with
  | zero => exact fun E => rfl
  | succ n ih =>
    intro E
    rw [drainLoop]
    split
    · split
      · rfl
      · dsimp only
        split
        · exact ih _
        · split
          · exact ih _
          · split
            · exact ih _
            · exact ih _
    · rfl

theorem drainQueue_desired (E : Engine) : (drainQueue E).desired = E.desired := by
  unfold drainQueue
  split
  · exact drainLoop_desired _ _
  · rfl

theorem enqueueExecution_desired (E : Engine) (id : Str) :
    (enqueueExecution E id).desired = E.desired := by
  unfold enqueueExecution
  split
  · rfl
  · split
    · rfl
    · split
      · rfl
      · split
        · rfl
        · exact drainQueue_desired _

theorem fireTimer_desired (E : Engine) (h : Nat) (id : Str) :
    (fireTimer E h id).desired = E.desired := by
  unfold fireTimer
  dsimp only
  rw [enqueueExecution_desired]
  split
  · rfl
  · split
    · rfl
    · rfl

theorem completeExec_desired (E : Engine) (id : Str) (out : Outcome) :
    (completeExec E id out).desired = E.desired := by
  unfold completeExec
  dsimp only
  rw [drainQueue_desired]
  split
  · split
    · rfl
    · split
      · rfl
      · split
        · rfl
        · exact scheduleTask_desired _ id
  · rfl

theorem rebuildScheduleLoop_desired : ∀ (ids : List Str) (E : Engine),
    (rebuildScheduleLoop E ids).desired = E.desired := by
  intro ids
  induction ids with
  | nil => exact fun E => rfl
  | cons id rest ih =>
    intro E
    rw [rebuildScheduleLoop]
    split
    · rw [ih]
      exact clearTaskTimer_desired E id
    · split
      · rw [ih, scheduleTask_desired]
        exact clearTaskTimer_desired E id
      · rw [ih]
        exact clearTaskTimer_desired E id

theorem rebuildRuntimeTasks_desired (E : Engine) (descs : List (Str × RTask)) :
    (rebuildRuntimeTasks E descs).desired = E.desired := by
  unfold rebuildRuntimeTasks
  dsimp only
  split
  · rw [rebuildScheduleLoop_desired]
  · rfl

theorem scheduleAllLoop_desired : ∀ (ids : List Str) (E : Engine),
    (scheduleAllLoop E ids).desired = E.desired := by
  intro ids
  induction ids with
  | nil => exact fun E => rfl
  | cons id rest ih =>
    intro E
    rw [scheduleAllLoop]
    split
    · split
      · rw [ih, scheduleTask_desired]
      · rw [ih]
    · rw [ih]

theorem startEngine_desired (E : Engine) : (startEngine E).desired = E.desired := by
  unfold startEngine
  split
  · rfl
  · rw [scheduleAllLoop_desired]
    dsimp only
    split
    · rw [rebuildRuntimeTasks_desired]
    · rfl

theorem unblockTask_desired (E : Engine) (id : Str) :
    (unblockTask E id).desired = E.desired := by
  unfold unblockTask
  split
  · rfl
  · dsimp only
    split
    · rw [scheduleTask_desired]
      rfl
    · rfl

/-! ### Remaining per-operation invariance -/

theorem normalizeMaxConcurrency_pos (v : Option Int) :
    1 ≤ normalizeMaxConcurrency v DEFAULT_MAX_CONCURRENCY := by
  cases v with
  | none =>
    show 1 ≤ 3
    omega
  | some x =>
    show 1 ≤ if x ≤ 0 then DEFAULT_MAX_CONCURRENCY else max 1 x.toNat
    split
    · show 1 ≤ 3
      omega
    · exact le_max_left _ _

theorem setTasks_inv {E : Engine} (descs : List (Str × RTask))
    (hfresh : ∀ p ∈ descs, freshDesc p.2) (h : EngineInv E) :
    EngineInv (setTasks E descs) := by
  unfold setTasks
  exact rebuildRuntimeTasks_inv descs hfresh h

theorem startEngine_inv {E : Engine} (h : EngineInv E)
    (hd : ∀ p ∈ E.desired, freshDesc p.2) : EngineInv (startEngine E) := by
  unfold startEngine
  split
  · exact h
  · dsimp only
    refine scheduleAllLoop_inv _ _ ?_
    have hE1 : EngineInv (if E.tasks.isEmpty then rebuildRuntimeTasks E E.desired else E) := by
      split
      · exact rebuildRuntimeTasks_inv E.desired hd h
      · exact h
    obtain ⟨g1, g2, g3, g4, g5, g6, g7⟩ := hE1
    refine ⟨g1, Nat.zero_le _, fun _ => rfl, List.nodup_nil, fun j => Iff.rfl, ?_, ?_⟩
    · intro j t hl _
      exact List.not_mem_nil j
    · intro j t hl hb
      exact ⟨(g7 j t hl hb).1, List.not_mem_nil j⟩

theorem stopEngine_inv {E : Engine} (h : EngineInv E) : EngineInv (stopEngine E) := by
  obtain ⟨h1, h2, h3, h4, h5, h6, h7⟩ := h
  refine ⟨h1, Nat.zero_le _, fun _ => rfl, List.nodup_nil, fun j => Iff.rfl, ?_, ?_⟩
  · intro j t' hl ha
    exact List.not_mem_nil j
  · intro j t' hl hb
    refine ⟨?_, List.not_mem_nil j⟩
    show t'.active = false
    have : lookupTask (E.tasks.map (fun q =>
        (q.1, { q.2 with timer := none, active := false }))) j = some t' := hl
    rw [lookupTask_map_dep (fun _ u => { u with timer := none, active := false })] at this
    cases he : lookupTask E.tasks j with
    | none => rw [he] at this; cases this
    | some u =>
      rw [he] at this
      simp only [Option.map_some'] at this
      rw [← Option.some.inj this]

theorem unblockTask_inv {E : Engine} (id : Str) (h : EngineInv E) :
    EngineInv (unblockTask E id) := by
  unfold unblockTask
  split
  · exact h
  · dsimp only
    have hE1 : EngineInv { E with tasks := updateTask E.tasks id (fun u => { u with blocked := false, blockedReason := none }) } := by
      obtain ⟨h1, h2, h3, h4, h5, h6, h7⟩ := h
      refine ⟨h1, h2, h3, h4, h5, ?_, ?_⟩
      · intro j t' hl ha
        dsimp only at hl
        rw [lookupTask_updateTask] at hl
        by_cases hj : j = id
        · subst hj
          rw [if_pos rfl] at hl
          cases he : lookupTask E.tasks j with
          | none => rw [he] at hl; cases hl
          | some u =>
            rw [he] at hl
            simp only [Option.map_some'] at hl
            rw [← Option.some.inj hl] at ha
            exact h6 j u he ha
        · rw [if_neg hj] at hl
          exact h6 j t' hl ha
      · intro j t' hl hb
        dsimp only at hl
        rw [lookupTask_updateTask] at hl
        by_cases hj : j = id
        · subst hj
          rw [if_pos rfl] at hl
          cases he : lookupTask E.tasks j with
          | none => rw [he] at hl; cases hl
          | some u =>
            rw [he] at hl
            simp only [Option.map_some'] at hl
            rw [← Option.some.inj hl] at hb
            cases hb
        · rw [if_neg hj] at hl
          exact h7 j t' hl hb
    split
    · exact scheduleTask_inv id (removeFromQueue_inv id hE1)
    · exact removeFromQueue_inv id hE1

theorem applyRuntimeOptions_inv {E : Engine} (attach : Bool) (cfg : Option Int)
    (descs : List (Str × RTask)) (hfresh : ∀ p ∈ descs, freshDesc p.2)
    (h : EngineInv E) : EngineInv (applyRuntimeOptions E attach cfg descs) := by
  have hmax : 1 ≤ (if attach then 1 else normalizeMaxConcurrency cfg DEFAULT_MAX_CONCURRENCY) := by
    split
    · exact le_refl 1
    · exact normalizeMaxConcurrency_pos cfg
  unfold applyRuntimeOptions
  dsimp only
  by_cases hw : E.running = true
  · simp only [if_pos hw]
    obtain ⟨g1, g2, g3, g4, g5, g6, g7⟩ := stopEngine_inv h
    have hE2 : EngineInv { (stopEngine E) with
        maxConcurrency :=
          if attach then 1 else normalizeMaxConcurrency cfg DEFAULT_MAX_CONCURRENCY
        desired := descs } := by
      refine ⟨hmax, ?_, fun _ => rfl, g4, g5, g6, g7⟩
      show (stopEngine E).runningCount ≤ _
      exact Nat.zero_le _
    refine startEngine_inv (rebuildRuntimeTasks_inv descs hfresh hE2) ?_
    rw [rebuildRuntimeTasks_desired]
    exact hfresh
  · simp only [if_neg hw]
    have hw' : E.running = false := by revert hw; cases E.running <;> simp
    have hcnt0 : E.runningCount = 0 := h.2.2.1 hw'
    obtain ⟨g1, g2, g3, g4, g5, g6, g7⟩ := h
    have hE2 : EngineInv { E with
        maxConcurrency :=
          if attach then 1 else normalizeMaxConcurrency cfg DEFAULT_MAX_CONCURRENCY
        desired := descs } := by
      refine ⟨hmax, ?_, fun _ => hcnt0, g4, g5, g6, g7⟩
      show E.runningCount ≤ _
      rw [hcnt0]
      exact Nat.zero_le _
    exact rebuildRuntimeTasks_inv descs hfresh hE2

theorem mkEngine_inv (attach : Bool) (cfg : Option Int) : EngineInv (mkEngine attach cfg) := by
  refine ⟨?_, ?_, fun _ => rfl, List.nodup_nil, fun j => Iff.rfl, ?_, ?_⟩
  · show 1 ≤ if attach then 1 else normalizeMaxConcurrency cfg DEFAULT_MAX_CONCURRENCY
    split
    · exact le_refl 1
    · exact normalizeMaxConcurrency_pos cfg
  · exact Nat.zero_le _
  · intro j t hl
    cases hl
  · intro j t hl
    cases hl

theorem reachable_inv {E : Engine} (h : ReachableE E) :
    EngineInv E ∧ ∀ p ∈ E.desired, freshDesc p.2 := by
  induction h with
  | init attach cfg =>
    refine ⟨mkEngine_inv attach cfg, ?_⟩
    intro p hp
    cases hp
  | step hR hs ih =>
    obtain ⟨hinv, hd⟩ := ih
    cases hs with
    | fire hmem =>
      exact ⟨fireTimer_inv _ _ hinv, by rw [fireTimer_desired]; exact hd⟩
    | complete ht ha =>
      exact ⟨completeExec_inv _ ht ha hinv, by rw [completeExec_desired]; exact hd⟩
    | setCfg hfresh hnd =>
      refine ⟨setTasks_inv _ hfresh hinv, ?_⟩
      show ∀ p ∈ (setTasks _ _).desired, freshDesc p.2
      unfold setTasks
      rw [rebuildRuntimeTasks_desired]
      exact hfresh
    | reconfigure hfresh hnd =>
      refine ⟨applyRuntimeOptions_inv _ _ _ hfresh hinv, ?_⟩
      show ∀ p ∈ (applyRuntimeOptions _ _ _ _).desired, freshDesc p.2
      unfold applyRuntimeOptions
      dsimp only
      split
      · rw [startEngine_desired, rebuildRuntimeTasks_desired]
        exact hfresh
      · rw [rebuildRuntimeTasks_desired]
        exact hfresh
    | engStart =>
      refine ⟨startEngine_inv hinv hd, ?_⟩
      rw [startEngine_desired]
      exact hd
    | engStop =>
      exact ⟨stopEngine_inv hinv, hd⟩
    | unblock =>
      exact ⟨unblockTask_inv _ hinv, by rw [unblockTask_desired]; exact hd⟩

/-! ### A blocked task stays blocked (until `unblockTask`) -/

/-- The task `id` exists and its blocked flag is set. -/
def blockedTrue (E : Engine) (id : Str) : Prop :=
  ∃ t, lookupTask E.tasks id = some t ∧ t.blocked = true

theorem blockedTrue_update {l : List (Str × RTask)} {id : Str} (j : Str)
    {f : RTask → RTask} (hf : ∀ u, u.blocked = true → (f u).blocked = true)
    {t : RTask} (h : lookupTask l id = some t) (hb : t.blocked = true) :
    ∃ t', lookupTask (updateTask l j f) id = some t' ∧ t'.blocked = true := by
  rw [lookupTask_updateTask]
  by_cases hij : id = j
  · subst hij
    rw [if_pos rfl, h]
    exact ⟨f t, rfl, hf t hb⟩
  · rw [if_neg hij]
    exact ⟨t, h, hb⟩

theorem blockedTrue_of_dropTimer {E F : Engine}
    (hdt : ∀ j, (lookupTask F.tasks j).map dropTimer =
      (lookupTask E.tasks j).map dropTimer)
    {id : Str} (h : blockedTrue E id) : blockedTrue F id := by
  obtain ⟨t, ht, hb⟩ := h
  have hthis := hdt id
  rw [ht] at hthis
  cases hf : lookupTask F.tasks id with
  | none =>
    rw [hf] at hthis
    simp at hthis
  | some t' =>
    rw [hf] at hthis
    simp only [Option.map_some'] at hthis
    have hdteq := Option.some.inj hthis
    refine ⟨t', hf, ?_⟩
    rw [← dropTimer_blocked t', hdteq, dropTimer_blocked]
    exact hb

theorem scheduleTask_blocked {E : Engine} (j id : Str) (h : blockedTrue E id) :
    blockedTrue (scheduleTask E j) id :=
  blockedTrue_of_dropTimer (scheduleTask_parts E j).2.2.2.1 h

theorem drainLoop_blocked : ∀ (fuel : Nat) (E : Engine) (id : Str),
    blockedTrue E id → blockedTrue (drainLoop E fuel) id := by
  intro fuel
  induction fuel with
  | zero => exact fun E id h => h
  | succ n ih =>
    intro E id h
    rw [drainLoop]
    split
    · split
      · exact h
      · dsimp only
        split
        · exact ih _ id h
        · split
          · exact ih _ id h
          · split
            · exact ih _ id h
            · refine ih _ id ?_
              obtain ⟨t, ht, hb⟩ := h
              exact blockedTrue_update _ (fun u hu => hu) ht hb
    · exact h

theorem drainQueue_blocked {E : Engine} (id : Str) (h : blockedTrue E id) :
    blockedTrue (drainQueue E) id := by
  unfold drainQueue
  split
  · exact drainLoop_blocked _ _ id h
  · exact h

theorem enqueueExecution_blocked {E : Engine} (j id : Str) (h : blockedTrue E id) :
    blockedTrue (enqueueExecution E j) id := by
  unfold enqueueExecution
  split
  · exact h
  · split
    · exact h
    · split
      · exact h
      · split
        · exact h
        · exact drainQueue_blocked id h

theorem fireTimer_blocked {E : Engine} (hd : Nat) (j id : Str) (h : blockedTrue E id) :
    blockedTrue (fireTimer E hd j) id := by
  unfold fireTimer
  dsimp only
  refine enqueueExecution_blocked j id ?_
  split
  · exact h
  · split
    · obtain ⟨t, ht, hb⟩ := h
      exact blockedTrue_update _ (fun u hu => hu) ht hb
    · exact h

theorem completeExec_blocked {E : Engine} (j id : Str) (out : Outcome)
    (h : blockedTrue E id) : blockedTrue (completeExec E j out) id := by
  unfold completeExec
  dsimp only
  refine drainQueue_blocked id ?_
  have h2 : blockedTrue { E with tasks := updateTask (updateTask E.tasks j (applyOutcome out)) j (fun u => { u with active := false }) } id := by
    obtain ⟨t, ht, hb⟩ := h
    obtain ⟨t1, ht1, hb1⟩ := blockedTrue_update (f := applyOutcome out) j
      (fun u hu => by cases out <;> simp [applyOutcome, hu]) ht hb
    exact blockedTrue_update j (fun u hu => hu) ht1 hb1
  split
  · split
    · exact h2
    · split
      · exact h2
      · split
        · exact h2
        · exact scheduleTask_blocked j id h2
  · exact h2

theorem stopEngine_blocked {E : Engine} (id : Str) (h : blockedTrue E id) :
    blockedTrue (stopEngine E) id := by
  obtain ⟨t, ht, hb⟩ := h
  refine ⟨{ t with timer := none, active := false }, ?_, hb⟩
  show lookupTask (E.tasks.map (fun q => (q.1, { q.2 with timer := none, active := false }))) id = _
  rw [lookupTask_map_dep (fun _ u => { u with timer := none, active := false }), ht]
  rfl

theorem scheduleAllLoop_blocked : ∀ (ids : List Str) (E : Engine) (id : Str),
    blockedTrue E id → blockedTrue (scheduleAllLoop E ids) id := by
  intro ids
  induction ids with
  | nil => exact fun E id h => h
  | cons j rest ih =>
    intro E id h
    rw [scheduleAllLoop]
    split
    · split
      · exact ih _ id (scheduleTask_blocked j id h)
      · exact ih _ id h
    · exact ih _ id h

theorem rebuildScheduleLoop_blocked : ∀ (ids : List Str) (E : Engine) (id : Str),
    blockedTrue E id → blockedTrue (rebuildScheduleLoop E ids) id := by
  intro ids
  induction ids with
  | nil => exact fun E id h => h
  | cons j rest ih =>
    intro E id h
    have h1 : blockedTrue (clearTaskTimer E j) id :=
      blockedTrue_of_dropTimer (clearTaskTimer_parts E j).2.2.2.2.2.2 h
    rw [rebuildScheduleLoop]
    split
    · exact ih _ id h1
    · split
      · exact ih _ id (scheduleTask_blocked j id h1)
      · exact ih _ id h1

theorem rebuildRuntimeTasks_blocked {E : Engine} (descs : List (Str × RTask)) (id : Str)
    (hmem : id ∈ descs.map Prod.fst) (h : blockedTrue E id) :
    blockedTrue (rebuildRuntimeTasks E descs) id := by
  obtain ⟨t, ht, hb⟩ := h
  obtain ⟨fresh, hfr⟩ := mem_keys_lookup hmem
  have hn : blockedTrue { E with
      tasks := descs.map (fun p =>
        (p.1, match lookupTask E.tasks p.1 with
          | some old => carryOver old p.2
          | none => p.2))
      pendingTimers := E.pendingTimers.filter (fun p =>
        decide (p.1 ∉ E.tasks.filterMap (fun q =>
          if q.1 ∈ descs.map Prod.fst then none else q.2.timer)))
      runQueue := E.runQueue.filter (fun j => decide (j ∈ descs.map Prod.fst))
      queuedIds := E.queuedIds.filter (fun j => decide (j ∈ descs.map Prod.fst)) } id := by
    refine ⟨carryOver t fresh, ?_, ?_⟩
    · show lookupTask (descs.map (fun p =>
        (p.1, match lookupTask E.tasks p.1 with
          | some old => carryOver old p.2
          | none => p.2))) id = _
      rw [lookupTask_map_dep (fun jj fr => match lookupTask E.tasks jj with
        | some old => carryOver old fr
        | none => fr), hfr]
      simp only [Option.map_some']
      rw [ht]
    · show (carryOver t fresh).blocked = true
      unfold carryOver
      exact hb
  obtain ⟨t', ht', hb'⟩ := hn
  unfold rebuildRuntimeTasks
  dsimp only
  split
  · refine rebuildScheduleLoop_blocked _ _ id ⟨t', ht', hb'⟩
  · exact ⟨t', ht', hb'⟩

theorem lookupTask_ne_nil {l : List (Str × RTask)} {id : Str} {t : RTask}
    (h : lookupTask l id = some t) : l.isEmpty = false := by
  cases l with
  | nil => cases h
  | cons p rest => rfl

theorem startEngine_blocked {E : Engine} (id : Str) (h : blockedTrue E id) :
    blockedTrue (startEngine E) id := by
  obtain ⟨t, ht, hb⟩ := h
  unfold startEngine
  split
  · exact ⟨t, ht, hb⟩
  · dsimp only
    rw [lookupTask_ne_nil ht]
    exact scheduleAllLoop_blocked _ _ id ⟨t, ht, hb⟩

theorem unblockTask_blocked {E : Engine} (j id : Str) (hne : j ≠ id)
    (h : blockedTrue E id) : blockedTrue (unblockTask E j) id := by
  have hupd : blockedTrue { E with tasks := updateTask E.tasks j (fun u => { u with blocked := false, blockedReason := none }) } id := by
    obtain ⟨t, ht, hb⟩ := h
    refine ⟨t, ?_, hb⟩
    show lookupTask (updateTask E.tasks j _) id = some t
    rw [lookupTask_updateTask, if_neg (fun hx => hne hx.symm)]
    exact ht
  unfold unblockTask
  split
  · exact h
  · dsimp only
    split
    · refine scheduleTask_blocked j id ?_
      obtain ⟨t, ht, hb⟩ := hupd
      exact ⟨t, ht, hb⟩
    · obtain ⟨t, ht, hb⟩ := hupd
      exact ⟨t, ht, hb⟩

theorem setTasks_blocked {E : Engine} (descs : List (Str × RTask)) (id : Str)
    (hmem : id ∈ descs.map Prod.fst) (h : blockedTrue E id) :
    blockedTrue (setTasks E descs) id := by
  unfold setTasks
  exact rebuildRuntimeTasks_blocked descs id hmem h

theorem applyRuntimeOptions_blocked {E : Engine} (attach : Bool) (cfg : Option Int)
    (descs : List (Str × RTask)) (id : Str) (hmem : id ∈ descs.map Prod.fst)
    (h : blockedTrue E id) : blockedTrue (applyRuntimeOptions E attach cfg descs) id := by
  unfold applyRuntimeOptions
  dsimp only
  by_cases hw : E.running = true
  · simp only [if_pos hw]
    exact startEngine_blocked id
      (rebuildRuntimeTasks_blocked descs id hmem (stopEngine_blocked id h))
  · simp only [if_neg hw]
    exact rebuildRuntimeTasks_blocked descs id hmem h

/-- Which actions the blocked-stays-blocked claim quantifies over: everything
except unblocking this very task, and rebuilds keep the task configured. -/
def avoidsId (id : Str) : Act → Prop
  | .unblock j => j ≠ id
  | .setCfg descs => id ∈ descs.map Prod.fst
  | .reconfigure _ _ descs => id ∈ descs.map Prod.fst
  | _ => True

/-- A sequence of engine steps none of which unblocks `id` or drops it from
the configuration. -/
inductive ChainAvoiding (id : Str) : Engine → Engine → Prop
  | refl (E : Engine) : ChainAvoiding id E E
  | cons {E F G : Engine} (a : Act) (hs : Step E a F) (hok : avoidsId id a)
      (rest : ChainAvoiding id F G) : ChainAvoiding id E G

theorem step_blocked_persist {E F : Engine} {a : Act} {id : Str} (hs : Step E a F)
    (hok : avoidsId id a) (h : blockedTrue E id) : blockedTrue F id := by
  cases hs with
  | fire hmem => exact fireTimer_blocked _ _ id h
  | complete ht ha => exact completeExec_blocked _ id _ h
  | setCfg hfresh hnd => exact setTasks_blocked _ id hok h
  | reconfigure hfresh hnd => exact applyRuntimeOptions_blocked _ _ _ id hok h
  | engStart => exact startEngine_blocked id h
  | engStop => exact stopEngine_blocked id h
  | unblock => exact unblockTask_blocked _ id hok h

theorem chain_blocked_persist {E F : Engine} {id : Str} (hc : ChainAvoiding id E F)
    (h : blockedTrue E id) : blockedTrue F id := by
  induction hc with
  | refl _ => exact h
  | cons a hs hok rest ih => exact ih (step_blocked_persist hs hok h)

theorem chain_reachable {E F : Engine} {id : Str} (hc : ChainAvoiding id E F)
    (h : ReachableE E) : ReachableE F := by
  induction hc with
  | refl _ => exact h
  | cons a hs hok rest ih => exact ih (ReachableE.step h hs)

/-! ### `maxConcurrency` is set only by construction and reconfiguration -/

theorem rebuildScheduleLoop_maxC : ∀ (ids : List Str) (E : Engine),
    (rebuildScheduleLoop E ids).maxConcurrency = E.maxConcurrency := by
  intro ids
  induction ids with
  | nil => exact fun E => rfl
  | cons id rest ih =>
    intro E
    have hc := (clearTaskTimer_parts E id).1
    rw [rebuildScheduleLoop]
    split
    · rw [ih, hc]
    · split
      · rw [ih, (scheduleTask_parts _ id).2.1, hc]
      · rw [ih, hc]

theorem rebuildRuntimeTasks_maxC (E : Engine) (descs : List (Str × RTask)) :
    (rebuildRuntimeTasks E descs).maxConcurrency = E.maxConcurrency := by
  unfold rebuildRuntimeTasks
  dsimp only
  split
  · rw [rebuildScheduleLoop_maxC]
  · rfl

theorem scheduleAllLoop_maxC : ∀ (ids : List Str) (E : Engine),
    (scheduleAllLoop E ids).maxConcurrency = E.maxConcurrency := by
  intro ids
  induction ids with
  | nil => exact fun E => rfl
  | cons id rest ih =>
    intro E
    rw [scheduleAllLoop]
    split
    · split
      · rw [ih, (scheduleTask_parts _ id).2.1]
      · rw [ih]
    · rw [ih]

theorem startEngine_maxC (E : Engine) : (startEngine E).maxConcurrency = E.maxConcurrency := by
  unfold startEngine
  split
  · rfl
  · rw [scheduleAllLoop_maxC]
    dsimp only
    split
    · rw [rebuildRuntimeTasks_maxC]
    · rfl

theorem applyRuntimeOptions_attach_maxC (E : Engine) (cfg : Option Int)
    (descs : List (Str × RTask)) :
    (applyRuntimeOptions E true cfg descs).maxConcurrency = 1 := by
  unfold applyRuntimeOptions
  dsimp only
  by_cases hw : E.running = true
  · simp only [if_pos hw]
    rw [startEngine_maxC, rebuildRuntimeTasks_maxC]
    simp
  · simp only [if_neg hw]
    rw [rebuildRuntimeTasks_maxC]
    simp

/-! ### Concrete runs used as witnesses and exhibits -/

/-- A task id. -/
def egId : Str := ['a']

/-- A fresh enabled descriptor as `createDescriptorFromOptions` builds it. -/
def egFresh : RTask :=
  ⟨true, false, false, none, 0, ['o'], [], [], [], [], false, 0, false, none⟩

/-- Engine as constructed (launch mode, no configured concurrency). -/
def egE0 : Engine := mkEngine false none

/-- Configuration applied: one enabled task. -/
def egE1 : Engine := setTasks egE0 [(egId, egFresh)]

/-- Engine started: the task gets timer handle 0. -/
def egE2 : Engine := startEngine egE1

/-- Timer 0 fires: the task enqueues and immediately launches. -/
def egE3 : Engine := fireTimer egE2 0 egId

/-- The launched check detects an anti-bot page: the task ends up blocked. -/
def egE4 : Engine := completeExec egE3 egId (Outcome.blockedByAntiBot ['b'])

/-- The same configuration applied again while running (`setUiTasks` with an
unchanged task list): the rebuild leaves timer 0 pending and arms timer 1. -/
def egE5 : Engine := setTasks egE2 [(egId, egFresh)]

/-- The stale timer 0 fires: the task launches while timer 1 stays pending. -/
def egE6 : Engine := fireTimer egE5 0 egId

theorem egFresh_fresh : freshDesc egFresh :=
  ⟨rfl, rfl, rfl, rfl, rfl, rfl, rfl, rfl, rfl, rfl, rfl, rfl⟩

/-- The task descriptor as it stands in `egE3` (mid-execution). -/
def egT3 : RTask :=
  match lookupTask egE3.tasks egId with
  | some t => t
  | none => egFresh

theorem egE4_reachable : ReachableE egE4 := by
  refine ReachableE.step (ReachableE.step (ReachableE.step (ReachableE.step
    (ReachableE.init false none)
    (Step.setCfg ?_ ?_)) Step.engStart) (Step.fire ?_))
    (Step.complete (t := egT3) ?_ ?_)
  · intro p hp
    rcases List.mem_singleton.mp hp with rfl
    exact egFresh_fresh
  · decide
  · decide
  · rfl
  · rfl

theorem egE6_reachable : ReachableE egE6 := by
  refine ReachableE.step (ReachableE.step (ReachableE.step (ReachableE.step
    (ReachableE.init false none)
    (Step.setCfg ?_ ?_)) Step.engStart) (Step.setCfg ?_ ?_)) (Step.fire ?_)
  · intro p hp
    rcases List.mem_singleton.mp hp with rfl
    exact egFresh_fresh
  · decide
  · intro p hp
    rcases List.mem_singleton.mp hp with rfl
    exact egFresh_fresh
  · decide
  · decide

/-! ### Rebuild carry-over, modulo timers -/

theorem rebuildScheduleLoop_dropTimer : ∀ (ids : List Str) (E : Engine) (j : Str),
    (lookupTask (rebuildScheduleLoop E ids).tasks j).map dropTimer =
      (lookupTask E.tasks j).map dropTimer := by
  intro ids
  induction ids with
  | nil => exact fun E j => rfl
  | cons id rest ih =>
    intro E j
    have hc := (clearTaskTimer_parts E id).2.2.2.2.2.2 j
    have hs := fun F => (scheduleTask_parts F id).2.2.2.1 j
    rw [rebuildScheduleLoop]
    split
    · rw [ih, hc]
    · split
      · rw [ih, hs, hc]
      · rw [ih, hc]

theorem rebuild_lookup_dropTimer (E : Engine) (descs : List (Str × RTask)) (id : Str)
    (old fresh : RTask) (hold : lookupTask E.tasks id = some old)
    (hdesc : lookupTask descs id = some fresh) :
    (lookupTask (rebuildRuntimeTasks E descs).tasks id).map dropTimer =
      some (dropTimer (carryOver old fresh)) := by
  have hnext : (lookupTask (descs.map (fun p =>
      (p.1, match lookupTask E.tasks p.1 with
        | some old => carryOver old p.2
        | none => p.2))) id).map dropTimer = some (dropTimer (carryOver old fresh)) := by
    rw [lookupTask_map_dep (fun jj fr => match lookupTask E.tasks jj with
      | some old => carryOver old fr
      | none => fr), hdesc]
    simp only [Option.map_some']
    rw [hold]
  unfold rebuildRuntimeTasks
  dsimp only
  split
  · rw [rebuildScheduleLoop_dropTimer]
    exact hnext
  · exact hnext

/-! ## `checkTask`: content comparison, keyword filter, persistence decisions

The task's content-relevant fields and the page extraction are taken as
inputs; `sha256` is an arbitrary hash function parameter; the
`detectAntiBotPage` verdict on the extraction comes with the extraction. The
observable effects are returned as an event list. -/

/-- `String.prototype.toLowerCase()`, per character. -/
def lowerStr (s : Str) : Str := s.map Char.toLower

/-- `String.prototype.trim()` (`isWS` gives the whitespace class). -/
def trimStr (s : Str) : Str :=
  ((s.dropWhile isWS).reverse.dropWhile isWS).reverse

/-- The normalization `checkTask` applies to `resourcesToCompare`: keep
strings, trim them, drop empties. -/
def normResources (l : List Str) : List Str :=
  (l.map trimStr).filter (fun s => !s.isEmpty)

/-- The content-relevant fields of a `RuntimeTask` as `checkTask` reads and
writes them (after `ensureTaskStateLoaded` already ran). -/
structure CTask where
  lastText : Str
  lastTextHash : Str
  lastRenderedHtml : Str
  lastResources : List Str
  requiredKeywordLower : Option Str
  baselineLength : Nat
  baselineTruncated : Bool
  blocked : Bool
  blockedReason : Option Str
deriving Repr, DecidableEq

/-- What `runTask` gave back, plus the `detectAntiBotPage` verdict on it. -/
structure Extraction where
  data : Str
  textToCompare : Str
  resources : List Str
  antiBot : Option Str
  responseStatus : Option Int
deriving Repr, DecidableEq

/-- The observable side effects of one `checkTask` call. -/
inductive CheckEv
  | blockedSet (reason : Str)
  | savedBaselineAndState (text hash : Str) (resources : List Str)
  | wroteReport
  | changeRecorded
  | wroteResourcesTxt (ids : List Str)
  | downloadedExtracted (ids : List Str)
  | wroteStateJson (hash : Str) (resources : List Str)
deriving Repr, DecidableEq

/-- `responseStatus >= 400` (the `typeof responseStatus === "number"` guard is
the `some` case). -/
def httpError (st : Option Int) : Bool :=
  match st with
  | some s => 400 ≤ s
  | none => false

/-- The resource-list comparison of `checkTask`
(`length mismatch || some((item, idx) => item !== last[idx])`). -/
def resourcesChangedJS (current last : List Str) : Bool :=
  decide (current.length ≠ last.length) ||
    (List.range current.length).any (fun i => decide (current.get? i ≠ last.get? i))

/-- `checkTask(task)` after the page ran: anti-bot short-circuit, HTTP error
throw, first-run baseline save, keyword-filtered diff report, resource
download, and the trailing resource-only state rewrite. `hasExtract` tells
whether `task.options.extractResource` is configured. -/
def checkTaskModel (hashFn : Str → Str) (hasExtract : Bool) (T : CTask) (E : Extraction) :
    Except Unit (CTask × List CheckEv) :=
  match E.antiBot with
  | some reason =>
    .ok ({ T with blocked := true, blockedReason := some reason }, [.blockedSet reason])
  | none =>
    if httpError E.responseStatus then .error ()
    else
      let currentText := E.textToCompare
      let currentHash := hashFn currentText
      let currentResources := normResources E.resources
      if T.lastTextHash.isEmpty then
        .ok ({ T with
          lastText := currentText
          lastTextHash := currentHash
          baselineLength := currentText.length
          baselineTruncated := decide (BASELINE_MAX_CHARS < currentText.length)
          lastRenderedHtml := E.data
          lastResources := currentResources },
          [.savedBaselineAndState currentText currentHash currentResources])
      else
        let textChanged := decide (currentHash ≠ T.lastTextHash)
        let keywordMatched :=
          match T.requiredKeywordLower with
          | none => true
          | some kw => decide (kw <:+: lowerStr currentText)
        let shouldSave := textChanged && keywordMatched
        let resourcesChanged := resourcesChangedJS currentResources T.lastResources
        let T1 := if shouldSave then
            { T with
              lastText := currentText
              lastTextHash := currentHash
              baselineLength := currentText.length
              baselineTruncated := decide (BASELINE_MAX_CHARS < currentText.length) }
          else T
        let ev1 := if shouldSave then
            [CheckEv.wroteReport, CheckEv.changeRecorded,
              CheckEv.savedBaselineAndState currentText currentHash currentResources]
          else []
        let T2 := if !textChanged || shouldSave then { T1 with lastRenderedHtml := E.data } else T1
        let ev3 := if T.lastResources.length ≤ currentResources.length then
            let diff := currentResources.filter (fun r => !T.lastResources.contains r)
            if diff.isEmpty then []
            else if hasExtract then [CheckEv.downloadedExtracted diff]
            else [CheckEv.wroteResourcesTxt diff, CheckEv.changeRecorded]
          else []
        let T4 := { T2 with lastResources := currentResources }
        if !shouldSave && resourcesChanged then
          let bl := if T4.baselineLength = 0 then T4.lastText.length else T4.baselineLength
          let bt := T4.baselineTruncated || decide (BASELINE_MAX_CHARS < bl)
          .ok ({ T4 with baselineLength := bl, baselineTruncated := bt },
            ev1 ++ ev3 ++ [CheckEv.wroteStateJson T4.lastTextHash currentResources])
        else
          .ok (T4, ev1 ++ ev3)

/-! ## The claims -/

/-- C5: after a failed execution the failure count is bumped with a cap of
`MAX_FAILURE_COUNT = 6` (so N consecutive failures from a clean task leave the
counter at `min 6 N`), the retry delay is `min(3600, max(5, interval) * 2^fc)`
seconds plus a nonnegative jitter of at most 10% of that delay, and for
`interval = 60` the delays for N = 0..6 are 60, 120, 240, 480, 960, 1920,
3600 seconds, staying capped at 3600 from N = 6 on. -/
theorem C5_backoff_formula (N : Nat) (rand : ℚ) (h0 : 0 ≤ rand) (h1 : rand ≤ 1) :
    (failureBump^[N] 0 = min MAX_FAILURE_COUNT N) ∧
    (∀ d : Nat, 0 ≤ jitterOf rand d ∧ jitterOf rand d ≤ (d : ℚ) * (1 / 10)) ∧
    (backoffDelaySec 60 (failureBump^[0] 0) = 60 ∧
      backoffDelaySec 60 (failureBump^[1] 0) = 120 ∧
      backoffDelaySec 60 (failureBump^[2] 0) = 240 ∧
      backoffDelaySec 60 (failureBump^[3] 0) = 480 ∧
      backoffDelaySec 60 (failureBump^[4] 0) = 960 ∧
      backoffDelaySec 60 (failureBump^[5] 0) = 1920 ∧
      backoffDelaySec 60 (failureBump^[6] 0) = 3600) ∧
    (∀ M : Nat, 6 ≤ M → backoffDelaySec 60 (failureBump^[M] 0) = 3600) := by
  refine ⟨failureBump_iter N, jitter_bounds rand h0 h1, ?_, ?_⟩
  · refine ⟨?_, ?_, ?_, ?_, ?_, ?_, ?_⟩ <;>
      · rw [failureBump_iter]
        norm_num [backoffDelaySec, MAX_FAILURE_COUNT]
  · intro M hM
    rw [failureBump_iter]
    rw [show min MAX_FAILURE_COUNT M = 6 from by unfold MAX_FAILURE_COUNT; omega]
    norm_num [backoffDelaySec]

theorem C5_backoff_formula_witness :
    ((0 : ℚ) ≤ 1 / 2 ∧ (1 / 2 : ℚ) ≤ 1) ∧
    ((failureBump^[7] 0 = min MAX_FAILURE_COUNT 7) ∧
      (∀ d : Nat, 0 ≤ jitterOf (1 / 2) d ∧ jitterOf (1 / 2) d ≤ (d : ℚ) * (1 / 10)) ∧
      (backoffDelaySec 60 (failureBump^[0] 0) = 60 ∧
        backoffDelaySec 60 (failureBump^[1] 0) = 120 ∧
        backoffDelaySec 60 (failureBump^[2] 0) = 240 ∧
        backoffDelaySec 60 (failureBump^[3] 0) = 480 ∧
        backoffDelaySec 60 (failureBump^[4] 0) = 960 ∧
        backoffDelaySec 60 (failureBump^[5] 0) = 1920 ∧
        backoffDelaySec 60 (failureBump^[6] 0) = 3600) ∧
      (∀ M : Nat, 6 ≤ M → backoffDelaySec 60 (failureBump^[M] 0) = 3600)) :=
  ⟨⟨by norm_num, by norm_num⟩,
    C5_backoff_formula 7 (1 / 2) (by norm_num) (by norm_num)⟩

/-- C7: the merged chunk sequence of `myersWordDiff` reconstructs both sides:
dropping the removed chunks and concatenating the values yields the current
token sequence, dropping the added chunks yields the previous one. -/
theorem C7_word_diff_round_trip (A B : List Str) :
    sideCurrent (myersWordDiff A B) = B.flatten ∧
      sidePrevious (myersWordDiff A B) = A.flatten :=
  myersWordDiff_roundTrip A B

/-- C10 (amended): `saveTaskBaselineAndState` writes the baseline file first
and the state descriptor second — every operation creating the baseline file
precedes every operation creating `state.json` — and `state.json` is written
atomically (only ever created by a rename from its `.tmp` sibling); but the
baseline file itself is written by a direct `fs.writeFile`, not via
write-temp-then-rename. -/
theorem C10_persistence_amended (outputDir text payload : Str) :
    (taskStatePath outputDir ∉
      directWrites (saveTaskBaselineAndState outputDir text payload)) ∧
    (FsOp.rename (taskStatePath outputDir ++ tmpSuffix) (taskStatePath outputDir)
      ∈ saveTaskBaselineAndState outputDir text payload) ∧
    (taskBaselinePath outputDir ∈
      directWrites (saveTaskBaselineAndState outputDir text payload)) ∧
    (taskBaselinePath outputDir ∉
      renameTargets (saveTaskBaselineAndState outputDir text payload)) ∧
    (∀ (i j : Nat) (opi opj : FsOp),
      (saveTaskBaselineAndState outputDir text payload).get? i = some opi →
      (saveTaskBaselineAndState outputDir text payload).get? j = some opj →
      touches opi (taskBaselinePath outputDir) = true →
      touches opj (taskStatePath outputDir) = true → i < j) := by
  have hops : saveTaskBaselineAndState outputDir text payload =
      [FsOp.mkdirp (taskStateDir outputDir),
        FsOp.write (taskBaselinePath outputDir) (baselineContent text),
        FsOp.mkdirp (taskStateDir outputDir),
        FsOp.write (taskStatePath outputDir ++ tmpSuffix) payload,
        FsOp.rename (taskStatePath outputDir ++ tmpSuffix) (taskStatePath outputDir)] := rfl
  have hne1 := statePath_ne_baselinePath outputDir
  have hne2 := statePath_ne_stateTmp outputDir
  have hne3 := baselinePath_ne_stateTmp outputDir
  refine ⟨?_, ?_, ?_, ?_, ?_⟩
  · rw [hops]
    simp only [directWrites, List.filterMap]
    intro hc
    simp only [List.mem_cons, List.mem_singleton] at hc
    rcases hc with hc | hc | hc
    · exact hne1 hc
    · exact hne2 hc
    · simp at hc
  · rw [hops]
    simp
  · rw [hops]
    simp [directWrites, List.filterMap]
  · rw [hops]
    simp only [renameTargets, List.filterMap]
    intro hc
    simp only [List.mem_cons, List.mem_singleton] at hc
    rcases hc with hc | hc
    · exact hne1 hc.symm
    · simp at hc
  · intro i j opi opj hi hj hti htj
    rw [hops] at hi hj
    have hi1 : i = 1 := by
      rcases i with _ | _ | _ | _ | _ | i
      · simp at hi
        rw [← hi] at hti
        simp [touches] at hti
      · rfl
      · simp at hi
        rw [← hi] at hti
        simp [touches] at hti
      · simp at hi
        rw [← hi] at hti
        simp only [touches, decide_eq_true_eq] at hti
        exact absurd hti.symm hne3
      · simp at hi
        rw [← hi] at hti
        simp only [touches, decide_eq_true_eq] at hti
        exact absurd hti hne1
      · simp at hi
    have hj4 : j = 4 := by
      rcases j with _ | _ | _ | _ | _ | j
      · simp at hj
        rw [← hj] at htj
        simp [touches] at htj
      · simp at hj
        rw [← hj] at htj
        simp only [touches, decide_eq_true_eq] at htj
        exact absurd htj.symm hne1
      · simp at hj
        rw [← hj] at htj
        simp [touches] at htj
      · simp at hj
        rw [← hj] at htj
        simp only [touches, decide_eq_true_eq] at htj
        exact absurd htj.symm hne2
      · rfl
      · simp at hj
    omega

theorem C10_baseline_not_atomic_counterexample :
    taskBaselinePath ['o'] ∈
      directWrites (saveTaskBaselineAndState ['o'] ['x'] ['s']) ∧
    taskBaselinePath ['o'] ∉
      renameTargets (saveTaskBaselineAndState ['o'] ['x'] ['s']) := by
  constructor
  · decide
  · decide

/-- C9 (amended): on a rebuild, a task id that existed before and is still
configured keeps, for an unchanged output directory, its baseline text, hash,
resource list and baseline metadata; for a changed output directory the
content state is reset to the fresh descriptor's empty values — but
`failureCount`, `blocked` and `active` are carried over unconditionally, even
when the output directory changed. -/
theorem C9_rebuild_carry_amended (E : Engine) (descs : List (Str × RTask)) (id : Str)
    (old fresh : RTask) (hold : lookupTask E.tasks id = some old)
    (hdesc : lookupTask descs id = some fresh) (hfr : freshDesc fresh) :
    ∃ t', lookupTask (rebuildRuntimeTasks E descs).tasks id = some t' ∧
      (old.outputDir = fresh.outputDir →
        t'.lastText = old.lastText ∧ t'.lastTextHash = old.lastTextHash ∧
        t'.lastResources = old.lastResources ∧
        t'.baselineLength = old.baselineLength ∧
        t'.baselineTruncated = old.baselineTruncated) ∧
      (old.outputDir ≠ fresh.outputDir →
        t'.lastText = [] ∧ t'.lastTextHash = [] ∧ t'.lastResources = []) ∧
      t'.failureCount = old.failureCount ∧
      t'.blocked = old.blocked ∧
      t'.active = old.active := by
  have hdt := rebuild_lookup_dropTimer E descs id old fresh hold hdesc
  cases hres : lookupTask (rebuildRuntimeTasks E descs).tasks id with
  | none =>
    rw [hres] at hdt
    simp at hdt
  | some t' =>
    rw [hres] at hdt
    simp only [Option.map_some'] at hdt
    have heq := Option.some.inj hdt
    have hlt : t'.lastText = (carryOver old fresh).lastText := by
      have h0 := congrArg RTask.lastText heq
      exact h0
    have hlh : t'.lastTextHash = (carryOver old fresh).lastTextHash := by
      have h0 := congrArg RTask.lastTextHash heq
      exact h0
    have hlr : t'.lastResources = (carryOver old fresh).lastResources := by
      have h0 := congrArg RTask.lastResources heq
      exact h0
    have hbl : t'.baselineLength = (carryOver old fresh).baselineLength := by
      have h0 := congrArg RTask.baselineLength heq
      exact h0
    have hbt : t'.baselineTruncated = (carryOver old fresh).baselineTruncated := by
      have h0 := congrArg RTask.baselineTruncated heq
      exact h0
    have hfc : t'.failureCount = (carryOver old fresh).failureCount := by
      have h0 := congrArg RTask.failureCount heq
      exact h0
    have hbk : t'.blocked = (carryOver old fresh).blocked := by
      have h0 := congrArg RTask.blocked heq
      exact h0
    have hac : t'.active = (carryOver old fresh).active := by
      have h0 := congrArg RTask.active heq
      exact h0
    refine ⟨t', rfl, ?_, ?_, by rw [hfc]; rfl, by rw [hbk]; rfl, by rw [hac]; rfl⟩
    · intro hdir
      refine ⟨?_, ?_, ?_, ?_, ?_⟩
      · rw [hlt]
        unfold carryOver
        dsimp only
        rw [if_pos hdir]
      · rw [hlh]
        unfold carryOver
        dsimp only
        rw [if_pos hdir]
      · rw [hlr]
        unfold carryOver
        dsimp only
        rw [if_pos hdir]
      · rw [hbl]
        unfold carryOver
        dsimp only
        rw [if_pos hdir]
      · rw [hbt]
        unfold carryOver
        dsimp only
        rw [if_pos hdir]
    · intro hdir
      obtain ⟨-, -, -, -, hf5, hf6, -, hf8, -, -, -, -⟩ := hfr
      refine ⟨?_, ?_, ?_⟩
      · rw [hlt]
        unfold carryOver
        dsimp only
        rw [if_neg hdir]
        exact hf5
      · rw [hlh]
        unfold carryOver
        dsimp only
        rw [if_neg hdir]
        exact hf6
      · rw [hlr]
        unfold carryOver
        dsimp only
        rw [if_neg hdir]
        exact hf8

/-- Descriptor already known to the engine before the rebuild, with failures
and a block on record, homed at output directory `a`. -/
def egOld : RTask :=
  ⟨true, true, false, none, 3, ['a'], ['p'], ['h'], [], [['r']], true, 5, false, some ['z']⟩

/-- An engine holding `egOld` (not running). -/
def egEngineOld : Engine := ⟨false, 3, 0, [(egId, egOld)], [], [], [], 0, []⟩

/-- A fresh descriptor for the same id with the same output directory `a`. -/
def egFreshA : RTask :=
  ⟨true, false, false, none, 0, ['a'], [], [], [], [], false, 0, false, none⟩

/-- A fresh descriptor for the same id with a changed output directory `b`. -/
def egFreshB : RTask :=
  ⟨true, false, false, none, 0, ['b'], [], [], [], [], false, 0, false, none⟩

theorem C9_rebuild_carry_amended_witness :
    ∃ t', lookupTask (rebuildRuntimeTasks egEngineOld [(egId, egFreshA)]).tasks egId
        = some t' ∧
      (egOld.outputDir = egFreshA.outputDir →
        t'.lastText = egOld.lastText ∧ t'.lastTextHash = egOld.lastTextHash ∧
        t'.lastResources = egOld.lastResources ∧
        t'.baselineLength = egOld.baselineLength ∧
        t'.baselineTruncated = egOld.baselineTruncated) ∧
      (egOld.outputDir ≠ egFreshA.outputDir →
        t'.lastText = [] ∧ t'.lastTextHash = [] ∧ t'.lastResources = []) ∧
      t'.failureCount = egOld.failureCount ∧
      t'.blocked = egOld.blocked ∧
      t'.active = egOld.active :=
  C9_rebuild_carry_amended egEngineOld [(egId, egFreshA)] egId egOld egFreshA
    rfl rfl ⟨rfl, rfl, rfl, rfl, rfl, rfl, rfl, rfl, rfl, rfl, rfl, rfl⟩

theorem C9_changed_dir_carry_counterexample :
    ∃ t', lookupTask (rebuildRuntimeTasks egEngineOld [(egId, egFreshB)]).tasks egId
        = some t' ∧
      t'.outputDir = ['b'] ∧ t'.lastTextHash = [] ∧
      t'.failureCount = 3 ∧ t'.blocked = true := by
  refine ⟨_, rfl, ?_, ?_, ?_, ?_⟩ <;> decide

/-- C6 (exhibit): the mutual-exclusion invariant between pending timer, queue
membership and activity fails on a reachable state — after a rebuild while
running, the surviving old timer and the newly armed one coexist, and the old
one's fire launches the task while the new timer stays pending (first
conjunct); the re-entrancy guard itself holds: `enqueueExecution` is a no-op
for a task that is already active or already queued (second conjunct). -/
theorem C6_timer_exclusion :
    (ReachableE egE6 ∧ ∃ t, lookupTask egE6.tasks egId = some t ∧
      t.active = true ∧ t.timer = some 1 ∧ (1, egId) ∈ egE6.pendingTimers) ∧
    (∀ (E : Engine) (id : Str) (t : RTask), lookupTask E.tasks id = some t →
      (t.active = true ∨ id ∈ E.queuedIds) → enqueueExecution E id = E) := by
  constructor
  · refine ⟨egE6_reachable, ?_⟩
    exact ⟨_, rfl, rfl, rfl, by decide⟩
  · intro E id t ht hor
    unfold enqueueExecution
    split
    · rfl
    · split
      · rfl
      · rename_i t2 hlook
        rw [ht] at hlook
        cases hlook
        split
        · rfl
        · rfl

/-- C1: in every reachable engine state at most `maxConcurrency` executions
run simultaneously, and construction or reconfiguration in attach mode forces
`maxConcurrency = 1` regardless of the configured value. -/
theorem C1_concurrency_bound (E : Engine) (h : ReachableE E) :
    E.runningCount ≤ E.maxConcurrency ∧
    (∀ cfg : Option Int, (mkEngine true cfg).maxConcurrency = 1) ∧
    (∀ (F : Engine) (cfg : Option Int) (descs : List (Str × RTask)),
      (applyRuntimeOptions F true cfg descs).maxConcurrency = 1) :=
  ⟨(reachable_inv h).1.2.1, fun _ => rfl,
    fun F cfg descs => applyRuntimeOptions_attach_maxC F cfg descs⟩

theorem C1_concurrency_bound_witness :
    (mkEngine false none).runningCount ≤ (mkEngine false none).maxConcurrency ∧
    (∀ cfg : Option Int, (mkEngine true cfg).maxConcurrency = 1) ∧
    (∀ (F : Engine) (cfg : Option Int) (descs : List (Str × RTask)),
      (applyRuntimeOptions F true cfg descs).maxConcurrency = 1) :=
  C1_concurrency_bound (mkEngine false none) (ReachableE.init false none)

/-- The runtime task stored for `egId` in `egE4`. -/
def egT4 : RTask :=
  match lookupTask egE4.tasks egId with
  | some t => t
  | none => egFresh

/-- C3: from any reachable state, a task whose blocked flag is set stays
blocked, never becomes active, and never enters the run queue across any
chain of engine steps that neither unblocks this task nor drops it from the
configuration. -/
theorem C3_blocked_stays_blocked (E F : Engine) (id : Str) (t : RTask)
    (hR : ReachableE E) (ht : lookupTask E.tasks id = some t)
    (hb : t.blocked = true) (hc : ChainAvoiding id E F) :
    ∃ t', lookupTask F.tasks id = some t' ∧ t'.blocked = true ∧
      t'.active = false ∧ id ∉ F.runQueue ∧ id ∉ F.queuedIds := by
  obtain ⟨t', ht', hb'⟩ := chain_blocked_persist hc ⟨t, ht, hb⟩
  obtain ⟨hinv, -⟩ := reachable_inv (chain_reachable hc hR)
  obtain ⟨-, -, -, -, h5, -, h7⟩ := hinv
  obtain ⟨hact, hnq⟩ := h7 id t' ht' hb'
  exact ⟨t', ht', hb', hact, hnq, fun hm => hnq ((h5 id).mpr hm)⟩

theorem C3_blocked_stays_blocked_witness :
    ∃ t', lookupTask egE4.tasks egId = some t' ∧ t'.blocked = true ∧
      t'.active = false ∧ egId ∉ egE4.runQueue ∧ egId ∉ egE4.queuedIds :=
  C3_blocked_stays_blocked egE4 egE4 egId egT4 egE4_reachable rfl rfl
    (ChainAvoiding.refl egE4)

/-- C2: with no anti-bot verdict, no HTTP error and no stored baseline hash,
`checkTask` persists the current text, its hash and the normalized resource
list as the new baseline and emits exactly one baseline save — in particular
it records no change and writes no diff report, whatever the extracted
content. -/
theorem C2_first_check_baseline (hashFn : Str → Str) (hx : Bool) (T : CTask)
    (X : Extraction) (hab : X.antiBot = none)
    (hst : httpError X.responseStatus = false) (hnb : T.lastTextHash = []) :
    checkTaskModel hashFn hx T X = Except.ok
      ({ T with
          lastText := X.textToCompare
          lastTextHash := hashFn X.textToCompare
          baselineLength := X.textToCompare.length
          baselineTruncated := decide (BASELINE_MAX_CHARS < X.textToCompare.length)
          lastRenderedHtml := X.data
          lastResources := normResources X.resources },
        [CheckEv.savedBaselineAndState X.textToCompare (hashFn X.textToCompare)
          (normResources X.resources)]) ∧
    (∀ res, checkTaskModel hashFn hx T X = Except.ok res →
      CheckEv.changeRecorded ∉ res.2 ∧ CheckEv.wroteReport ∉ res.2) := by
  have hmain : checkTaskModel hashFn hx T X = Except.ok
      ({ T with
          lastText := X.textToCompare
          lastTextHash := hashFn X.textToCompare
          baselineLength := X.textToCompare.length
          baselineTruncated := decide (BASELINE_MAX_CHARS < X.textToCompare.length)
          lastRenderedHtml := X.data
          lastResources := normResources X.resources },
        [CheckEv.savedBaselineAndState X.textToCompare (hashFn X.textToCompare)
          (normResources X.resources)]) := by
    simp [checkTaskModel, hab, hst, hnb]
  refine ⟨hmain, ?_⟩
  intro res hres
  rw [hmain] at hres
  injection hres with h
  subst h
  constructor <;> simp

/-- A concrete hash function for the `checkTask` witnesses. -/
def egHash (s : Str) : Str := 'h' :: s

/-- A task state with no baseline yet. -/
def egT2 : CTask := ⟨[], [], [], [], none, 0, false, false, none⟩

/-- A benign extraction result. -/
def egX2 : Extraction := ⟨['d'], ['t'], [['r']], none, none⟩

theorem C2_first_check_baseline_witness :
    checkTaskModel egHash false egT2 egX2 = Except.ok
      ({ egT2 with
          lastText := egX2.textToCompare
          lastTextHash := egHash egX2.textToCompare
          baselineLength := egX2.textToCompare.length
          baselineTruncated := decide (BASELINE_MAX_CHARS < egX2.textToCompare.length)
          lastRenderedHtml := egX2.data
          lastResources := normResources egX2.resources },
        [CheckEv.savedBaselineAndState egX2.textToCompare (egHash egX2.textToCompare)
          (normResources egX2.resources)]) ∧
    (∀ res, checkTaskModel egHash false egT2 egX2 = Except.ok res →
      CheckEv.changeRecorded ∉ res.2 ∧ CheckEv.wroteReport ∉ res.2) :=
  C2_first_check_baseline egHash false egT2 egX2 rfl rfl rfl

/-- C4 (amended): with a required keyword set, an established baseline, a
changed text hash, and the keyword missing from the current text
(case-insensitively), no diff report is written, no baseline save happens,
and the stored baseline text, hash and rendered html stay unchanged;
however — correcting the claim — the in-memory resource list is still
replaced by the current one, and exactly when the resource list changed,
`state.json` is rewritten, pairing the old hash with the new resources. -/
theorem C4_keyword_filter_amended (hashFn : Str → Str) (hx : Bool) (T : CTask)
    (X : Extraction) (kw : Str) (res : CTask × List CheckEv)
    (hab : X.antiBot = none) (hst : httpError X.responseStatus = false)
    (hbase : T.lastTextHash.isEmpty = false)
    (hkw : T.requiredKeywordLower = some kw)
    (hchanged : hashFn X.textToCompare ≠ T.lastTextHash)
    (hmiss : ¬ (kw <:+: lowerStr X.textToCompare))
    (hres : checkTaskModel hashFn hx T X = Except.ok res) :
    res.1.lastText = T.lastText ∧ res.1.lastTextHash = T.lastTextHash ∧
    res.1.lastRenderedHtml = T.lastRenderedHtml ∧
    CheckEv.wroteReport ∉ res.2 ∧
    (∀ (a b : Str) (c : List Str), CheckEv.savedBaselineAndState a b c ∉ res.2) ∧
    res.1.lastResources = normResources X.resources ∧
    (resourcesChangedJS (normResources X.resources) T.lastResources = true ↔
      CheckEv.wroteStateJson T.lastTextHash (normResources X.resources) ∈ res.2) := by
  have hs : decide (kw <:+: lowerStr X.textToCompare) = false := decide_eq_false hmiss
  have htc : decide (hashFn X.textToCompare ≠ T.lastTextHash) = true :=
    decide_eq_true hchanged
  simp only [checkTaskModel, hab, hst, hbase, hkw, hs, htc, Bool.true_and, Bool.and_false,
    Bool.not_true, Bool.false_or, Bool.not_false, Bool.false_eq_true, if_false,
    if_true] at hres
  by_cases hrc : resourcesChangedJS (normResources X.resources) T.lastResources = true
  · rw [if_pos hrc] at hres
    injection hres with h
    subst h
    refine ⟨rfl, rfl, rfl, ?_, ?_, rfl, ?_⟩
    · simp only [List.nil_append, List.mem_append]
      rintro (hmem | hmem)
      · repeat' split at hmem
        all_goals simp at hmem
      · simp at hmem
    · intro a b c
      simp only [List.nil_append, List.mem_append]
      rintro (hmem | hmem)
      · repeat' split at hmem
        all_goals simp at hmem
      · simp at hmem
    · constructor
      · intro _
        simp
      · intro _
        exact hrc
  · rw [if_neg hrc] at hres
    injection hres with h
    subst h
    refine ⟨rfl, rfl, rfl, ?_, ?_, rfl, ?_⟩
    · simp only [List.nil_append]
      intro hmem
      repeat' split at hmem
      all_goals simp at hmem
    · intro a b c
      simp only [List.nil_append]
      intro hmem
      repeat' split at hmem
      all_goals simp at hmem
    · constructor
      · intro h
        exact absurd h hrc
      · intro hmem
        simp only [List.nil_append] at hmem
        repeat' split at hmem
        all_goals simp at hmem

/-- A task state with a baseline and a required keyword. -/
def egT4c : CTask := ⟨['p'], ['q'], ['h'], [], some ['k'], 1, false, false, none⟩

/-- An extraction whose text changed but lacks the keyword. -/
def egX4 : Extraction := ⟨[], ['x'], [], none, none⟩

/-- The result `checkTask` computes on `egT4c` and `egX4`. -/
def egRes4 : CTask × List CheckEv :=
  (⟨['p'], ['q'], ['h'], [], some ['k'], 1, false, false, none⟩, [])

theorem C4_keyword_filter_amended_witness :
    egRes4.1.lastText = egT4c.lastText ∧ egRes4.1.lastTextHash = egT4c.lastTextHash ∧
    egRes4.1.lastRenderedHtml = egT4c.lastRenderedHtml ∧
    CheckEv.wroteReport ∉ egRes4.2 ∧
    (∀ (a b : Str) (c : List Str), CheckEv.savedBaselineAndState a b c ∉ egRes4.2) ∧
    egRes4.1.lastResources = normResources egX4.resources ∧
    (resourcesChangedJS (normResources egX4.resources) egT4c.lastResources = true ↔
      CheckEv.wroteStateJson egT4c.lastTextHash (normResources egX4.resources)
        ∈ egRes4.2) :=
  C4_keyword_filter_amended (fun s => s) false egT4c egX4 ['k'] egRes4 rfl rfl rfl rfl
    (by decide) (by decide) rfl

/-- C4 (counterexample to "nothing is updated"): text hash changed, keyword
missing, but the resource list shrank — `checkTask` still rewrites
`state.json`, storing the old hash alongside the new resource list, and
replaces the in-memory resource list. -/
theorem C4_state_rewrite_counterexample :
    ∃ res, checkTaskModel (fun s => s) false
        ⟨['p'], ['q'], [], [['a'], ['b']], some ['k'], 1, false, false, none⟩
        ⟨[], ['x'], [['a']], none, none⟩ = Except.ok res ∧
      CheckEv.wroteStateJson ['q'] [['a']] ∈ res.2 ∧
      res.1.lastResources = [['a']] ∧ res.1.lastTextHash = ['q'] := by
  refine ⟨_, rfl, ?_, ?_, ?_⟩ <;> decide

/-- C8 (amended): whenever the render loop is not cut off by the
90000-character render cap, the reported similarity equals the specified
clamped ratio over the added and removed chunk totals; and the similarity of
a text with itself is 1, including for the empty text. -/
theorem C8_similarity_amended (p c A : Str)
    (h : (createDiffReport p c).renderTruncated = false) :
    (createDiffReport p c).similarity = similaritySpec p c ∧
    (createDiffReport A A).similarity = 1 ∧
    (createDiffReport [] []).similarity = 1 :=
  ⟨createDiffReport_spec_of_no_cap p c h, createDiffReport_self A,
    createDiffReport_self []⟩

theorem C8_similarity_amended_witness :
    (createDiffReport ['a'] ['b']).renderTruncated = false ∧
    ((createDiffReport ['a'] ['b']).similarity = similaritySpec ['a'] ['b'] ∧
      (createDiffReport ['x'] ['x']).similarity = 1 ∧
      (createDiffReport [] []).similarity = 1) := by
  have htok1 : tokenizeByWord ['a'] = [['a']] :=
    tokenize_single 'a' [] (by intro a ha; cases ha)
  have htok2 : tokenizeByWord ['b'] = [['b']] :=
    tokenize_single 'b' [] (by intro a ha; cases ha)
  have htr : (createDiffReport ['a'] ['b']).renderTruncated = false := by
    simp only [createDiffReport]
    rw [show (truncateText ['a'] MAX_COMPARE_CHARS).text = ['a'] from rfl,
      show (truncateText ['b'] MAX_COMPARE_CHARS).text = ['b'] from rfl,
      htok1, htok2, myers_pair ['a'] ['b'] (by decide)]
    rfl
  exact ⟨htr, C8_similarity_amended ['a'] ['b'] ['x'] htr⟩

/-! ### Evaluation helpers for the render-cap counterexample -/

theorem cap_lenA : (List.replicate 90001 'a').length = 90001 := by
  rw [List.length_replicate]

theorem cap_lenB : (List.replicate 90001 'b').length = 90001 := by
  rw [List.length_replicate]

theorem cap_ne : List.replicate 90001 'a' ≠ List.replicate 90001 'b' := by
  intro h
  rw [show (90001 : Nat) = 90000 + 1 from rfl, List.replicate_succ,
    List.replicate_succ] at h
  injection h with h1 _
  exact absurd h1 (by decide)

theorem cap_tokA : tokenizeByWord (List.replicate 90001 'a') = [List.replicate 90001 'a'] := by
  have h0 := tokenize_replicate 90000 'a'
  rw [show (90000 + 1 : Nat) = 90001 from rfl] at h0
  exact h0

theorem cap_tokB : tokenizeByWord (List.replicate 90001 'b') = [List.replicate 90001 'b'] := by
  have h0 := tokenize_replicate 90000 'b'
  rw [show (90000 + 1 : Nat) = 90001 from rfl] at h0
  exact h0

theorem cap_txtA : (truncateText (List.replicate 90001 'a') MAX_COMPARE_CHARS).text
    = List.replicate 90001 'a' := by
  unfold truncateText
  rw [if_pos (by rw [cap_lenA]; decide)]

theorem cap_txtB : (truncateText (List.replicate 90001 'b') MAX_COMPARE_CHARS).text
    = List.replicate 90001 'b' := by
  unfold truncateText
  rw [if_pos (by rw [cap_lenB]; decide)]

theorem cap_rendered_counts :
    (renderChunksToHtml [⟨DiffType.del, List.replicate 90001 'a'⟩,
      ⟨DiffType.add, List.replicate 90001 'b'⟩]).addedChars = 0 ∧
    (renderChunksToHtml [⟨DiffType.del, List.replicate 90001 'a'⟩,
      ⟨DiffType.add, List.replicate 90001 'b'⟩]).removedChars = 90001 := by
  unfold renderChunksToHtml
  rw [renderLoop_break_first ⟨DiffType.del, List.replicate 90001 'a'⟩
    [⟨DiffType.add, List.replicate 90001 'b'⟩] [] 0 0 0 (by decide)
    (by show MAX_RENDER_CHARS - 0 < (List.replicate 90001 'a').length
        rw [cap_lenA]
        decide)]
  dsimp only
  rw [show (if DiffType.del = DiffType.add
      then 0 + (List.replicate 90001 'a').length else 0) = 0 from if_neg (by decide)]
  rw [show (if DiffType.del = DiffType.del
      then 0 + (List.replicate 90001 'a').length else 0)
    = 0 + (List.replicate 90001 'a').length from if_pos rfl]
  rw [cap_lenA]
  exact ⟨rfl, rfl⟩

theorem cap_code_val :
    (createDiffReport (List.replicate 90001 'a') (List.replicate 90001 'b')).similarity
      = clampQ (1 - (((0 : Nat) : ℚ) + ((90001 : Nat) : ℚ))
          / (((90001 + 90001 : Nat)) : ℚ)) 0 1 := by
  simp only [createDiffReport, renderChunksToHtml]
  rw [cap_txtA, cap_txtB, cap_tokA, cap_tokB,
    myers_pair (List.replicate 90001 'a') (List.replicate 90001 'b') cap_ne]
  have hc := cap_rendered_counts
  unfold renderChunksToHtml at hc
  rw [hc.1, hc.2, cap_lenA, cap_lenB]
  rw [if_neg (show ¬((90001 : Nat) + 90001 = 0) from by decide)]

theorem cap_spec_mid :
    similaritySpec (List.replicate 90001 'a') (List.replicate 90001 'b')
      = (if (List.replicate 90001 'a').length + (List.replicate 90001 'b').length = 0
        then (1 : ℚ)
        else clampQ (1 -
          (((((([⟨DiffType.del, List.replicate 90001 'a'⟩,
              ⟨DiffType.add, List.replicate 90001 'b'⟩] : List DiffChunk).filter
                (fun c => c.type = DiffType.add)).map (fun c => c.value.length)).sum
                  : Nat) : ℚ) +
           ((((([⟨DiffType.del, List.replicate 90001 'a'⟩,
              ⟨DiffType.add, List.replicate 90001 'b'⟩] : List DiffChunk).filter
                (fun c => c.type = DiffType.del)).map (fun c => c.value.length)).sum
                  : Nat) : ℚ)) /
          (((List.replicate 90001 'a').length + (List.replicate 90001 'b').length
            : Nat) : ℚ)) 0 1) := by
  simp only [similaritySpec]
  rw [cap_txtA, cap_txtB, cap_tokA, cap_tokB,
    myers_pair (List.replicate 90001 'a') (List.replicate 90001 'b') cap_ne]

theorem cap_spec_val :
    similaritySpec (List.replicate 90001 'a') (List.replicate 90001 'b')
      = clampQ (1 - (((90001 : Nat) : ℚ) + ((90001 : Nat) : ℚ))
          / (((90001 + 90001 : Nat)) : ℚ)) 0 1 := by
  rw [cap_spec_mid]
  rw [show (([⟨DiffType.del, List.replicate 90001 'a'⟩,
      ⟨DiffType.add, List.replicate 90001 'b'⟩] : List DiffChunk).filter
        (fun c => c.type = DiffType.add))
      = [⟨DiffType.add, List.replicate 90001 'b'⟩] from rfl]
  rw [show (([⟨DiffType.del, List.replicate 90001 'a'⟩,
      ⟨DiffType.add, List.replicate 90001 'b'⟩] : List DiffChunk).filter
        (fun c => c.type = DiffType.del))
      = [⟨DiffType.del, List.replicate 90001 'a'⟩] from rfl]
  rw [List.map_singleton, List.sum_singleton, List.map_singleton, List.sum_singleton]
  rw [show (⟨DiffType.add, List.replicate 90001 'b'⟩ : DiffChunk).value.length
      = (List.replicate 90001 'b').length from rfl]
  rw [show (⟨DiffType.del, List.replicate 90001 'a'⟩ : DiffChunk).value.length
      = (List.replicate 90001 'a').length from rfl]
  rw [cap_lenA, cap_lenB]
  rw [if_neg (show ¬((90001 : Nat) + 90001 = 0) from by decide)]

/-- C8 (counterexample): two uniform 90001-character texts exceed the render
cap; the render loop stops counting after the removed chunk, so the reported
similarity is about one half while the chunk totals give similarity 0. -/
theorem C8_render_cap_counterexample :
    (createDiffReport (List.replicate 90001 'a') (List.replicate 90001 'b')).similarity ≠
      similaritySpec (List.replicate 90001 'a') (List.replicate 90001 'b') := by
  rw [cap_code_val, cap_spec_val]
  norm_num [clampQ, min_def, max_def]

end WM
